import Mathlib

/-!
# Bareflank unwind library: the `.eh_frame` reader (`bfunwind/src/eh_frame.cpp`)

A shallow embedding of the CFI record reader: the pointer decoder, the record
cursor (`common_entry`), the CIE parser (`ci_entry`), the FDE parser
(`fd_entry`) and the module frame finder (`eh_frame::find_fde`). The vcpu
manager (`bfvmm/src/vcpu/src/vcpu_manager.cpp`) follows in the namespace
`VcpuManager`.

Conventions of the embedding
* Memory is a total map from addresses to bytes; an address is a 64-bit
  machine word, represented by a natural number, and every pointer or
  `uint64_t` computation is reduced modulo `2^64` where the machine would wrap.
* A function of the source that mutates `*this` takes the object and returns
  the updated object.
* `ABORT(...)` is the result `Except.error Fault.abort`; a loop of the source
  that has no bound of its own runs on fuel, and running out of it is
  `Except.error Fault.timeout`.
-/

namespace EhFrame

/-! ## Machine words and memory -/

/-- Number of values of a 64-bit word. -/
abbrev W64 : Nat := 18446744073709551616

/-- Number of values of a 32-bit word (the type of `1U`). -/
abbrev W32 : Nat := 4294967296

/-- Byte-addressed memory. -/
abbrev Mem := Nat → Nat

/-- The byte at address `a`, read as `*(uint8_t *)a`. -/
def rd8 (m : Mem) (a : Nat) : Nat := m (a % W64) % 256

/-- Little-endian `*(uint16_t *)a`. -/
def rd16 (m : Mem) (a : Nat) : Nat := rd8 m a + 256 * rd8 m (a + 1)

/-- Little-endian `*(uint32_t *)a`. -/
def rd32 (m : Mem) (a : Nat) : Nat := rd16 m a + 65536 * rd16 m (a + 2)

/-- Little-endian `*(uint64_t *)a`. -/
def rd64 (m : Mem) (a : Nat) : Nat := rd32 m a + 4294967296 * rd32 m (a + 4)

/-- The conversion `(uint64_t)(intN_t)v` of an `bits`-bit two's complement
value `v` (given as its unsigned bit pattern): sign extension to 64 bits. -/
def sext (bits : Nat) (v : Nat) : Nat :=
  if v < 2 ^ (bits - 1) then v else v + (W64 - 2 ^ bits)

/-- How a call can fail to return: a fatal `ABORT`, or fuel exhaustion of a
loop that has not terminated. -/
inductive Fault where
  | abort : Fault
  | timeout : Fault
deriving DecidableEq, Repr

/-! ## The section descriptor and the record cursor -/

/-- The section descriptor `eh_frame_t`: base address and byte size. -/
structure eh_frame_t where
  addr : Nat
  size : Nat
deriving DecidableEq, Repr

/-- The class `common_entry`: the record cursor. -/
structure common_entry where
  m_is_cie : Bool
  m_entry_start : Nat
  m_entry_end : Nat
  m_payload_start : Nat
  m_payload_end : Nat
  m_eh_frame : eh_frame_t
deriving DecidableEq, Repr

/-- The constructor `common_entry::common_entry()`. -/
def common_entry.default : common_entry :=
  { m_is_cie := false, m_entry_start := 0, m_entry_end := 0,
    m_payload_start := 0, m_payload_end := 0, m_eh_frame := ⟨0, 0⟩ }

/-- The constructor `common_entry::common_entry(const eh_frame_t &)`. -/
def common_entry.of_frame (eh : eh_frame_t) : common_entry :=
  { m_is_cie := false, m_entry_start := 0, m_entry_end := 0,
    m_payload_start := 0, m_payload_end := 0, m_eh_frame := eh }

/-- The `failure:` label of `common_entry::parse`. -/
def common_entry.failure (self : common_entry) : common_entry :=
  { self with m_is_cie := false, m_entry_start := 0, m_entry_end := 0,
              m_payload_start := 0, m_payload_end := 0 }

/-- The function `common_entry::parse(char *addr)`. -/
def common_entry.parse (m : Mem) (self : common_entry) (addr : Nat) : common_entry :=
  if addr = 0 then self.failure
  else if addr < self.m_eh_frame.addr then self.failure
  else
    let len := if rd32 m addr ≠ 0xFFFFFFFF then rd32 m addr else rd64 m (addr + 4)
    let payload_start :=
      if rd32 m addr ≠ 0xFFFFFFFF then (addr + 4) % W64 else (addr + 12) % W64
    if len = 0 then self.failure
    else
      let payload_end := (payload_start + len) % W64
      if payload_end > (self.m_eh_frame.addr + self.m_eh_frame.size) % W64 then self.failure
      else
        { self with m_entry_start := addr, m_payload_start := payload_start,
                    m_payload_end := payload_end, m_entry_end := payload_end,
                    m_is_cie := decide (rd32 m payload_start = 0) }

/-- The function `common_entry::operator++()`, for an object whose dynamic
type is `common_entry` itself (the re-parse is `common_entry::parse`). -/
def common_entry.inc (m : Mem) (self : common_entry) : common_entry :=
  if self.m_entry_start = 0 then self
  else if (self.m_entry_end + 4) % W64 < (self.m_eh_frame.addr + self.m_eh_frame.size) % W64 then
    self.parse m self.m_entry_end
  else
    self.parse m 0

/-- Memory holding the bytes `bs` from address `base` on, zero elsewhere. -/
def memOf (base : Nat) (bs : List Nat) : Mem :=
  fun a => if base ≤ a then bs.getD (a - base) 0 else 0

/-! ## Pointer encodings and the LEB128 primitives -/

/-- Pointer encoding constants of `dwarf4.h` (DWARF exception header encodings). -/
def DW_EH_PE_absptr : Nat := 0x00
def DW_EH_PE_uleb128 : Nat := 0x01
def DW_EH_PE_udata2 : Nat := 0x02
def DW_EH_PE_udata4 : Nat := 0x03
def DW_EH_PE_udata8 : Nat := 0x04
def DW_EH_PE_sleb128 : Nat := 0x09
def DW_EH_PE_sdata2 : Nat := 0x0A
def DW_EH_PE_sdata4 : Nat := 0x0B
def DW_EH_PE_sdata8 : Nat := 0x0C
def DW_EH_PE_pcrel : Nat := 0x10
def DW_EH_PE_textrel : Nat := 0x20
def DW_EH_PE_datarel : Nat := 0x30
def DW_EH_PE_funcrel : Nat := 0x40
def DW_EH_PE_aligned : Nat := 0x50
def DW_EH_PE_omit : Nat := 0xFF

/-- Modelled from the spec: the body of the unsigned LEB128 primitive, which is
not part of the sources at hand. It reads bytes from `p` up to the first one
whose bit `0x80` is clear, each contributing its low 7 bits, least significant
group first, and returns the value with the number of bytes read. -/
def uleb128_raw : Nat → Mem → Nat → Except Fault (Nat × Nat)
  | 0, _, _ => .error .timeout
  | f + 1, m, p =>
    if rd8 m p < 128 then .ok (rd8 m p, 1)
    else
      match uleb128_raw f m (p + 1) with
      | .ok (v, n) => .ok (rd8 m p % 128 + 128 * v, n + 1)
      | .error e => .error e

/-- Modelled from the spec: `dwarf4::decode_uleb128(char **addr)`, the unsigned
variable-length integer decode that advances the cursor. The result is the
decoded value as a `uint64_t` and the advanced cursor. -/
def decode_uleb128 (fuel : Nat) (m : Mem) (p : Nat) : Except Fault (Nat × Nat) :=
  match uleb128_raw fuel m p with
  | .ok (v, n) => .ok (v % W64, (p + n) % W64)
  | .error e => .error e

/-- Modelled from the spec: the body of the signed LEB128 primitive, which is
not part of the sources at hand. As `uleb128_raw`, with bit `0x40` of the last
byte as the sign. -/
def sleb128_raw : Nat → Mem → Nat → Except Fault (Int × Nat)
  | 0, _, _ => .error .timeout
  | f + 1, m, p =>
    if rd8 m p < 128 then
      .ok (if rd8 m p < 64 then (rd8 m p : Int) else (rd8 m p : Int) - 128, 1)
    else
      match sleb128_raw f m (p + 1) with
      | .ok (v, n) => .ok (((rd8 m p % 128 : Nat) : Int) + 128 * v, n + 1)
      | .error e => .error e

/-- Modelled from the spec: `dwarf4::decode_sleb128(char **addr)`, the signed
variable-length integer decode that advances the cursor. The result is the
decoded value as an `int64_t` and the advanced cursor. -/
def decode_sleb128 (fuel : Nat) (m : Mem) (p : Nat) : Except Fault (Int × Nat) :=
  match sleb128_raw fuel m p with
  | .ok (v, n) => .ok (Int.bmod v W64, (p + n) % W64)
  | .error e => .error e

/-- The conversion `(uint64_t)v` of an `int64_t`. -/
def to_u64 (v : Int) : Nat := (v % (W64 : Int)).toNat

/-! ## The pointer decoder -/

/-- The first `switch` of `decode_pointer`, on `encoding & 0x70`: the base
contribution to `result`, or a fatal abort. -/
def decode_pointer_base (addr : Nat) (encoding : Nat) : Except Fault Nat :=
  if encoding &&& 0x70 = DW_EH_PE_absptr then .ok 0
  else if encoding &&& 0x70 = DW_EH_PE_pcrel then .ok (addr % W64)
  else if encoding &&& 0x70 = DW_EH_PE_textrel then .error .abort
  else if encoding &&& 0x70 = DW_EH_PE_datarel then .error .abort
  else if encoding &&& 0x70 = DW_EH_PE_funcrel then .error .abort
  else if encoding &&& 0x70 = DW_EH_PE_aligned then .error .abort
  else .error .abort

/-- The second `switch` of `decode_pointer`, on `encoding & 0x0F`: the value
read at the cursor, converted to `uint64_t`, and the advanced cursor, or a
fatal abort. -/
def decode_pointer_value (fuel : Nat) (m : Mem) (addr : Nat) (encoding : Nat) :
    Except Fault (Nat × Nat) :=
  if encoding &&& 0x0F = DW_EH_PE_absptr then .ok (rd64 m addr, (addr + 8) % W64)
  else if encoding &&& 0x0F = DW_EH_PE_uleb128 then decode_uleb128 fuel m addr
  else if encoding &&& 0x0F = DW_EH_PE_udata2 then .ok (rd16 m addr, (addr + 2) % W64)
  else if encoding &&& 0x0F = DW_EH_PE_udata4 then .ok (rd32 m addr, (addr + 4) % W64)
  else if encoding &&& 0x0F = DW_EH_PE_udata8 then .ok (rd64 m addr, (addr + 8) % W64)
  else if encoding &&& 0x0F = DW_EH_PE_sleb128 then
    match decode_sleb128 fuel m addr with
    | .ok (v, p) => .ok (to_u64 v, p)
    | .error e => .error e
  else if encoding &&& 0x0F = DW_EH_PE_sdata2 then .ok (sext 16 (rd16 m addr), (addr + 2) % W64)
  else if encoding &&& 0x0F = DW_EH_PE_sdata4 then .ok (sext 32 (rd32 m addr), (addr + 4) % W64)
  else if encoding &&& 0x0F = DW_EH_PE_sdata8 then .ok (sext 64 (rd64 m addr), (addr + 8) % W64)
  else .error .abort

/-- The function `decode_pointer(char **addr, uint64_t encoding)`: the result
and the value of `*addr` on return. -/
def decode_pointer (fuel : Nat) (m : Mem) (addr : Nat) (encoding : Nat) :
    Except Fault (Nat × Nat) :=
  if encoding = DW_EH_PE_omit then .ok (0, addr)
  else
    match decode_pointer_base addr encoding with
    | .error e => .error e
    | .ok result =>
      match decode_pointer_value fuel m addr encoding with
      | .error e => .error e
      | .ok (v, p) => .ok ((result + v) % W64, p)

/-! ## The CIE parser -/

/-- The class `ci_entry`. -/
structure ci_entry extends common_entry where
  m_augmentation_string : Nat
  m_code_alignment : Nat
  m_data_alignment : Int
  m_return_address_reg : Nat
  m_pointer_encoding : Nat
  m_lsda_encoding : Nat
  m_personality_encoding : Nat
  m_personality_function : Nat
  m_initial_instructions : Nat
deriving DecidableEq, Repr

/-- The member initialisers shared by the constructors of `ci_entry`, over a
given cursor base object. -/
def ci_entry.init (c : common_entry) : ci_entry :=
  { tocommon_entry := c, m_augmentation_string := 0, m_code_alignment := 0,
    m_data_alignment := 0, m_return_address_reg := 0, m_pointer_encoding := 0,
    m_lsda_encoding := 0, m_personality_encoding := 0, m_personality_function := 0,
    m_initial_instructions := 0 }

/-- The constructor `ci_entry::ci_entry()`. -/
def ci_entry.default : ci_entry := ci_entry.init common_entry.default

/-- The loop `while (*p++ != 0);`: the cursor just after the first NUL byte. -/
def skip_string : Nat → Mem → Nat → Except Fault Nat
  | 0, _, _ => .error .timeout
  | f + 1, m, p =>
    if rd8 m p ≠ 0 then skip_string f m ((p + 1) % W64) else .ok ((p + 1) % W64)

/-- The `for` loop of `ci_entry::parse` over the augmentation string, from
index `i` with cursor `p`; `n` is the fuel of the loop itself. -/
def ci_entry.aug_loop (fuel : Nat) (m : Mem) (len : Nat) :
    Nat → Nat → ci_entry → Nat → Except Fault (ci_entry × Nat)
  | 0, _, _, _ => .error .timeout
  | n + 1, i, self, p =>
    let ch := rd8 m (self.m_augmentation_string + i)
    if ch ≠ 0 ∧ i ≤ len then
      if ch = 0x4C then -- case L
        ci_entry.aug_loop fuel m len n ((i + 1) % W32)
          { self with m_lsda_encoding := rd8 m p } ((p + 1) % W64)
      else if ch = 0x50 then -- case P
        match decode_pointer fuel m ((p + 1) % W64) (rd8 m p) with
        | .error e => .error e
        | .ok (v, q) =>
          ci_entry.aug_loop fuel m len n ((i + 1) % W32)
            { self with m_personality_encoding := rd8 m p, m_personality_function := v } q
      else if ch = 0x52 then -- case R
        ci_entry.aug_loop fuel m len n ((i + 1) % W32)
          { self with m_pointer_encoding := rd8 m p } ((p + 1) % W64)
      else .error .abort
    else .ok (self, p)

/-- The function `ci_entry::parse(char *addr)`. -/
def ci_entry.parse (fuel : Nat) (m : Mem) (self : ci_entry) (addr : Nat) :
    Except Fault ci_entry :=
  let self := { self with tocommon_entry := self.tocommon_entry.parse m addr }
  if self.m_entry_start = 0 then .ok self
  else if self.m_is_cie = false then .ok self
  else
    let aug := (self.m_payload_start + 4 + 1) % W64
    match skip_string fuel m aug with
    | .error e => .error e
    | .ok p =>
    match decode_uleb128 fuel m p with
    | .error e => .error e
    | .ok (code_alignment, p) =>
    match decode_sleb128 fuel m p with
    | .error e => .error e
    | .ok (data_alignment, p) =>
    match decode_uleb128 fuel m p with
    | .error e => .error e
    | .ok (return_address_reg, p) =>
    let self := { self with m_augmentation_string := aug, m_code_alignment := code_alignment,
                            m_data_alignment := data_alignment,
                            m_return_address_reg := return_address_reg }
    if rd8 m aug = 0x7A then -- the character z
      match decode_uleb128 fuel m p with
      | .error e => .error e
      | .ok (len, p) =>
        match ci_entry.aug_loop fuel m len fuel 1 self p with
        | .error e => .error e
        | .ok (self, p) => .ok { self with m_initial_instructions := p }
    else .ok { self with m_initial_instructions := p }

/-- The constructor `ci_entry::ci_entry(const eh_frame_t &, void *addr)`. -/
def ci_entry.at (fuel : Nat) (m : Mem) (eh : eh_frame_t) (addr : Nat) : Except Fault ci_entry :=
  (ci_entry.init (common_entry.of_frame eh)).parse fuel m addr

/-! ## The FDE parser -/

/-- The class `fd_entry`. -/
structure fd_entry extends common_entry where
  m_cie : ci_entry
  m_pc_begin : Nat
  m_pc_range : Nat
  m_lsda : Nat
  m_instructions : Nat
deriving DecidableEq, Repr

/-- The member initialisers shared by the constructors of `fd_entry`, over a
given cursor base object; `m_cie` is default-constructed. -/
def fd_entry.init (c : common_entry) : fd_entry :=
  { tocommon_entry := c, m_cie := ci_entry.default, m_pc_begin := 0, m_pc_range := 0,
    m_lsda := 0, m_instructions := 0 }

/-- The constructor `fd_entry::fd_entry()`. -/
def fd_entry.default : fd_entry := fd_entry.init common_entry.default

/-- The accessor `ci_entry::augmentation_string(index)`. -/
def ci_entry.augmentation_string (m : Mem) (self : ci_entry) (i : Nat) : Nat :=
  rd8 m (self.m_augmentation_string + i)

/-- The `for` loop of `fd_entry::parse` over the augmentation string of the
CIE, from index `i` with cursor `p`; `n` is the fuel of the loop itself. -/
def fd_entry.aug_loop (fuel : Nat) (m : Mem) (len : Nat) :
    Nat → Nat → fd_entry → Nat → Except Fault (fd_entry × Nat)
  | 0, _, _, _ => .error .timeout
  | n + 1, i, self, p =>
    let ch := self.m_cie.augmentation_string m i
    if ch ≠ 0 ∧ i ≤ len then
      if ch = 0x4C then -- case L
        match decode_pointer fuel m p self.m_cie.m_lsda_encoding with
        | .error e => .error e
        | .ok (v, q) =>
          fd_entry.aug_loop fuel m len n ((i + 1) % W32) { self with m_lsda := v } q
      else if ch = 0x50 then -- case P
        fd_entry.aug_loop fuel m len n ((i + 1) % W32) self p
      else if ch = 0x52 then -- case R
        fd_entry.aug_loop fuel m len n ((i + 1) % W32) self p
      else .error .abort
    else .ok (self, p)

/-- The function `fd_entry::parse(char *addr)`. -/
def fd_entry.parse (fuel : Nat) (m : Mem) (self : fd_entry) (addr : Nat) :
    Except Fault fd_entry :=
  let self := { self with tocommon_entry := self.tocommon_entry.parse m addr }
  if self.m_entry_start = 0 then .ok self
  else if self.m_is_cie = true then .ok self
  else
    let p := self.m_payload_start
    let p_cie := (p + W64 - rd32 m p) % W64
    match ci_entry.at fuel m self.m_eh_frame p_cie with
    | .error e => .error e
    | .ok cie =>
    let self := { self with m_cie := cie }
    let p := (p + 4) % W64
    match decode_pointer fuel m p cie.m_pointer_encoding with
    | .error e => .error e
    | .ok (pc_begin, p) =>
    match decode_pointer fuel m p (cie.m_pointer_encoding &&& 0xF) with
    | .error e => .error e
    | .ok (pc_range, p) =>
    let self := { self with m_pc_begin := pc_begin, m_pc_range := pc_range }
    if cie.augmentation_string m 0 = 0x7A then -- the character z
      match decode_uleb128 fuel m p with
      | .error e => .error e
      | .ok (len, p) =>
        match fd_entry.aug_loop fuel m len fuel 1 self p with
        | .error e => .error e
        | .ok (self, p) => .ok { self with m_instructions := p }
    else .ok { self with m_instructions := p }

/-- The constructor `fd_entry::fd_entry(const eh_frame_t &, void *addr)`. -/
def fd_entry.at (fuel : Nat) (m : Mem) (eh : eh_frame_t) (addr : Nat) : Except Fault fd_entry :=
  (fd_entry.init (common_entry.of_frame eh)).parse fuel m addr

/-- The constructor `fd_entry::fd_entry(const eh_frame_t &)`: parse at the
section base. -/
def fd_entry.first (fuel : Nat) (m : Mem) (eh : eh_frame_t) : Except Fault fd_entry :=
  fd_entry.at fuel m eh eh.addr

/-- The function `common_entry::operator++()` on an `fd_entry`: `parse` is
virtual, so the re-parse is `fd_entry::parse` on the same object. -/
def fd_entry.inc (fuel : Nat) (m : Mem) (self : fd_entry) : Except Fault fd_entry :=
  if self.m_entry_start = 0 then .ok self
  else if (self.m_entry_end + 4) % W64 < (self.m_eh_frame.addr + self.m_eh_frame.size) % W64 then
    self.parse fuel m self.m_entry_end
  else
    self.parse fuel m 0

/-- Modelled from the spec: `fd_entry::is_in_range`, defined in a header that is
not part of the sources at hand. The range membership test is
`pc_begin <= ip < pc_begin + pc_range`. -/
def fd_entry.is_in_range (self : fd_entry) (ip : Nat) : Bool :=
  decide (self.m_pc_begin ≤ ip ∧ ip < self.m_pc_begin + self.m_pc_range)

/-! ## The module frame finder -/

/-- The inner `for` loop of `eh_frame::find_fde` over the records of one
module, from the cursor `fde`: `some` of the returned FDE, or `none` when the
cursor became terminal. -/
def find_fde_module (fuel : Nat) (m : Mem) (ip : Nat) :
    Nat → fd_entry → Except Fault (Option fd_entry)
  | 0, _ => .error .timeout
  | n + 1, fde =>
    if fde.m_entry_start = 0 then .ok none
    else if fde.m_is_cie = true then
      match fde.inc fuel m with
      | .error e => .error e
      | .ok fde => find_fde_module fuel m ip n fde
    else if fde.is_in_range ip = true then .ok (some fde)
    else
      match fde.inc fuel m with
      | .error e => .error e
      | .ok fde => find_fde_module fuel m ip n fde

/-- The function `eh_frame::find_fde(register_state *state)`: `eh_frame_list` is
the table returned by `get_eh_frame_list()` (its `MAX_NUM_MODULES` slots, in
order) and `ip` is `state->get_ip()`. The diagnostic output is not modelled. -/
def find_fde (fuel : Nat) (m : Mem) (ip : Nat) : List eh_frame_t → Except Fault fd_entry
  | [] => .ok fd_entry.default
  | eh :: rest =>
    match fd_entry.first fuel m eh with
    | .error e => .error e
    | .ok fde =>
      match find_fde_module fuel m ip fuel fde with
      | .error e => .error e
      | .ok (some r) => .ok r
      | .ok none => find_fde fuel m ip rest

/-! ## A concrete section -/

/-- The bytes of a minimal section: one CIE (`zR`, absptr, code alignment 1, data
alignment -4, return address register 16), one FDE (`pc_begin = 0x1000`,
`pc_range = 0x40`) and the terminator. -/
def demo_bytes : List Nat :=
  [ 0x10, 0, 0, 0,            -- CIE length 16
    0, 0, 0, 0,               -- CIE id
    1,                        -- version
    0x7A, 0x52, 0,            -- zR
    0x01,                     -- code alignment 1
    0x7C,                     -- data alignment -4
    0x10,                     -- return address register 16
    0x01,                     -- augmentation data length
    0x00,                     -- pointer encoding absptr
    0, 0, 0,                  -- initial instructions
    0x18, 0, 0, 0,            -- FDE length 24
    0x18, 0, 0, 0,            -- CIE pointer
    0x00, 0x10, 0, 0, 0, 0, 0, 0,   -- pc_begin
    0x40, 0, 0, 0, 0, 0, 0, 0,      -- pc_range
    0x00,                     -- augmentation data length
    0, 0, 0,                  -- instructions
    0, 0, 0, 0 ]              -- terminator

/-- The section descriptor of the concrete section, at address `0x2000`. -/
def demo_frame : eh_frame_t := ⟨0x2000, 52⟩

/-- The memory holding the concrete section. -/
def demo_mem : Mem := memOf 0x2000 demo_bytes

/-! ## Specification-side notions for the module frame finder -/

/-- The records the cursor of one module visits from `fde` on, in iteration
order, up to the terminal state: each is the object as `operator++` left it. -/
def visited_from (fuel : Nat) (m : Mem) : Nat → fd_entry → Except Fault (List fd_entry)
  | 0, _ => .error .timeout
  | n + 1, fde =>
    if fde.m_entry_start = 0 then .ok []
    else
      match fde.inc fuel m with
      | .error e => .error e
      | .ok next =>
        match visited_from fuel m n next with
        | .error e => .error e
        | .ok rs => .ok (fde :: rs)

/-- The records of one module, from the section base. -/
def module_records (fuel : Nat) (m : Mem) (eh : eh_frame_t) : Except Fault (List fd_entry) :=
  match fd_entry.first fuel m eh with
  | .error e => .error e
  | .ok fde => visited_from fuel m fuel fde

/-- The test a returned record passes: it is an FDE and its range holds `ip`. -/
def covers (ip : Nat) (r : fd_entry) : Bool := !r.m_is_cie && r.is_in_range ip

/-- The records of the concrete section. -/
def demo_records : List fd_entry :=
  match module_records 20 demo_mem demo_frame with
  | .ok rs => rs
  | .error _ => []

/-! ## Specification-side notions for the record cursor -/

/-- The cursor invariant of the data model: the cursor is terminal, or the
record lies inside the section with a non-empty payload. -/
def cursor_inv (c : common_entry) : Prop :=
  c.m_entry_start = 0 ∨
    (c.m_eh_frame.addr ≤ c.m_entry_start ∧ c.m_entry_start < c.m_entry_end
      ∧ c.m_entry_end ≤ c.m_payload_end
      ∧ c.m_payload_end ≤ c.m_eh_frame.addr + c.m_eh_frame.size
      ∧ c.m_payload_start < c.m_payload_end)

/-- The section descriptor of a section of 256 bytes at address `0x1000`. -/
def wrap_frame : eh_frame_t := ⟨0x1000, 0x100⟩

/-- Memory whose record at `0x1000` has the extended-length marker followed by
the 8-byte length `2^64 - 16`. -/
def wrap_mem : Mem :=
  memOf 0x1000 [0xFF, 0xFF, 0xFF, 0xFF, 0xF0, 0xFF, 0xFF, 0xFF, 0xFF, 0xFF, 0xFF, 0xFF]

/-- The header of a record of a well-formed stream: whether its length is the
8-byte extended one, and the length. -/
structure rec_hdr where
  ext : Bool
  len : Nat
deriving DecidableEq, Repr

/-- Number of bytes of the length field(s) of a record. -/
def rec_hdr.hdr_size (h : rec_hdr) : Nat := if h.ext then 12 else 4

/-- Number of bytes of a whole record. -/
def rec_hdr.size (h : rec_hdr) : Nat := h.hdr_size + h.len

/-- The memory at `a` holds the length field(s) of a record with header `h`,
whose length is not zero. -/
def holds_hdr (m : Mem) (a : Nat) (h : rec_hdr) : Prop :=
  h.len ≠ 0 ∧
    (if h.ext then rd32 m a = 0xFFFFFFFF ∧ rd64 m (a + 4) = h.len
     else rd32 m a = h.len ∧ h.len ≠ 0xFFFFFFFF)

/-- The bytes of the section from `a` on are the records `hs`, back to back and
each wholly inside the section, followed by a 4-byte zero length. -/
def well_formed_stream (m : Mem) (eh : eh_frame_t) : Nat → List rec_hdr → Prop
  | a, [] => rd32 m a = 0 ∧ a + 4 ≤ eh.addr + eh.size
  | a, h :: hs =>
    holds_hdr m a h ∧ a + h.size ≤ eh.addr + eh.size ∧ well_formed_stream m eh (a + h.size) hs

/-- The cursor state that describes the record with header `h` at `a`. -/
def record_at (m : Mem) (eh : eh_frame_t) (a : Nat) (h : rec_hdr) : common_entry :=
  { m_is_cie := decide (rd32 m (a + h.hdr_size) = 0), m_entry_start := a,
    m_entry_end := a + h.size, m_payload_start := a + h.hdr_size,
    m_payload_end := a + h.size, m_eh_frame := eh }

/-- The cursor states of the records `hs` laid out from `a` on, in address order. -/
def stream_records (m : Mem) (eh : eh_frame_t) : Nat → List rec_hdr → List common_entry
  | _, [] => []
  | a, h :: hs => record_at m eh a h :: stream_records m eh (a + h.size) hs

/-- The non-terminal cursor states met from `c` on by at most `n` applications
of `operator++`, in order. -/
def common_entry.visit (m : Mem) : Nat → common_entry → List common_entry
  | 0, _ => []
  | n + 1, c => if c.m_entry_start = 0 then [] else c :: common_entry.visit m n (c.inc m)

/-- A stream of three records at `0x2000`: two with a 4-byte length and one
with an extended length, then the terminator. -/
def stream_bytes : List Nat :=
  [ 5, 0, 0, 0,   1, 2, 3, 4, 5,
    0xFF, 0xFF, 0xFF, 0xFF,   2, 0, 0, 0, 0, 0, 0, 0,   0, 0,
    4, 0, 0, 0,   9, 9, 9, 9,
    0, 0, 0, 0 ]

/-- The memory holding the stream of three records. -/
def stream_mem : Mem := memOf 0x2000 stream_bytes

/-- The section descriptor of the stream of three records. -/
def stream_frame : eh_frame_t := ⟨0x2000, 35⟩

/-- The FDE of the concrete section, as `fd_entry::fd_entry(eh_frame, addr)`
builds it at `0x2014`. -/
def demo_fde : fd_entry :=
  match fd_entry.at 20 demo_mem demo_frame 0x2014 with
  | .ok fde => fde
  | .error _ => fd_entry.default

/-- The start of an entry held in a result, 1 when there is none. -/
def start_of (r : Except Fault ci_entry) : Nat :=
  match r with
  | .ok c => c.m_entry_start
  | .error _ => 1

/-- The bytes at `p'` in `m'` are the bytes at `p` in `m`. -/
def same_bytes (m : Mem) (p : Nat) (m' : Mem) (p' : Nat) : Prop :=
  ∀ i : Nat, rd8 m' (p' + i) = rd8 m (p + i)

/-- The augmentation letters the parsers know. -/
inductive aug_letter where
  | L : aug_letter
  | P : aug_letter
  | R : aug_letter
deriving DecidableEq, Repr

/-- The character code of an augmentation letter. -/
def aug_letter.code : aug_letter → Nat
  | .L => 0x4C
  | .P => 0x50
  | .R => 0x52

/-- The memory holds the bytes `bs` from address `a` on. -/
def holds_bytes (m : Mem) : Nat → List Nat → Prop
  | _, [] => True
  | a, b :: bs => rd8 m a = b ∧ holds_bytes m (a + 1) bs

/-- The number of bytes an encoded pointer occupies at `addr`: none for `omit`,
otherwise the width of the format in the lower nibble of the encoding. -/
def pointer_size (fuel : Nat) (m : Mem) (addr : Nat) (encoding : Nat) : Except Fault Nat :=
  if encoding = DW_EH_PE_omit then .ok 0
  else if encoding &&& 0x0F = DW_EH_PE_absptr then .ok 8
  else if encoding &&& 0x0F = DW_EH_PE_uleb128 then
    match uleb128_raw fuel m addr with
    | .ok (_, n) => .ok n
    | .error e => .error e
  else if encoding &&& 0x0F = DW_EH_PE_udata2 then .ok 2
  else if encoding &&& 0x0F = DW_EH_PE_udata4 then .ok 4
  else if encoding &&& 0x0F = DW_EH_PE_udata8 then .ok 8
  else if encoding &&& 0x0F = DW_EH_PE_sleb128 then
    match sleb128_raw fuel m addr with
    | .ok (_, n) => .ok n
    | .error e => .error e
  else if encoding &&& 0x0F = DW_EH_PE_sdata2 then .ok 2
  else if encoding &&& 0x0F = DW_EH_PE_sdata4 then .ok 4
  else if encoding &&& 0x0F = DW_EH_PE_sdata8 then .ok 8
  else .error .abort

/-- The fields of a CIE that its augmentation data fills. -/
structure aug_data where
  lsda_encoding : Nat
  personality_encoding : Nat
  personality_function : Nat
  pointer_encoding : Nat
deriving DecidableEq, Repr

/-- The augmentation data of a CIE read letter by letter from the cursor `p`:
the byte for `L` is the LSDA encoding, the byte for `R` the pointer encoding,
the byte for `P` the personality encoding, followed by the personality
function decoded with that encoding. The result is the fields, the cursor
after the data, and the number of bytes the letters consumed. -/
def aug_walk (fuel : Nat) (m : Mem) :
    List aug_letter → aug_data → Nat → Except Fault (aug_data × Nat × Nat)
  | [], d, p => .ok (d, p, 0)
  | .L :: ls, d, p =>
    match aug_walk fuel m ls { d with lsda_encoding := rd8 m p } ((p + 1) % W64) with
    | .ok (r, q, n) => .ok (r, q, n + 1)
    | .error e => .error e
  | .R :: ls, d, p =>
    match aug_walk fuel m ls { d with pointer_encoding := rd8 m p } ((p + 1) % W64) with
    | .ok (r, q, n) => .ok (r, q, n + 1)
    | .error e => .error e
  | .P :: ls, d, p =>
    match decode_pointer fuel m ((p + 1) % W64) (rd8 m p) with
    | .error e => .error e
    | .ok (v, q1) =>
      match pointer_size fuel m ((p + 1) % W64) (rd8 m p) with
      | .error e => .error e
      | .ok w =>
        match aug_walk fuel m ls
            { d with personality_encoding := rd8 m p, personality_function := v } q1 with
        | .ok (r, q, n) => .ok (r, q, n + 1 + w)
        | .error e => .error e

/-- The CIE `s` with the fields of its augmentation data set to `d`. -/
def ci_entry.with_aug (s : ci_entry) (d : aug_data) : ci_entry :=
  { s with m_lsda_encoding := d.lsda_encoding, m_personality_encoding := d.personality_encoding,
           m_personality_function := d.personality_function,
           m_pointer_encoding := d.pointer_encoding }

/-- The bytes of a section with one CIE whose augmentation string is `zPLR`:
personality encoding `udata4` with the personality function `0x11223344`, LSDA
encoding `uleb128`, pointer encoding `pcrel | sdata4`; then the terminator. -/
def plr_bytes : List Nat :=
  [ 0x18, 0, 0, 0,            -- CIE length 24
    0, 0, 0, 0,               -- CIE id
    1,                        -- version
    0x7A, 0x50, 0x4C, 0x52, 0,  -- zPLR
    0x01,                     -- code alignment 1
    0x78,                     -- data alignment -8
    0x10,                     -- return address register 16
    0x07,                     -- augmentation data length 7
    0x03,                     -- personality encoding udata4
    0x44, 0x33, 0x22, 0x11,   -- personality function
    0x01,                     -- LSDA encoding uleb128
    0x1B,                     -- pointer encoding pcrel sdata4
    0x0C, 0x07, 0x08,         -- initial instructions
    0, 0, 0, 0 ]              -- terminator

/-- The section descriptor of the `zPLR` section, at address `0x4000`. -/
def plr_frame : eh_frame_t := ⟨0x4000, 32⟩

/-- The memory holding the `zPLR` section. -/
def plr_mem : Mem := memOf 0x4000 plr_bytes

/-! ## Specification-side notions for the round trip of a minimal section -/

/-- The unsigned LEB128 bytes of `v`, at most `f` of them. -/
def uleb_bytes : Nat → Nat → List Nat
  | 0, _ => []
  | f + 1, v => if v < 128 then [v] else (v % 128 + 128) :: uleb_bytes f (v / 128)

/-- The unsigned LEB128 encoding of a 64-bit value. -/
def encode_uleb128 (v : Nat) : List Nat := uleb_bytes 10 v

/-- The signed LEB128 bytes of `v`, at most `f` of them. -/
def sleb_bytes : Nat → Int → List Nat
  | 0, _ => []
  | f + 1, v =>
    if -64 ≤ v ∧ v < 64 then [(v % 128).toNat]
    else ((v % 128).toNat + 128) :: sleb_bytes f (v / 128)

/-- The signed LEB128 encoding of a 64-bit value. -/
def encode_sleb128 (v : Int) : List Nat := sleb_bytes 10 v

/-- The `n` little-endian bytes of `v`. -/
def le_bytes : Nat → Nat → List Nat
  | 0, _ => []
  | n + 1, v => v % 256 :: le_bytes n (v / 256)

/-- The payload of the CIE of the minimal section: the zero id, version 1, the
augmentation string `zR`, the three LEB128 fields, the augmentation-data
length 1 and the pointer encoding `absptr`. -/
def minimal_cie_payload (ca : Nat) (da : Int) (ra : Nat) : List Nat :=
  [0, 0, 0, 0] ++ ([1] ++ ([0x7A, 0x52, 0] ++
    (encode_uleb128 ca ++ (encode_sleb128 da ++ (encode_uleb128 ra ++ [1, 0x00])))))

/-- The number of bytes of the CIE record of the minimal section. -/
def minimal_cie_size (ca : Nat) (da : Int) (ra : Nat) : Nat :=
  4 + (minimal_cie_payload ca da ra).length

/-- The payload of the FDE of the minimal section: the CIE pointer (the distance
from the pointer field back to the CIE), `pc_begin`, `pc_range` as 8-byte
fields, and the augmentation-data length 0. -/
def minimal_fde_payload (cie_size : Nat) (pc_begin pc_range : Nat) : List Nat :=
  le_bytes 4 (cie_size + 4) ++ (le_bytes 8 pc_begin ++ (le_bytes 8 pc_range ++ [0]))

/-- The bytes of the minimal section: the CIE, the FDE and the terminator. -/
def minimal_section (ca : Nat) (da : Int) (ra : Nat) (pc_begin pc_range : Nat) : List Nat :=
  le_bytes 4 (minimal_cie_payload ca da ra).length ++ (minimal_cie_payload ca da ra ++
    (le_bytes 4 21 ++ (minimal_fde_payload (minimal_cie_size ca da ra) pc_begin pc_range
      ++ [0, 0, 0, 0])))

/-! ## Specification-side notions for the pointer decoder -/

/-- The little-endian value of the `n` bytes at `a`. -/
def le_value (m : Mem) : Nat → Nat → Nat
  | _, 0 => 0
  | a, n + 1 => rd8 m a + 256 * le_value m (a + 1) n

/-- The signed value of the two's complement pattern `v` of `bits` bits. -/
def signed_value (bits : Nat) (v : Nat) : Int :=
  if v < 2 ^ (bits - 1) then (v : Int) else (v : Int) - 2 ^ bits

/-- The base bits of the encoding select a base `decode_pointer` supports. -/
def supported_base (e : Nat) : Prop :=
  e &&& 0x70 = DW_EH_PE_absptr ∨ e &&& 0x70 = DW_EH_PE_pcrel

/-- The lower nibble of the encoding selects a format `decode_pointer` supports. -/
def supported_format (e : Nat) : Prop :=
  e &&& 0x0F = DW_EH_PE_absptr ∨ e &&& 0x0F = DW_EH_PE_uleb128
    ∨ e &&& 0x0F = DW_EH_PE_udata2 ∨ e &&& 0x0F = DW_EH_PE_udata4
    ∨ e &&& 0x0F = DW_EH_PE_udata8 ∨ e &&& 0x0F = DW_EH_PE_sleb128
    ∨ e &&& 0x0F = DW_EH_PE_sdata2 ∨ e &&& 0x0F = DW_EH_PE_sdata4
    ∨ e &&& 0x0F = DW_EH_PE_sdata8

/-- The lower nibble of the encoding selects one of the LEB128 formats. -/
def leb_format (e : Nat) : Prop :=
  e &&& 0x0F = DW_EH_PE_uleb128 ∨ e &&& 0x0F = DW_EH_PE_sleb128

/-- The 64-bit encoding `e` with bit `0x80` cleared, `e & ~0x80`. -/
def clear_bit7 (e : Nat) : Nat := e &&& 0xFFFFFFFFFFFFFF7F

/-- Memory for the examples of the pointer decoder: at `0x6000` the four bytes
of the 32-bit value -2, then the two LEB128 bytes `0x80 0x01`. -/
def ptr_mem : Mem := memOf 0x6000 [0xFE, 0xFF, 0xFF, 0xFF, 0x80, 0x01, 0, 0, 0, 0, 0, 0]

/-! ## Specification-side notions for the advance of the cursor -/

/-- The byte addresses at which `common_entry::parse(addr)` reads the length
field of the record: the four bytes of `((uint32_t *)m_entry_start)[0]` and,
when that field is `0xFFFFFFFF`, the eight bytes of
`((uint64_t *)(m_entry_start + 4))[0]`. -/
def common_entry.parse_length_reads (m : Mem) (self : common_entry) (addr : Nat) : List Nat :=
  if addr = 0 then []
  else if addr < self.m_eh_frame.addr then []
  else if rd32 m addr ≠ 0xFFFFFFFF then (List.range 4).map (fun i => (addr + i) % W64)
  else (List.range 12).map (fun i => (addr + i) % W64)

/-- The byte addresses at which `common_entry::operator++()` reads a length
field, through the `parse` it calls. -/
def common_entry.inc_length_reads (m : Mem) (self : common_entry) : List Nat :=
  if self.m_entry_start = 0 then []
  else if (self.m_entry_end + 4) % W64 < (self.m_eh_frame.addr + self.m_eh_frame.size) % W64 then
    self.parse_length_reads m self.m_entry_end
  else
    self.parse_length_reads m 0

/-- The address `common_entry::operator++()` passes to `parse` on a non-terminal
cursor. -/
def common_entry.next_address (self : common_entry) : Nat :=
  if (self.m_entry_end + 4) % W64 < (self.m_eh_frame.addr + self.m_eh_frame.size) % W64 then
    self.m_entry_end
  else 0

/-- Memory whose record at `0x1000` has the extended-length marker followed by
the 8-byte length `2^64 - 12`: the record ends where it starts. -/
def loop_mem : Mem :=
  memOf 0x1000 [0xFF, 0xFF, 0xFF, 0xFF, 0xF4, 0xFF, 0xFF, 0xFF, 0xFF, 0xFF, 0xFF, 0xFF]

/-- The cursor `parse` leaves on the record of `loop_mem`. -/
def loop_cursor : common_entry :=
  { m_is_cie := true, m_entry_start := 0x1000, m_entry_end := 0x1000,
    m_payload_start := 0x100C, m_payload_end := 0x1000, m_eh_frame := wrap_frame }

/-- The section descriptor of a section of 16 bytes at address `0x1000`. -/
def dangle_frame : eh_frame_t := ⟨0x1000, 16⟩

/-- Memory whose 16-byte section at `0x1000` holds a record of length 7 and
then, in its last five bytes, the extended-length marker `0xFFFFFFFF`. -/
def dangle_mem : Mem :=
  memOf 0x1000 [7, 0, 0, 0, 1, 2, 3, 4, 5, 6, 7, 0xFF, 0xFF, 0xFF, 0xFF, 0x10,
    0, 0, 0, 0, 0, 0, 0]

/-- The cursor `parse` leaves on the first record of `dangle_mem`. -/
def dangle_cursor : common_entry :=
  { m_is_cie := false, m_entry_start := 0x1000, m_entry_end := 0x100B,
    m_payload_start := 0x1004, m_payload_end := 0x100B, m_eh_frame := dangle_frame }

/-- The bytes of a section with two CIEs whose augmentation string is `zRX`, the
first with the augmentation-data length 1 and the second with the length 2;
then the terminator. -/
def unk_bytes : List Nat :=
  [ 0x10, 0, 0, 0,            -- CIE length 16
    0, 0, 0, 0,               -- CIE id
    1,                        -- version
    0x7A, 0x52, 0x58, 0,      -- zRX
    0x01,                     -- code alignment 1
    0x7C,                     -- data alignment -4
    0x10,                     -- return address register 16
    0x01,                     -- augmentation data length 1
    0x00,                     -- pointer encoding absptr
    0, 0,                     -- initial instructions
    0x10, 0, 0, 0,            -- CIE length 16, at offset 20
    0, 0, 0, 0,               -- CIE id
    1,                        -- version
    0x7A, 0x52, 0x58, 0,      -- zRX
    0x01,                     -- code alignment 1
    0x7C,                     -- data alignment -4
    0x10,                     -- return address register 16
    0x02,                     -- augmentation data length 2
    0x00,                     -- pointer encoding absptr
    0, 0,                     -- initial instructions
    0, 0, 0, 0 ]              -- terminator

/-- The section descriptor of the `zRX` section, at address `0x5000`. -/
def unk_frame : eh_frame_t := ⟨0x5000, 44⟩

/-- The memory holding the `zRX` section. -/
def unk_mem : Mem := memOf 0x5000 unk_bytes

/-- The first CIE of the `zRX` section, as the CIE parser returns it. -/
def unk_cie : ci_entry :=
  match ci_entry.at 20 unk_mem unk_frame 0x5000 with
  | .ok cie => cie
  | .error _ => ci_entry.default

/-- The bytes of a section with two CIEs and two FDEs: a CIE `zRL` (LSDA
encoding `uleb128`) with an FDE for `0x1000..0x1040` whose LSDA pointer is
213, then a CIE `zR` with an FDE for `0x2000..0x2040`, then the terminator. -/
def stale_bytes : List Nat :=
  [ 0x10, 0, 0, 0,            -- CIE length 16
    0, 0, 0, 0,               -- CIE id
    1,                        -- version
    0x7A, 0x52, 0x4C, 0,      -- zRL
    0x01,                     -- code alignment 1
    0x7C,                     -- data alignment -4
    0x10,                     -- return address register 16
    0x02,                     -- augmentation data length
    0x00,                     -- pointer encoding absptr
    0x01,                     -- LSDA encoding uleb128
    0,                        -- initial instructions
    0x18, 0, 0, 0,            -- FDE length 24, at offset 20
    0x18, 0, 0, 0,            -- CIE pointer
    0x00, 0x10, 0, 0, 0, 0, 0, 0,   -- pc_begin
    0x40, 0, 0, 0, 0, 0, 0, 0,      -- pc_range
    0x02,                     -- augmentation data length 2
    0xD5, 0x01,               -- LSDA pointer
    0,                        -- instructions
    0x10, 0, 0, 0,            -- CIE length 16, at offset 48
    0, 0, 0, 0,               -- CIE id
    1,                        -- version
    0x7A, 0x52, 0,            -- zR
    0x01,                     -- code alignment 1
    0x7C,                     -- data alignment -4
    0x10,                     -- return address register 16
    0x01,                     -- augmentation data length
    0x00,                     -- pointer encoding absptr
    0, 0, 0,                  -- initial instructions
    0x18, 0, 0, 0,            -- FDE length 24, at offset 68
    0x18, 0, 0, 0,            -- CIE pointer
    0x00, 0x20, 0, 0, 0, 0, 0, 0,   -- pc_begin
    0x40, 0, 0, 0, 0, 0, 0, 0,      -- pc_range
    0x00,                     -- augmentation data length 0
    0, 0, 0,                  -- instructions
    0, 0, 0, 0 ]              -- terminator

/-- The section descriptor of the section of `stale_bytes`, at address `0x7000`. -/
def stale_frame : eh_frame_t := ⟨0x7000, 100⟩

/-- The memory holding the section of `stale_bytes`. -/
def stale_mem : Mem := memOf 0x7000 stale_bytes

/-- The entry held in a result, the default FDE when there is none. -/
def fde_of (r : Except Fault fd_entry) : fd_entry :=
  match r with
  | .ok fde => fde
  | .error _ => fd_entry.default

/-- The first FDE of the section of `stale_bytes`, freshly parsed at `0x7014`. -/
def stale_fde1 : fd_entry := fde_of (fd_entry.at 20 stale_mem stale_frame 0x7014)

/-- The object after `operator++` on `stale_fde1`: its cursor is on the second
CIE, at `0x7030`. -/
def stale_on_cie : fd_entry := fde_of (stale_fde1.inc 20 stale_mem)

/-- The object after `operator++` on `stale_on_cie`: its cursor is on the second
FDE, at `0x7044`. -/
def stale_fde2 : fd_entry := fde_of (stale_on_cie.inc 20 stale_mem)

/-- The bytes of a section with one FDE whose CIE pointer is 4, so that it
designates the FDE itself; then the terminator. -/
def orphan_bytes : List Nat :=
  [ 0x18, 0, 0, 0,            -- FDE length 24
    0x04, 0, 0, 0,            -- CIE pointer
    0x00, 0x10, 0, 0, 0, 0, 0, 0,   -- pc_begin
    0x40, 0, 0, 0, 0, 0, 0, 0,      -- pc_range
    0, 0, 0, 0,               -- instructions
    0, 0, 0, 0 ]              -- terminator

/-- The section descriptor of the section of `orphan_bytes`, at address `0x8000`. -/
def orphan_frame : eh_frame_t := ⟨0x8000, 32⟩

/-- The memory holding the section of `orphan_bytes`. -/
def orphan_mem : Mem := memOf 0x8000 orphan_bytes

/-- The FDE of the section of `orphan_bytes`, as the FDE parser returns it. -/
def orphan_fde : fd_entry := fde_of (fd_entry.at 20 orphan_mem orphan_frame 0x8000)

/-- Memory whose bytes at `0x1100`, just past the end of the 256-byte section at
`0x1000`, are the extended-length marker followed by the 8-byte length
`2^64 - 16`. -/
def outside_mem : Mem :=
  memOf 0x1100 [0xFF, 0xFF, 0xFF, 0xFF, 0xF0, 0xFF, 0xFF, 0xFF, 0xFF, 0xFF, 0xFF, 0xFF]

end EhFrame

/-! ## The vcpu manager (`bfvmm/src/vcpu/src/vcpu_manager.cpp`) -/

namespace VcpuManager

/-- What a function of the manager is left with when it throws:
`std::invalid_argument` with its message, or an exception of the vcpu
factory or of a vcpu, told apart by a number. -/
inductive exception where
  | invalid_argument (what : String)
  | other (code : Nat)
  deriving DecidableEq

/-- A call on the global `g_vcpu_manager_mutex`. -/
inductive mutex_call where
  | lock
  | unlock
  deriving DecidableEq

/-- Modelled from the spec: the class declaration (`vcpu/vcpu_manager.h`) is
not among the sources, and the spec only names the manager a process-wide
registry of per-vCPU state. `m_vcpus` is taken as the container on which the
source calls `find`, `end`, `erase` and `operator[]`: a map with unique keys
from a vcpuid to a `std::shared_ptr<vcpu>`, a pointer that may be null
(`none`). The order of the entries is not observed by the source. A vcpuid is
a `uint64_t`; no arithmetic is done on it. -/
structure vcpu_manager (V : Type) where
  m_vcpus : AList (fun _ : Nat => Option V)

/-- The state the functions of the manager act on: the manager object and the
global mutex. The mutex is a `std::mutex` of the C++ library; the embedding
records the calls made on it, oldest first, and does not interpret them. -/
structure state (V : Type) where
  self : vcpu_manager V
  g_vcpu_manager_mutex : List mutex_call

/-- The state before any call: no vcpu, no call on the mutex. -/
def state.init (V : Type) : state V :=
  { self := { m_vcpus := ∅ }, g_vcpu_manager_mutex := [] }

/-- The call `lock()` on the mutex (the constructor of a `std::lock_guard`). -/
def state.lock {V : Type} (s : state V) : state V :=
  { s with g_vcpu_manager_mutex := s.g_vcpu_manager_mutex ++ [mutex_call.lock] }

/-- The call `unlock()` on the mutex (explicit, or the destructor of a
`std::lock_guard`). -/
def state.unlock {V : Type} (s : state V) : state V :=
  { s with g_vcpu_manager_mutex := s.g_vcpu_manager_mutex ++ [mutex_call.unlock] }

/-- The function `vcpu_manager::create_vcpu`. The factory
(`m_vcpu_factory->make_vcpu`) is not among the sources and is a parameter: it
returns a pointer or throws, before the lock is taken.
`m_vcpus[vcpuid] = vcpu` stores the pointer under the id, replacing what was
there. -/
def create_vcpu {V : Type} (make_vcpu : Nat → Except exception (Option V))
    (s : state V) (vcpuid : Nat) : Except exception Unit × state V :=
  match make_vcpu vcpuid with
  | .error e => (.error e, s)
  | .ok vcpu =>
    let s1 := s.lock
    let s2 : state V := { s1 with self := { m_vcpus := s1.self.m_vcpus.insert vcpuid vcpu } }
    (.ok (), s2.unlock)

/-- The function `vcpu_manager::delete_vcpu`. The guard locks; when `find`
gives `end()` the function throws and the guard unlocks. Otherwise the entry
is erased, the mutex is unlocked by the explicit call, and the guard unlocks
once more when the function returns. The copy `hold_vcpu_until_deleted` only
keeps the vcpu alive until then. -/
def delete_vcpu {V : Type} (s : state V) (vcpuid : Nat) : Except exception Unit × state V :=
  let s1 := s.lock
  match s1.self.m_vcpus.lookup vcpuid with
  | none => (.error (.invalid_argument "invalid vcpuid"), s1.unlock)
  | some _ =>
    let s2 : state V := { s1 with self := { m_vcpus := s1.self.m_vcpus.erase vcpuid } }
    let s3 := s2.unlock
    (.ok (), s3.unlock)

/-- The function `vcpu_manager::get_vcpu`: under the guard, the null pointer
when `find` gives `end()`, the stored pointer otherwise. -/
def get_vcpu {V : Type} (s : state V) (vcpuid : Nat) : Option V × state V :=
  let s1 := s.lock
  match s1.self.m_vcpus.lookup vcpuid with
  | none => (none, s1.unlock)
  | some vcpu => (vcpu, s1.unlock)

/-- The function `vcpu_manager::run_vcpu`. The call `vcpu->run()` is not among
the sources and is a parameter giving whether it returns or throws; what it
does to the vcpu is outside the state of the manager, as is the debug line
printed after it. -/
def run_vcpu {V : Type} (run : V → Except exception Unit) (s : state V) (vcpuid : Nat) :
    Except exception Unit × state V :=
  match get_vcpu s vcpuid with
  | (some vcpu, s1) => (run vcpu, s1)
  | (none, s1) => (.error (.invalid_argument "invalid vcpuid"), s1)

/-- The function `vcpu_manager::hlt_vcpu`, with `vcpu->hlt()` a parameter like
`vcpu->run()`. -/
def hlt_vcpu {V : Type} (hlt : V → Except exception Unit) (s : state V) (vcpuid : Nat) :
    Except exception Unit × state V :=
  match get_vcpu s vcpuid with
  | (some vcpu, s1) => (hlt vcpu, s1)
  | (none, s1) => (.error (.invalid_argument "invalid vcpuid"), s1)

/-- A factory that makes vcpu number `100 + vcpuid`; vcpus are numbers here. -/
def demo_factory (vcpuid : Nat) : Except exception (Option Nat) := .ok (some (100 + vcpuid))

/-- The state after `create_vcpu(0)` and `create_vcpu(1)`. -/
def demo_state : state Nat :=
  (create_vcpu demo_factory (create_vcpu demo_factory (state.init Nat) 0).2 1).2

/-- A `run` / `hlt` that returns. -/
def demo_run (_ : Nat) : Except exception Unit := .ok ()

end VcpuManager

namespace EhFrame

/-! ## Specification-side notions for a search that stops at the first match -/

/-- The first `k` records the cursor of one module visits from `fde` on, in
iteration order, fewer when the cursor becomes terminal earlier: only the
advances between these records are made, none after the last. -/
def visited_upto (fuel : Nat) (m : Mem) : Nat → fd_entry → Except Fault (List fd_entry)
  | 0, _ => .ok []
  | k + 1, fde =>
    if fde.m_entry_start = 0 then .ok []
    else if k = 0 then .ok [fde]
    else
      match fde.inc fuel m with
      | .error e => .error e
      | .ok next =>
        match visited_upto fuel m k next with
        | .error e => .error e
        | .ok rs => .ok (fde :: rs)

/-- The first `k` records of one module, from the section base. -/
def module_upto (fuel : Nat) (m : Mem) (eh : eh_frame_t) (k : Nat) :
    Except Fault (List fd_entry) :=
  match fd_entry.first fuel m eh with
  | .error e => .error e
  | .ok fde => visited_upto fuel m k fde

/-- A memory holding the concrete section at `0x2000` and, below it, the record
of `loop_mem` at `0x1000`, on which the cursor never becomes terminal. -/
def mixed_mem : Mem := fun a => if a < 0x2000 then loop_mem a else demo_mem a

/-- The records of the concrete section in `mixed_mem`: its CIE, then its FDE. -/
def mixed_records : List fd_entry :=
  match module_upto 20 mixed_mem demo_frame 2 with
  | .ok rs => rs
  | .error _ => []

/-! ## A fresh parse for the advance of the cursor -/

/-- The second FDE of the section of `stale_bytes`, freshly parsed at `0x7044`. -/
def stale_fresh2 : fd_entry := fde_of (fd_entry.at 20 stale_mem stale_frame 0x7044)

/-! ## Theorems -/

/-! ### The module frame finder -/

theorem find_fde_module_eq (fuel : Nat) (m : Mem) (ip : Nat) :
    ∀ (n : Nat) (fde : fd_entry) (rs : List fd_entry),
      visited_from fuel m n fde = .ok rs →
      find_fde_module fuel m ip n fde = .ok (rs.find? (covers ip)) := by
  intro n
  induction n with
  | zero => intro fde rs h; simp [visited_from] at h
  | succ n ih =>
    intro fde rs h
    unfold visited_from at h
    unfold find_fde_module
    by_cases h0 : fde.m_entry_start = 0
    · simp only [h0, if_true] at h ⊢
      cases h
      rfl
    · simp only [h0, if_false] at h ⊢
      cases hinc : fde.inc fuel m with
      | error e => simp [hinc] at h
      | ok next =>
        simp only [hinc] at h ⊢
        cases hr : visited_from fuel m n next with
        | error e => simp [hr] at h
        | ok rs1 =>
          simp only [hr] at h
          cases h
          have := ih next rs1 hr
          by_cases hc : fde.m_is_cie = true
          · simp [hc, this, List.find?, covers]
          · by_cases hin : fde.is_in_range ip = true
            · simp [hc, hin, List.find?, covers]
            · simp [hc, hin, this, List.find?, covers]

theorem find_fde_eq (fuel : Nat) (m : Mem) (ip : Nat) (mods : List eh_frame_t)
    (recs : List (List fd_entry))
    (h : List.Forall₂ (fun eh rs => module_records fuel m eh = .ok rs) mods recs) :
    find_fde fuel m ip mods = .ok ((recs.flatten.find? (covers ip)).getD fd_entry.default) := by
  induction h with
  | nil => rfl
  | @cons eh rs mods recs h1 _ ih =>
    unfold find_fde
    unfold module_records at h1
    cases hf : fd_entry.first fuel m eh with
    | error e => simp [hf] at h1
    | ok fde =>
      simp only [hf] at h1 ⊢
      rw [find_fde_module_eq fuel m ip fuel fde rs h1]
      cases hfind : rs.find? (covers ip) with
      | none => simp [ih, List.find?_append, hfind]
      | some r => simp [List.find?_append, hfind]

theorem find_fde_module_some (fuel : Nat) (m : Mem) (ip : Nat) :
    ∀ (n : Nat) (fde r : fd_entry),
      find_fde_module fuel m ip n fde = .ok (some r) →
      ∃ pre : List fd_entry,
        visited_upto fuel m (pre.length + 1) fde = .ok (pre ++ [r])
          ∧ pre.length < n ∧ (∀ x ∈ pre, covers ip x = false) ∧ covers ip r = true := by
  intro n
  induction n with
  | zero => intro fde r h; simp [find_fde_module] at h
  | succ n ih =>
    intro fde r h
    unfold find_fde_module at h
    by_cases h0 : fde.m_entry_start = 0
    · rw [if_pos h0] at h
      simp at h
    rw [if_neg h0] at h
    have step : ∀ next, fde.inc fuel m = .ok next → covers ip fde = false →
        find_fde_module fuel m ip n next = .ok (some r) →
        ∃ pre : List fd_entry,
          visited_upto fuel m (pre.length + 1) fde = .ok (pre ++ [r])
            ∧ pre.length < n + 1 ∧ (∀ x ∈ pre, covers ip x = false) ∧ covers ip r = true := by
      intro next hi hcf hrec
      obtain ⟨pre, hp, hlen, hnone, hr⟩ := ih next r hrec
      refine ⟨fde :: pre, ?_, by simpa using hlen, ?_, hr⟩
      · show visited_upto fuel m ((pre.length + 1) + 1) fde = .ok (fde :: (pre ++ [r]))
        rw [visited_upto, if_neg h0, if_neg (Nat.succ_ne_zero _), hi]
        dsimp only
        rw [hp]
      · intro x hx
        rcases List.mem_cons.mp hx with hx | hx
        · rw [hx]; exact hcf
        · exact hnone x hx
    by_cases hc : fde.m_is_cie = true
    · rw [if_pos hc] at h
      cases hi : fde.inc fuel m with
      | error e => simp [hi] at h
      | ok next =>
        simp only [hi] at h
        exact step next hi (by simp [covers, hc]) h
    · rw [if_neg hc] at h
      by_cases hin : fde.is_in_range ip = true
      · rw [if_pos hin] at h
        simp only [Except.ok.injEq, Option.some.injEq] at h
        subst h
        refine ⟨[], ?_, Nat.succ_pos n, ?_, ?_⟩
        · show visited_upto fuel m (0 + 1) fde = .ok [fde]
          rw [visited_upto, if_neg h0, if_pos rfl]
        · intro x hx
          cases hx
        · simp [covers, hc, hin]
      · rw [if_neg hin] at h
        cases hi : fde.inc fuel m with
        | error e => simp [hi] at h
        | ok next =>
          simp only [hi] at h
          exact step next hi (by simp [covers, hin]) h

theorem find_fde_module_of_visited (fuel : Nat) (m : Mem) (ip : Nat) :
    ∀ (pre : List fd_entry) (n : Nat) (fde r : fd_entry),
      visited_upto fuel m (pre.length + 1) fde = .ok (pre ++ [r]) →
      pre.length < n → (∀ x ∈ pre, covers ip x = false) → covers ip r = true →
      find_fde_module fuel m ip n fde = .ok (some r) := by
  intro pre
  induction pre with
  | nil =>
    intro n fde r h hn _ hr
    have h1 : visited_upto fuel m (0 + 1) fde = .ok [r] := h
    rw [visited_upto] at h1
    by_cases h0 : fde.m_entry_start = 0
    · rw [if_pos h0] at h1
      simp at h1
    rw [if_neg h0, if_pos rfl] at h1
    simp only [Except.ok.injEq, List.cons.injEq, and_true] at h1
    subst h1
    obtain ⟨n1, rfl⟩ : ∃ n1, n = n1 + 1 := ⟨n - 1, by simp at hn; omega⟩
    simp only [covers, Bool.and_eq_true, Bool.not_eq_true', ] at hr
    unfold find_fde_module
    rw [if_neg h0, if_neg (by rw [hr.1]; decide), if_pos hr.2]
  | cons x pre ih =>
    intro n fde r h hn hnone hr
    have h1 : visited_upto fuel m ((pre.length + 1) + 1) fde = .ok (x :: (pre ++ [r])) := h
    rw [visited_upto] at h1
    by_cases h0 : fde.m_entry_start = 0
    · rw [if_pos h0] at h1
      simp at h1
    rw [if_neg h0, if_neg (Nat.succ_ne_zero _)] at h1
    cases hi : fde.inc fuel m with
    | error e => simp [hi] at h1
    | ok next =>
      simp only [hi] at h1
      cases hv : visited_upto fuel m (pre.length + 1) next with
      | error e => simp [hv] at h1
      | ok rs =>
        simp only [hv, Except.ok.injEq, List.cons.injEq] at h1
        obtain ⟨hx, hrs⟩ := h1
        subst hx
        subst hrs
        obtain ⟨n1, rfl⟩ : ∃ n1, n = n1 + 1 := ⟨n - 1, by simp at hn; omega⟩
        have hlen : pre.length < n1 := by simp at hn; omega
        have hrec := ih n1 next r hv hlen (fun y hy => hnone y (List.mem_cons_of_mem _ hy)) hr
        have hcf : covers ip fde = false := hnone fde (List.mem_cons_self _ _)
        unfold find_fde_module
        rw [if_neg h0]
        by_cases hc : fde.m_is_cie = true
        · rw [if_pos hc]
          simp only [hi]
          exact hrec
        · rw [if_neg hc]
          have hin : ¬ fde.is_in_range ip = true := by
            intro hin
            simp [covers, hc, hin] at hcf
          rw [if_neg hin]
          simp only [hi]
          exact hrec

theorem find_fde_module_none (fuel : Nat) (m : Mem) (ip : Nat) :
    ∀ (n : Nat) (fde : fd_entry),
      find_fde_module fuel m ip n fde = .ok none →
      ∃ rs : List fd_entry,
        visited_from fuel m n fde = .ok rs ∧ ∀ x ∈ rs, covers ip x = false := by
  intro n
  induction n with
  | zero => intro fde h; simp [find_fde_module] at h
  | succ n ih =>
    intro fde h
    unfold find_fde_module at h
    unfold visited_from
    by_cases h0 : fde.m_entry_start = 0
    · rw [if_pos h0]
      exact ⟨[], rfl, fun x hx => by cases hx⟩
    rw [if_neg h0] at h ⊢
    have step : ∀ next, fde.inc fuel m = .ok next → covers ip fde = false →
        find_fde_module fuel m ip n next = .ok none →
        ∃ rs : List fd_entry,
          (match fde.inc fuel m with
            | .error e => .error e
            | .ok next =>
              match visited_from fuel m n next with
              | .error e => .error e
              | .ok rs => .ok (fde :: rs)) = Except.ok rs
            ∧ ∀ x ∈ rs, covers ip x = false := by
      intro next hi hcf hrec
      obtain ⟨rs, hrs, hnone⟩ := ih next hrec
      refine ⟨fde :: rs, ?_, ?_⟩
      · simp only [hi, hrs]
      · intro x hx
        rcases List.mem_cons.mp hx with hx | hx
        · rw [hx]; exact hcf
        · exact hnone x hx
    by_cases hc : fde.m_is_cie = true
    · rw [if_pos hc] at h
      cases hi : fde.inc fuel m with
      | error e => simp [hi] at h
      | ok next =>
        simp only [hi] at h
        rw [← hi]
        exact step next hi (by simp [covers, hc]) h
    · rw [if_neg hc] at h
      by_cases hin : fde.is_in_range ip = true
      · rw [if_pos hin] at h
        simp at h
      · rw [if_neg hin] at h
        cases hi : fde.inc fuel m with
        | error e => simp [hi] at h
        | ok next =>
          simp only [hi] at h
          rw [← hi]
          exact step next hi (by simp [covers, hin]) h

/-- A module whose cursor iteration completes without a covering FDE is left
by the inner loop of `find_fde` without a result. -/
theorem find_fde_skips_module (fuel : Nat) (m : Mem) (ip : Nat) (eh : eh_frame_t)
    (rest : List eh_frame_t) (rs : List fd_entry)
    (h : module_records fuel m eh = .ok rs) (hnone : ∀ x ∈ rs, covers ip x = false) :
    find_fde fuel m ip (eh :: rest) = find_fde fuel m ip rest := by
  rw [find_fde]
  unfold module_records at h
  cases hf : fd_entry.first fuel m eh with
  | error e => simp [hf] at h
  | ok fde =>
    simp only [hf] at h ⊢
    rw [find_fde_module_eq fuel m ip fuel fde rs h, List.find?_eq_none.mpr]
    intro x hx
    rw [hnone x hx]
    decide

theorem find_fde_found (fuel : Nat) (m : Mem) (ip : Nat) (eh : eh_frame_t)
    (after : List eh_frame_t) (pre : List fd_entry) (r : fd_entry)
    (hp : module_upto fuel m eh (pre.length + 1) = .ok (pre ++ [r]))
    (hlen : pre.length < fuel) (hpre : ∀ x ∈ pre, covers ip x = false)
    (hr : covers ip r = true) :
    ∀ (before : List eh_frame_t) (recs : List (List fd_entry)),
      List.Forall₂ (fun eh rs => module_records fuel m eh = .ok rs) before recs →
      (∀ x ∈ recs.flatten, covers ip x = false) →
      find_fde fuel m ip (before ++ eh :: after) = .ok r := by
  intro before recs hall
  induction hall with
  | nil =>
    intro _
    rw [List.nil_append, find_fde]
    unfold module_upto at hp
    cases hf : fd_entry.first fuel m eh with
    | error e => simp [hf] at hp
    | ok fde =>
      simp only [hf] at hp ⊢
      rw [find_fde_module_of_visited fuel m ip pre fuel fde r hp hlen hpre hr]
  | @cons eh1 rs1 before recs h1 _ ih =>
    intro hnone
    rw [List.cons_append,
      find_fde_skips_module fuel m ip eh1 _ rs1 h1
        (fun x hx => hnone x (by rw [List.flatten_cons]; exact List.mem_append_left _ hx))]
    exact ih (fun x hx => hnone x (by rw [List.flatten_cons]; exact List.mem_append_right _ hx))

theorem find_fde_sound (fuel : Nat) (m : Mem) (ip : Nat) :
    ∀ (mods : List eh_frame_t) (r : fd_entry),
      find_fde fuel m ip mods = .ok r →
      (∃ (before : List eh_frame_t) (eh : eh_frame_t) (after : List eh_frame_t)
          (recs : List (List fd_entry)) (pre : List fd_entry),
          mods = before ++ eh :: after
          ∧ List.Forall₂ (fun eh rs => module_records fuel m eh = .ok rs) before recs
          ∧ (∀ x ∈ recs.flatten, covers ip x = false)
          ∧ module_upto fuel m eh (pre.length + 1) = .ok (pre ++ [r])
          ∧ pre.length < fuel ∧ (∀ x ∈ pre, covers ip x = false) ∧ covers ip r = true)
      ∨ (∃ recs : List (List fd_entry),
          List.Forall₂ (fun eh rs => module_records fuel m eh = .ok rs) mods recs
          ∧ (∀ x ∈ recs.flatten, covers ip x = false) ∧ r = fd_entry.default) := by
  intro mods
  induction mods with
  | nil =>
    intro r h
    simp only [find_fde, Except.ok.injEq] at h
    exact Or.inr ⟨[], List.Forall₂.nil, fun x hx => by simp at hx, h.symm⟩
  | cons eh rest ih =>
    intro r h
    rw [find_fde] at h
    cases hf : fd_entry.first fuel m eh with
    | error e => simp [hf] at h
    | ok fde =>
      simp only [hf] at h
      cases hm : find_fde_module fuel m ip fuel fde with
      | error e => simp [hm] at h
      | ok o =>
        cases o with
        | some x =>
          simp only [hm, Except.ok.injEq] at h
          subst h
          obtain ⟨pre, hp, hlen, hpre, hr⟩ := find_fde_module_some fuel m ip fuel fde x hm
          refine Or.inl ⟨[], eh, rest, [], pre, rfl, List.Forall₂.nil,
            fun y hy => by simp at hy, ?_, hlen, hpre, hr⟩
          unfold module_upto
          simp only [hf]
          exact hp
        | none =>
          simp only [hm] at h
          obtain ⟨rs, hrs, hnone⟩ := find_fde_module_none fuel m ip fuel fde hm
          have hmr : module_records fuel m eh = .ok rs := by
            unfold module_records
            simp only [hf]
            exact hrs
          rcases ih r h with ⟨before, eh2, after, recs, pre, e1, e2, e3, e4, e5, e6, e7⟩
              | ⟨recs, e1, e2, e3⟩
          · refine Or.inl ⟨eh :: before, eh2, after, rs :: recs, pre, ?_,
              List.Forall₂.cons hmr e2, ?_, e4, e5, e6, e7⟩
            · rw [e1, List.cons_append]
            · intro y hy
              rw [List.flatten_cons] at hy
              rcases List.mem_append.mp hy with hy | hy
              · exact hnone y hy
              · exact e3 y hy
          · refine Or.inr ⟨rs :: recs, List.Forall₂.cons hmr e1, ?_, e3⟩
            intro y hy
            rw [List.flatten_cons] at hy
            rcases List.mem_append.mp hy with hy | hy
            · exact hnone y hy
            · exact e2 y hy

/-- C1: `find_fde` returns `r` exactly in these two cases, where a record
covers `ip` when it is an FDE whose range holds `ip` (a CIE record is never
range-tested). Either the table is some modules, then a module, then the
rest; the cursor iteration of each earlier module completes and none of its
records covers `ip`; and `r` is the first record of that module, in
cursor-iteration order from the section base, that covers `ip`. Nothing is
asked of the records after `r` nor of the later modules. Or the cursor
iteration of every module completes, no record covers `ip`, and `r` is the
default FDE, whose cursor is terminal and whose `pc_begin`, `pc_range` and
`lsda` are 0. The fuel bounds the records visited in one module. -/
theorem find_fde_first_covering (fuel : Nat) (m : Mem) (ip : Nat) (mods : List eh_frame_t)
    (r : fd_entry) :
    (find_fde fuel m ip mods = .ok r ↔
      (∃ (before : List eh_frame_t) (eh : eh_frame_t) (after : List eh_frame_t)
          (recs : List (List fd_entry)) (pre : List fd_entry),
          mods = before ++ eh :: after
          ∧ List.Forall₂ (fun eh rs => module_records fuel m eh = .ok rs) before recs
          ∧ (∀ x ∈ recs.flatten, covers ip x = false)
          ∧ module_upto fuel m eh (pre.length + 1) = .ok (pre ++ [r])
          ∧ pre.length < fuel ∧ (∀ x ∈ pre, covers ip x = false) ∧ covers ip r = true)
      ∨ (∃ recs : List (List fd_entry),
          List.Forall₂ (fun eh rs => module_records fuel m eh = .ok rs) mods recs
          ∧ (∀ x ∈ recs.flatten, covers ip x = false) ∧ r = fd_entry.default))
      ∧ (fd_entry.default.m_entry_start = 0 ∧ fd_entry.default.m_pc_begin = 0
          ∧ fd_entry.default.m_pc_range = 0 ∧ fd_entry.default.m_lsda = 0) := by
  refine ⟨⟨find_fde_sound fuel m ip mods r, ?_⟩, ⟨rfl, rfl, rfl, rfl⟩⟩
  rintro (⟨before, eh, after, recs, pre, e1, e2, e3, e4, e5, e6, e7⟩ | ⟨recs, e1, e2, e3⟩)
  · rw [e1]
    exact find_fde_found fuel m ip eh after pre r e4 e5 e6 e7 before recs e2 e3
  · rw [find_fde_eq fuel m ip mods recs e1, e3, List.find?_eq_none.mpr]
    · rfl
    · intro x hx
      rw [e2 x hx]
      decide

/-- C1, at three tables. The concrete section followed by a section whose
cursor iteration never ends: the FDE at `0x2014` is returned for `0x1010`
without the second module being read. An empty module slot followed by the
concrete section: the same FDE is returned from the later module. The
concrete section alone and an `ip` that no FDE covers: the default FDE. -/
theorem find_fde_first_covering_witness :
    mixed_records.length = 2
      ∧ module_records 20 mixed_mem wrap_frame = .error .timeout
      ∧ find_fde 20 mixed_mem 0x1010 [demo_frame, wrap_frame]
          = .ok (mixed_records.getD 1 fd_entry.default)
      ∧ (mixed_records.getD 1 fd_entry.default).m_entry_start = 0x2014
      ∧ find_fde 20 mixed_mem 0x1010 [⟨0, 0⟩, demo_frame]
          = .ok (mixed_records.getD 1 fd_entry.default)
      ∧ find_fde 20 demo_mem 0x3000 [demo_frame] = .ok fd_entry.default :=
  ⟨by rfl, by rfl,
    (find_fde_first_covering 20 mixed_mem 0x1010 [demo_frame, wrap_frame]
      (mixed_records.getD 1 fd_entry.default)).1.2
      (Or.inl ⟨[], demo_frame, [wrap_frame], [], [mixed_records.getD 0 fd_entry.default],
        rfl, List.Forall₂.nil, by decide, by rfl, by decide, by decide, by rfl⟩),
    by rfl,
    (find_fde_first_covering 20 mixed_mem 0x1010 [⟨0, 0⟩, demo_frame]
      (mixed_records.getD 1 fd_entry.default)).1.2
      (Or.inl ⟨[⟨0, 0⟩], demo_frame, [], [[]], [mixed_records.getD 0 fd_entry.default],
        rfl, List.Forall₂.cons (by rfl) List.Forall₂.nil, by decide, by rfl, by decide,
        by decide, by rfl⟩),
    (find_fde_first_covering 20 demo_mem 0x3000 [demo_frame] fd_entry.default).1.2
      (Or.inr ⟨[demo_records], List.Forall₂.cons (by rfl) List.Forall₂.nil, by decide, rfl⟩)⟩

/-! ### The record cursor -/

theorem rd8_lt (m : Mem) (a : Nat) : rd8 m a < 256 := by
  unfold rd8; omega

theorem rd16_lt (m : Mem) (a : Nat) : rd16 m a < 65536 := by
  have h1 := rd8_lt m a
  have h2 := rd8_lt m (a + 1)
  unfold rd16; omega

theorem rd32_lt (m : Mem) (a : Nat) : rd32 m a < 4294967296 := by
  have h1 := rd16_lt m a
  have h2 := rd16_lt m (a + 2)
  unfold rd32; omega

theorem rd64_lt (m : Mem) (a : Nat) : rd64 m a < W64 := by
  have h1 := rd32_lt m a
  have h2 := rd32_lt m (a + 4)
  unfold rd64 W64; omega

/-- C2: the record at `0x1000` of a 256-byte section starts with the extended
marker and the 8-byte length `2^64 - 16`, so the payload start plus the length
exceeds the end of the section; `parse` all the same leaves a non-terminal
cursor, whose end has wrapped around to `0xFFC`. -/
theorem parse_wrapped_length_accepted :
    rd32 wrap_mem 0x1000 = 0xFFFFFFFF
      ∧ rd64 wrap_mem 0x1004 = W64 - 16
      ∧ wrap_frame.addr + wrap_frame.size < 0x100C + rd64 wrap_mem 0x1004
      ∧ (common_entry.of_frame wrap_frame).parse wrap_mem 0x1000
          = { m_is_cie := true, m_entry_start := 0x1000, m_entry_end := 0xFFC,
              m_payload_start := 0x100C, m_payload_end := 0xFFC, m_eh_frame := wrap_frame } := by
  refine ⟨by rfl, by rfl, by decide, by rfl⟩

/-- C3: the cursor `parse` produces at `0x1000` for the record with the wrapped
extended length is not terminal and breaks the cursor invariant. -/
theorem parse_breaks_cursor_inv :
    ((common_entry.of_frame wrap_frame).parse wrap_mem 0x1000).m_entry_start ≠ 0
      ∧ ¬ cursor_inv ((common_entry.of_frame wrap_frame).parse wrap_mem 0x1000) := by
  have h : (common_entry.of_frame wrap_frame).parse wrap_mem 0x1000
      = { m_is_cie := true, m_entry_start := 0x1000, m_entry_end := 0xFFC,
          m_payload_start := 0x100C, m_payload_end := 0xFFC, m_eh_frame := wrap_frame } := by
    rfl
  rw [h]
  refine ⟨by decide, ?_⟩
  unfold cursor_inv
  simp

/-- When no sum wraps around, `common_entry::parse` leaves the terminal state
exactly when the address is null or outside the section, the length is zero,
or the payload runs past the end of the section. -/
theorem parse_terminal_iff_of_no_wrap (m : Mem) (eh : eh_frame_t) (addr : Nat)
    (hsec : eh.addr + eh.size < W64)
    (hfit : addr + 12
      + (if rd32 m addr ≠ 0xFFFFFFFF then rd32 m addr else rd64 m (addr + 4)) < W64) :
    ((common_entry.of_frame eh).parse m addr).m_entry_start = 0 ↔
      (addr = 0 ∨ addr < eh.addr ∨ eh.addr + eh.size ≤ addr
        ∨ (if rd32 m addr ≠ 0xFFFFFFFF then rd32 m addr else rd64 m (addr + 4)) = 0
        ∨ eh.addr + eh.size
            < (if rd32 m addr ≠ 0xFFFFFFFF then addr + 4 else addr + 12)
              + (if rd32 m addr ≠ 0xFFFFFFFF then rd32 m addr else rd64 m (addr + 4))) := by
  unfold common_entry.parse common_entry.failure common_entry.of_frame
  dsimp only
  have e3 : (eh.addr + eh.size) % W64 = eh.addr + eh.size := Nat.mod_eq_of_lt hsec
  rw [e3]
  by_cases h0 : addr = 0
  · rw [if_pos h0]; simp [h0]
  rw [if_neg h0]
  by_cases h1 : addr < eh.addr
  · rw [if_pos h1]; simp [h1]
  rw [if_neg h1]
  by_cases hx : rd32 m addr ≠ 0xFFFFFFFF
  · rw [if_pos hx] at hfit
    simp only [if_pos hx]
    have e1 : (addr + 4) % W64 = addr + 4 := Nat.mod_eq_of_lt (by omega)
    have e2 : (addr + 4 + rd32 m addr) % W64 = addr + 4 + rd32 m addr :=
      Nat.mod_eq_of_lt (by omega)
    rw [e1, e2]
    by_cases hl : rd32 m addr = 0
    · rw [if_pos hl]; simp [hl]
    rw [if_neg hl]
    by_cases hb : addr + 4 + rd32 m addr > eh.addr + eh.size
    · rw [if_pos hb]
      simp only [true_iff]
      right; right; right; right
      exact hb
    · rw [if_neg hb]
      simp only [h0, h1, hl, false_or, false_iff, not_or, not_lt]
      omega
  · rw [if_neg hx] at hfit
    simp only [if_neg hx]
    have e1 : (addr + 12) % W64 = addr + 12 := Nat.mod_eq_of_lt (by omega)
    have e2 : (addr + 12 + rd64 m (addr + 4)) % W64 = addr + 12 + rd64 m (addr + 4) :=
      Nat.mod_eq_of_lt (by omega)
    rw [e1, e2]
    by_cases hl : rd64 m (addr + 4) = 0
    · rw [if_pos hl]; simp [hl]
    rw [if_neg hl]
    by_cases hb : addr + 12 + rd64 m (addr + 4) > eh.addr + eh.size
    · rw [if_pos hb]
      simp only [true_iff]
      right; right; right; right
      exact hb
    · rw [if_neg hb]
      simp only [h0, h1, hl, false_or, false_iff, not_or, not_lt]
      omega

/-- When no sum wraps around, the cursor `common_entry::parse` leaves satisfies
the cursor invariant. -/
theorem parse_cursor_inv_of_no_wrap (m : Mem) (eh : eh_frame_t) (addr : Nat)
    (hsec : eh.addr + eh.size < W64)
    (hfit : addr + 12
      + (if rd32 m addr ≠ 0xFFFFFFFF then rd32 m addr else rd64 m (addr + 4)) < W64) :
    cursor_inv ((common_entry.of_frame eh).parse m addr) := by
  unfold cursor_inv common_entry.parse common_entry.failure common_entry.of_frame
  dsimp only
  have e3 : (eh.addr + eh.size) % W64 = eh.addr + eh.size := Nat.mod_eq_of_lt hsec
  rw [e3]
  by_cases h0 : addr = 0
  · simp only [if_pos h0]; exact Or.inl trivial
  simp only [if_neg h0]
  by_cases h1 : addr < eh.addr
  · simp only [if_pos h1]; exact Or.inl trivial
  simp only [if_neg h1]
  by_cases hx : rd32 m addr ≠ 0xFFFFFFFF
  · rw [if_pos hx] at hfit
    simp only [if_pos hx]
    have e1 : (addr + 4) % W64 = addr + 4 := Nat.mod_eq_of_lt (by omega)
    have e2 : (addr + 4 + rd32 m addr) % W64 = addr + 4 + rd32 m addr :=
      Nat.mod_eq_of_lt (by omega)
    simp only [e1, e2]
    by_cases hl : rd32 m addr = 0
    · simp only [if_pos hl]; exact Or.inl trivial
    simp only [if_neg hl]
    by_cases hb : addr + 4 + rd32 m addr > eh.addr + eh.size
    · simp only [if_pos hb]; exact Or.inl trivial
    · simp only [if_neg hb]
      right
      omega
  · rw [if_neg hx] at hfit
    simp only [if_neg hx]
    have e1 : (addr + 12) % W64 = addr + 12 := Nat.mod_eq_of_lt (by omega)
    have e2 : (addr + 12 + rd64 m (addr + 4)) % W64 = addr + 12 + rd64 m (addr + 4) :=
      Nat.mod_eq_of_lt (by omega)
    simp only [e1, e2]
    by_cases hl : rd64 m (addr + 4) = 0
    · simp only [if_pos hl]; exact Or.inl trivial
    simp only [if_neg hl]
    by_cases hb : addr + 12 + rd64 m (addr + 4) > eh.addr + eh.size
    · simp only [if_pos hb]; exact Or.inl trivial
    · simp only [if_neg hb]
      right
      omega

theorem failure_eq (c : common_entry) : c.failure = common_entry.of_frame c.m_eh_frame := rfl

theorem parse_frame (m : Mem) (c : common_entry) (a : Nat) :
    (c.parse m a).m_eh_frame = c.m_eh_frame := by
  unfold common_entry.parse common_entry.failure
  dsimp only
  split_ifs <;> rfl

theorem parse_terminator (m : Mem) (c : common_entry) (a : Nat) (h : rd32 m a = 0) :
    c.parse m a = common_entry.of_frame c.m_eh_frame := by
  unfold common_entry.parse
  simp [h, failure_eq]

theorem parse_zero (m : Mem) (c : common_entry) :
    c.parse m 0 = common_entry.of_frame c.m_eh_frame := by
  unfold common_entry.parse
  simp [failure_eq]

theorem parse_record (m : Mem) (c : common_entry) (a : Nat) (h : rec_hdr)
    (ha : 0 < a) (hlo : c.m_eh_frame.addr ≤ a) (hh : holds_hdr m a h)
    (hfit : a + h.size ≤ c.m_eh_frame.addr + c.m_eh_frame.size)
    (hsec : c.m_eh_frame.addr + c.m_eh_frame.size < W64) :
    c.parse m a = record_at m c.m_eh_frame a h := by
  obtain ⟨hlen, hfield⟩ := hh
  unfold rec_hdr.size rec_hdr.hdr_size at hfit
  unfold common_entry.parse record_at rec_hdr.size rec_hdr.hdr_size
  have hne : a ≠ 0 := by omega
  have hnlt : ¬ a < c.m_eh_frame.addr := by omega
  cases hext : h.ext with
  | true =>
    simp only [hext, if_true] at hfield hfit ⊢
    obtain ⟨h1, h2⟩ := hfield
    have e1 : (a + 12) % W64 = a + 12 := Nat.mod_eq_of_lt (by omega)
    have e2 : (a + 12 + h.len) % W64 = a + 12 + h.len := Nat.mod_eq_of_lt (by omega)
    have e3 : (c.m_eh_frame.addr + c.m_eh_frame.size) % W64
        = c.m_eh_frame.addr + c.m_eh_frame.size := Nat.mod_eq_of_lt hsec
    simp only [hne, hnlt, h1, h2, if_false, ne_eq, not_true_eq_false, hlen, e1, e2, e3]
    rw [if_neg (by omega)]
    simp only [Nat.add_assoc]
  | false =>
    simp only [hext, if_false, Bool.false_eq_true] at hfield hfit ⊢
    obtain ⟨h1, h2⟩ := hfield
    have e1 : (a + 4) % W64 = a + 4 := Nat.mod_eq_of_lt (by omega)
    have e2 : (a + 4 + h.len) % W64 = a + 4 + h.len := Nat.mod_eq_of_lt (by omega)
    have e3 : (c.m_eh_frame.addr + c.m_eh_frame.size) % W64
        = c.m_eh_frame.addr + c.m_eh_frame.size := Nat.mod_eq_of_lt hsec
    have h3 : rd32 m a ≠ 4294967295 := by rw [h1]; exact h2
    simp only [hne, hnlt, h1, if_false, ne_eq, h2, not_false_eq_true, if_true, hlen, e1, e2, e3]
    rw [if_neg (by omega)]
    simp only [Nat.add_assoc]

theorem rec_size_pos (h : rec_hdr) : 4 ≤ h.hdr_size := by
  unfold rec_hdr.hdr_size
  split_ifs <;> omega

theorem inc_record (m : Mem) (eh : eh_frame_t) (a : Nat) (h : rec_hdr) (hs : List rec_hdr)
    (ha : 0 < a) (hlo : eh.addr ≤ a) (hsec : eh.addr + eh.size < W64)
    (hwf : well_formed_stream m eh (a + h.size) hs) :
    (record_at m eh a h).inc m = (common_entry.of_frame eh).parse m (a + h.size) := by
  have h4 := rec_size_pos h
  have hsz : h.size = h.hdr_size + h.len := rfl
  unfold common_entry.inc
  have hstart : (record_at m eh a h).m_entry_start = a := rfl
  have hend : (record_at m eh a h).m_entry_end = a + h.size := rfl
  have hfr : (record_at m eh a h).m_eh_frame = eh := rfl
  rw [hstart, hend, hfr, if_neg (by omega)]
  have e3 : (eh.addr + eh.size) % W64 = eh.addr + eh.size := Nat.mod_eq_of_lt hsec
  cases hs with
  | nil =>
    obtain ⟨hz, hfit⟩ := hwf
    have e1 : (a + h.size + 4) % W64 = a + h.size + 4 := Nat.mod_eq_of_lt (by omega)
    rw [e1, e3]
    have hp : (common_entry.of_frame eh).parse m (a + h.size) = common_entry.of_frame eh :=
      parse_terminator m _ _ hz
    rw [hp]
    split_ifs
    · exact parse_terminator m _ _ hz
    · exact parse_zero m _
  | cons h1 hs1 =>
    obtain ⟨hh, hfit, _⟩ := hwf
    have h41 := rec_size_pos h1
    have hsz1 : h1.size = h1.hdr_size + h1.len := rfl
    have hl1 : h1.len ≠ 0 := hh.1
    have e1 : (a + h.size + 4) % W64 = a + h.size + 4 := Nat.mod_eq_of_lt (by omega)
    rw [e1, e3, if_pos (by omega)]
    rw [parse_record m _ _ h1 (by omega) (by rw [hfr]; omega) hh (by rw [hfr]; exact hfit)
      (by rw [hfr]; exact hsec)]
    rw [parse_record m _ _ h1 (by omega) (by show eh.addr ≤ _; omega) hh hfit hsec]
    rfl

theorem visit_stream (m : Mem) (eh : eh_frame_t) (hsec : eh.addr + eh.size < W64) :
    ∀ (hs : List rec_hdr) (a : Nat), 0 < a → eh.addr ≤ a → well_formed_stream m eh a hs →
      common_entry.visit m (hs.length + 1) ((common_entry.of_frame eh).parse m a)
          = stream_records m eh a hs
        ∧ Nat.iterate (common_entry.inc m) hs.length ((common_entry.of_frame eh).parse m a)
          = common_entry.of_frame eh := by
  intro hs
  induction hs with
  | nil =>
    intro a _ _ hwf
    rw [parse_terminator m _ _ hwf.1]
    exact ⟨rfl, rfl⟩
  | cons h hs ih =>
    intro a ha hlo hwf
    obtain ⟨hh, hfit, hrest⟩ := hwf
    have h4 := rec_size_pos h
    have hsz : h.size = h.hdr_size + h.len := rfl
    rw [parse_record m _ _ h ha hlo hh hfit hsec]
    have hfr : (common_entry.of_frame eh).m_eh_frame = eh := rfl
    rw [hfr]
    obtain ⟨ih1, ih2⟩ := ih (a + h.size) (by omega) (by omega) hrest
    constructor
    · show common_entry.visit m (hs.length + 1 + 1) (record_at m eh a h) = _
      unfold common_entry.visit
      have hstart : (record_at m eh a h).m_entry_start = a := rfl
      rw [hstart, if_neg (by omega), inc_record m eh a h hs ha hlo hsec hrest, ih1]
      rfl
    · show Nat.iterate (common_entry.inc m) (hs.length + 1) (record_at m eh a h) = _
      rw [Function.iterate_succ_apply, inc_record m eh a h hs ha hlo hsec hrest, ih2]

theorem stream_records_bound (m : Mem) (eh : eh_frame_t) :
    ∀ (hs : List rec_hdr) (a : Nat) (c : common_entry),
      c ∈ stream_records m eh a hs → a ≤ c.m_entry_start := by
  intro hs
  induction hs with
  | nil => intro a c hc; simp [stream_records] at hc
  | cons h hs ih =>
    intro a c hc
    simp only [stream_records, List.mem_cons] at hc
    rcases hc with rfl | hc
    · exact Nat.le_refl _
    · have := ih _ _ hc
      omega

theorem stream_records_increasing (m : Mem) (eh : eh_frame_t) :
    ∀ (hs : List rec_hdr) (a : Nat),
      List.Pairwise (fun x y => x < y) ((stream_records m eh a hs).map (fun c => c.m_entry_start)) := by
  intro hs
  induction hs with
  | nil => intro a; simp [stream_records]
  | cons h hs ih =>
    intro a
    simp only [stream_records, List.map_cons, List.pairwise_cons]
    refine ⟨?_, ih _⟩
    intro x hx
    rw [List.mem_map] at hx
    obtain ⟨c, hc, rfl⟩ := hx
    have := stream_records_bound m eh hs _ c hc
    have h4 := rec_size_pos h
    have hsz : h.size = h.hdr_size + h.len := rfl
    show a < c.m_entry_start
    omega

/-- C4: in a section (non-null base, lying inside the address space) whose
bytes from the base are the well-formed records `hs` followed by a 4-byte zero
length, parsing at the base and applying `operator++` repeatedly visits exactly
the cursor states of those records, each once and in increasing address order;
after as many advances as there are records the cursor is terminal; and
`operator++` leaves a terminal cursor unchanged. -/
theorem advance_visits_stream (m : Mem) (eh : eh_frame_t) (hs : List rec_hdr)
    (hbase : 0 < eh.addr) (hsec : eh.addr + eh.size < W64)
    (hwf : well_formed_stream m eh eh.addr hs) :
    common_entry.visit m (hs.length + 1) ((common_entry.of_frame eh).parse m eh.addr)
        = stream_records m eh eh.addr hs
      ∧ (stream_records m eh eh.addr hs).length = hs.length
      ∧ List.Pairwise (fun x y => x < y)
          ((stream_records m eh eh.addr hs).map (fun c => c.m_entry_start))
      ∧ Nat.iterate (common_entry.inc m) hs.length ((common_entry.of_frame eh).parse m eh.addr)
          = common_entry.of_frame eh
      ∧ (common_entry.of_frame eh).m_entry_start = 0
      ∧ (∀ c : common_entry, c.m_entry_start = 0 → c.inc m = c) := by
  obtain ⟨h1, h2⟩ := visit_stream m eh hsec hs eh.addr hbase (Nat.le_refl _) hwf
  refine ⟨h1, ?_, stream_records_increasing m eh hs eh.addr, h2, rfl, ?_⟩
  · clear h1 h2 hwf
    generalize eh.addr = a
    induction hs generalizing a with
    | nil => rfl
    | cons h hs ih => simp only [stream_records, List.length_cons, ih]
  · intro c hc
    unfold common_entry.inc
    rw [if_pos hc]

/-- C4, at the stream of three records at `0x2000`. -/
theorem advance_visits_stream_witness :
    common_entry.visit stream_mem 4 ((common_entry.of_frame stream_frame).parse stream_mem 0x2000)
        = stream_records stream_mem stream_frame 0x2000 [⟨false, 5⟩, ⟨true, 2⟩, ⟨false, 4⟩]
      ∧ Nat.iterate (common_entry.inc stream_mem) 3
          ((common_entry.of_frame stream_frame).parse stream_mem 0x2000)
          = common_entry.of_frame stream_frame := by
  have h := advance_visits_stream stream_mem stream_frame [⟨false, 5⟩, ⟨true, 2⟩, ⟨false, 4⟩]
    (by decide) (by decide)
    (by
      refine ⟨⟨by decide, ?_⟩, by decide, ⟨by decide, ?_⟩, by decide, ⟨by decide, ?_⟩,
        by decide, ?_, by decide⟩
      · exact ⟨by rfl, by decide⟩
      · exact ⟨by rfl, by rfl⟩
      · exact ⟨by rfl, by decide⟩
      · rfl)
  exact ⟨h.1, h.2.2.2.1⟩

/-! ### The FDE parser -/

theorem fd_aug_loop_keeps (fuel : Nat) (m : Mem) (len : Nat) :
    ∀ (n i : Nat) (self : fd_entry) (p : Nat) (r : fd_entry) (q : Nat),
      fd_entry.aug_loop fuel m len n i self p = .ok (r, q) →
      r.tocommon_entry = self.tocommon_entry ∧ r.m_cie = self.m_cie
        ∧ r.m_pc_begin = self.m_pc_begin ∧ r.m_pc_range = self.m_pc_range
        ∧ r.m_instructions = self.m_instructions := by
  intro n
  induction n with
  | zero => intro i self p r q h; simp [fd_entry.aug_loop] at h
  | succ n ih =>
    intro i self p r q h
    unfold fd_entry.aug_loop at h
    dsimp only at h
    split_ifs at h with h1 h2 h3 h4
    · cases hd : decode_pointer fuel m p self.m_cie.m_lsda_encoding with
      | error e => simp [hd] at h
      | ok vq =>
        obtain ⟨v, q1⟩ := vq
        simp only [hd] at h
        have key := ih _ _ _ _ _ h
        exact key
    · exact ih _ _ _ _ _ h
    · exact ih _ _ _ _ _ h
    · cases h
      exact ⟨rfl, rfl, rfl, rfl, rfl⟩

/-- What a successful `fd_entry::parse` on an FDE record has computed. -/
theorem fd_parse_inv (fuel : Nat) (m : Mem) (self : fd_entry) (addr : Nat) (fde : fd_entry)
    (h : self.parse fuel m addr = .ok fde) (hv : fde.m_entry_start ≠ 0)
    (hf : fde.m_is_cie = false) :
    fde.tocommon_entry = self.tocommon_entry.parse m addr ∧
    ∃ (p1 p2 : Nat),
      ci_entry.at fuel m fde.m_eh_frame
          ((fde.m_payload_start + W64 - rd32 m fde.m_payload_start) % W64) = .ok fde.m_cie
      ∧ decode_pointer fuel m ((fde.m_payload_start + 4) % W64) fde.m_cie.m_pointer_encoding
          = .ok (fde.m_pc_begin, p1)
      ∧ decode_pointer fuel m p1 (fde.m_cie.m_pointer_encoding &&& 0xF)
          = .ok (fde.m_pc_range, p2)
      ∧ (if fde.m_cie.augmentation_string m 0 = 0x7A then
          ∃ (len p3 : Nat) (s r : fd_entry),
            decode_uleb128 fuel m p2 = .ok (len, p3)
            ∧ s.m_cie = fde.m_cie
            ∧ s.m_lsda = self.m_lsda
            ∧ fd_entry.aug_loop fuel m len fuel 1 s p3 = .ok (r, fde.m_instructions)
            ∧ fde.m_lsda = r.m_lsda
         else fde.m_instructions = p2 ∧ fde.m_lsda = self.m_lsda) := by
  unfold fd_entry.parse at h
  dsimp only at h
  split_ifs at h with h1 h2
  · cases h; exact absurd h1 hv
  · cases h; rw [h2] at hf; cases hf
  · revert h
    cases hc : ci_entry.at fuel m (self.tocommon_entry.parse m addr).m_eh_frame
        (((self.tocommon_entry.parse m addr).m_payload_start + W64
          - rd32 m (self.tocommon_entry.parse m addr).m_payload_start) % W64) with
    | error e => intro h; cases h
    | ok cie =>
      dsimp only
      cases hb : decode_pointer fuel m (((self.tocommon_entry.parse m addr).m_payload_start + 4) % W64)
          cie.m_pointer_encoding with
      | error e => intro h; cases h
      | ok vb =>
        obtain ⟨pcb, p1⟩ := vb
        dsimp only
        cases hr : decode_pointer fuel m p1 (cie.m_pointer_encoding &&& 0xF) with
        | error e => intro h; cases h
        | ok vr =>
          obtain ⟨pcr, p2⟩ := vr
          dsimp only
          by_cases hz : cie.augmentation_string m 0 = 0x7A
          · rw [if_pos hz]
            cases hu : decode_uleb128 fuel m p2 with
            | error e => intro h; cases h
            | ok vl =>
              obtain ⟨len, p3⟩ := vl
              dsimp only
              cases hl : fd_entry.aug_loop fuel m len fuel 1
                  { tocommon_entry := self.tocommon_entry.parse m addr, m_cie := cie,
                    m_pc_begin := pcb, m_pc_range := pcr, m_lsda := self.m_lsda,
                    m_instructions := self.m_instructions } p3 with
              | error e => intro h; cases h
              | ok rq =>
                obtain ⟨r, q⟩ := rq
                dsimp only
                intro h
                cases h
                obtain ⟨k1, k2, k3, k4, _⟩ := fd_aug_loop_keeps fuel m len _ _ _ _ _ _ hl
                dsimp only at k1 k2 k3 k4 ⊢
                refine ⟨k1, p1, p2, ?_, ?_, ?_, ?_⟩
                · rw [k1, k2]; exact hc
                · rw [k1, k2, k3]; exact hb
                · rw [k2, k4]; exact hr
                · rw [k2, if_pos hz]
                  exact ⟨len, p3,
                    { tocommon_entry := self.tocommon_entry.parse m addr, m_cie := cie,
                      m_pc_begin := pcb, m_pc_range := pcr, m_lsda := self.m_lsda,
                      m_instructions := self.m_instructions }, r, hu, rfl, rfl, hl, rfl⟩
          · rw [if_neg hz]
            intro h
            cases h
            dsimp only
            refine ⟨rfl, p1, p2, hc, hb, hr, ?_⟩
            rw [if_neg hz]
            exact ⟨rfl, rfl⟩

/-- C5 as stated fails: the FDE at `0x2014` of the concrete section has its
payload at `0x2018` and the back-pointer value 24; the CIE it stores starts at
`0x2000`, while `payload_start + 4 - value` is `0x2004`, where the CIE parser
finds no record. -/
theorem fde_cie_not_at_plus_four :
    fd_entry.at 20 demo_mem demo_frame 0x2014 = .ok demo_fde
      ∧ demo_fde.m_entry_start ≠ 0 ∧ demo_fde.m_is_cie = false
      ∧ demo_fde.m_payload_start + 4 - rd32 demo_mem demo_fde.m_payload_start = 0x2004
      ∧ demo_fde.m_cie.m_entry_start = 0x2000
      ∧ ci_entry.at 20 demo_mem demo_frame
          (demo_fde.m_payload_start + 4 - rd32 demo_mem demo_fde.m_payload_start)
          ≠ .ok demo_fde.m_cie := by
  refine ⟨by rfl, by decide, by rfl, by rfl, by rfl, ?_⟩
  intro h
  have h2 := congrArg start_of h
  revert h2
  decide

/-- C5, amended: for every record `fd_entry::parse` accepts as an FDE, the CIE
it parses and stores is the one at address `payload_start - value` (modulo
`2^64`), where `value` is the unsigned 4-byte field read at `payload_start`. -/
theorem fde_cie_address (fuel : Nat) (m : Mem) (self : fd_entry) (addr : Nat) (fde : fd_entry)
    (h : self.parse fuel m addr = .ok fde) (hv : fde.m_entry_start ≠ 0)
    (hf : fde.m_is_cie = false) :
    ci_entry.at fuel m fde.m_eh_frame
      ((fde.m_payload_start + W64 - rd32 m fde.m_payload_start) % W64) = .ok fde.m_cie := by
  obtain ⟨_, _, _, hc, _⟩ := fd_parse_inv fuel m self addr fde h hv hf
  exact hc

/-- C5, amended, at the FDE of the concrete section. -/
theorem fde_cie_address_witness :
    ci_entry.at 20 demo_mem demo_fde.m_eh_frame
      ((demo_fde.m_payload_start + W64 - rd32 demo_mem demo_fde.m_payload_start) % W64)
      = .ok demo_fde.m_cie :=
  fde_cie_address 20 demo_mem (fd_entry.init (common_entry.of_frame demo_frame)) 0x2014 demo_fde
    (by rfl) (by decide) (by rfl)

/-! ### Position independence of the value switch -/

theorem same_bytes_shift {m : Mem} {p : Nat} {m' : Mem} {p' : Nat} (h : same_bytes m p m' p')
    (k : Nat) : same_bytes m (p + k) m' (p' + k) := by
  intro i
  rw [Nat.add_assoc, Nat.add_assoc]
  exact h (k + i)

theorem rd16_same {m : Mem} {p : Nat} {m' : Mem} {p' : Nat} (h : same_bytes m p m' p') :
    rd16 m' p' = rd16 m p := by
  unfold rd16
  rw [h 1, show rd8 m' p' = rd8 m p from h 0]

theorem rd32_same {m : Mem} {p : Nat} {m' : Mem} {p' : Nat} (h : same_bytes m p m' p') :
    rd32 m' p' = rd32 m p := by
  unfold rd32
  rw [rd16_same h, rd16_same (same_bytes_shift h 2)]

theorem rd64_same {m : Mem} {p : Nat} {m' : Mem} {p' : Nat} (h : same_bytes m p m' p') :
    rd64 m' p' = rd64 m p := by
  unfold rd64
  rw [rd32_same h, rd32_same (same_bytes_shift h 4)]

theorem uleb128_raw_same (m m' : Mem) :
    ∀ (f p p' : Nat), same_bytes m p m' p' → uleb128_raw f m' p' = uleb128_raw f m p := by
  intro f
  induction f with
  | zero => intro p p' _; rfl
  | succ f ih =>
    intro p p' h
    unfold uleb128_raw
    rw [show rd8 m' p' = rd8 m p from h 0, ih (p + 1) (p' + 1) (same_bytes_shift h 1)]

theorem sleb128_raw_same (m m' : Mem) :
    ∀ (f p p' : Nat), same_bytes m p m' p' → sleb128_raw f m' p' = sleb128_raw f m p := by
  intro f
  induction f with
  | zero => intro p p' _; rfl
  | succ f ih =>
    intro p p' h
    unfold sleb128_raw
    rw [show rd8 m' p' = rd8 m p from h 0, ih (p + 1) (p' + 1) (same_bytes_shift h 1)]

/-- The branches of the value switch of `decode_pointer`. -/
theorem decode_pointer_value_cases (fuel : Nat) (m : Mem) (p e : Nat) :
    decode_pointer_value fuel m p e = .ok (rd64 m p, (p + 8) % W64)
    ∨ decode_pointer_value fuel m p e = decode_uleb128 fuel m p
    ∨ decode_pointer_value fuel m p e = .ok (rd16 m p, (p + 2) % W64)
    ∨ decode_pointer_value fuel m p e = .ok (rd32 m p, (p + 4) % W64)
    ∨ decode_pointer_value fuel m p e
        = (match decode_sleb128 fuel m p with
           | .ok (v, q) => .ok (to_u64 v, q)
           | .error e => .error e)
    ∨ decode_pointer_value fuel m p e = .ok (sext 16 (rd16 m p), (p + 2) % W64)
    ∨ decode_pointer_value fuel m p e = .ok (sext 32 (rd32 m p), (p + 4) % W64)
    ∨ decode_pointer_value fuel m p e = .ok (sext 64 (rd64 m p), (p + 8) % W64)
    ∨ decode_pointer_value fuel m p e = .error .abort := by
  unfold decode_pointer_value
  by_cases h0 : e &&& 0x0F = DW_EH_PE_absptr
  · rw [if_pos h0]; exact Or.inl rfl
  rw [if_neg h0]
  by_cases h1 : e &&& 0x0F = DW_EH_PE_uleb128
  · rw [if_pos h1]; exact Or.inr (Or.inl rfl)
  rw [if_neg h1]
  by_cases h2 : e &&& 0x0F = DW_EH_PE_udata2
  · rw [if_pos h2]; exact Or.inr (Or.inr (Or.inl rfl))
  rw [if_neg h2]
  by_cases h3 : e &&& 0x0F = DW_EH_PE_udata4
  · rw [if_pos h3]; exact Or.inr (Or.inr (Or.inr (Or.inl rfl)))
  rw [if_neg h3]
  by_cases h4 : e &&& 0x0F = DW_EH_PE_udata8
  · rw [if_pos h4]; exact Or.inl rfl
  rw [if_neg h4]
  by_cases h5 : e &&& 0x0F = DW_EH_PE_sleb128
  · rw [if_pos h5]; exact Or.inr (Or.inr (Or.inr (Or.inr (Or.inl rfl))))
  rw [if_neg h5]
  by_cases h6 : e &&& 0x0F = DW_EH_PE_sdata2
  · rw [if_pos h6]; exact Or.inr (Or.inr (Or.inr (Or.inr (Or.inr (Or.inl rfl)))))
  rw [if_neg h6]
  by_cases h7 : e &&& 0x0F = DW_EH_PE_sdata4
  · rw [if_pos h7]; exact Or.inr (Or.inr (Or.inr (Or.inr (Or.inr (Or.inr (Or.inl rfl))))))
  rw [if_neg h7]
  by_cases h8 : e &&& 0x0F = DW_EH_PE_sdata8
  · rw [if_pos h8]
    exact Or.inr (Or.inr (Or.inr (Or.inr (Or.inr (Or.inr (Or.inr (Or.inl rfl)))))))
  rw [if_neg h8]
  exact Or.inr (Or.inr (Or.inr (Or.inr (Or.inr (Or.inr (Or.inr (Or.inr rfl)))))))

theorem decode_uleb128_same (fuel : Nat) (m m' : Mem) (p p' v q : Nat)
    (h : same_bytes m p m' p') (hd : decode_uleb128 fuel m p = .ok (v, q)) :
    ∃ q', decode_uleb128 fuel m' p' = .ok (v, q') := by
  unfold decode_uleb128 at hd ⊢
  rw [uleb128_raw_same m m' fuel p p' h]
  cases hu : uleb128_raw fuel m p with
  | error e => simp [hu] at hd
  | ok vn =>
    obtain ⟨v1, n⟩ := vn
    simp only [hu, Except.ok.injEq, Prod.mk.injEq] at hd ⊢
    exact ⟨_, hd.1, rfl⟩

theorem decode_sleb128_same (fuel : Nat) (m m' : Mem) (p p' : Nat) (v : Int) (q : Nat)
    (h : same_bytes m p m' p') (hd : decode_sleb128 fuel m p = .ok (v, q)) :
    ∃ q', decode_sleb128 fuel m' p' = .ok (v, q') := by
  unfold decode_sleb128 at hd ⊢
  rw [sleb128_raw_same m m' fuel p p' h]
  cases hu : sleb128_raw fuel m p with
  | error e => simp [hu] at hd
  | ok vn =>
    obtain ⟨v1, n⟩ := vn
    simp only [hu, Except.ok.injEq, Prod.mk.injEq] at hd ⊢
    exact ⟨_, hd.1, rfl⟩

theorem decode_pointer_value_same (fuel : Nat) (m m' : Mem) (p p' e v q : Nat)
    (h : same_bytes m p m' p') (hd : decode_pointer_value fuel m p e = .ok (v, q)) :
    ∃ q', decode_pointer_value fuel m' p' e = .ok (v, q') := by
  unfold decode_pointer_value at hd ⊢
  rw [rd16_same h, rd32_same h, rd64_same h]
  by_cases h0 : e &&& 0x0F = DW_EH_PE_absptr
  · rw [if_pos h0] at hd ⊢
    simp only [Except.ok.injEq, Prod.mk.injEq] at hd ⊢
    exact ⟨_, hd.1, rfl⟩
  rw [if_neg h0] at hd ⊢
  by_cases h1 : e &&& 0x0F = DW_EH_PE_uleb128
  · rw [if_pos h1] at hd ⊢
    exact decode_uleb128_same fuel m m' p p' v q h hd
  rw [if_neg h1] at hd ⊢
  by_cases h2 : e &&& 0x0F = DW_EH_PE_udata2
  · rw [if_pos h2] at hd ⊢
    simp only [Except.ok.injEq, Prod.mk.injEq] at hd ⊢
    exact ⟨_, hd.1, rfl⟩
  rw [if_neg h2] at hd ⊢
  by_cases h3 : e &&& 0x0F = DW_EH_PE_udata4
  · rw [if_pos h3] at hd ⊢
    simp only [Except.ok.injEq, Prod.mk.injEq] at hd ⊢
    exact ⟨_, hd.1, rfl⟩
  rw [if_neg h3] at hd ⊢
  by_cases h4 : e &&& 0x0F = DW_EH_PE_udata8
  · rw [if_pos h4] at hd ⊢
    simp only [Except.ok.injEq, Prod.mk.injEq] at hd ⊢
    exact ⟨_, hd.1, rfl⟩
  rw [if_neg h4] at hd ⊢
  by_cases h5 : e &&& 0x0F = DW_EH_PE_sleb128
  · rw [if_pos h5] at hd ⊢
    cases hs : decode_sleb128 fuel m p with
    | error e => simp [hs] at hd
    | ok vn =>
      obtain ⟨v1, n⟩ := vn
      obtain ⟨q1, hq1⟩ := decode_sleb128_same fuel m m' p p' v1 n h hs
      simp only [hs, hq1, Except.ok.injEq, Prod.mk.injEq] at hd ⊢
      exact ⟨_, hd.1, rfl⟩
  rw [if_neg h5] at hd ⊢
  by_cases h6 : e &&& 0x0F = DW_EH_PE_sdata2
  · rw [if_pos h6] at hd ⊢
    simp only [Except.ok.injEq, Prod.mk.injEq] at hd ⊢
    exact ⟨_, hd.1, rfl⟩
  rw [if_neg h6] at hd ⊢
  by_cases h7 : e &&& 0x0F = DW_EH_PE_sdata4
  · rw [if_pos h7] at hd ⊢
    simp only [Except.ok.injEq, Prod.mk.injEq] at hd ⊢
    exact ⟨_, hd.1, rfl⟩
  rw [if_neg h7] at hd ⊢
  by_cases h8 : e &&& 0x0F = DW_EH_PE_sdata8
  · rw [if_pos h8] at hd ⊢
    simp only [Except.ok.injEq, Prod.mk.injEq] at hd ⊢
    exact ⟨_, hd.1, rfl⟩
  rw [if_neg h8] at hd
  cases hd

theorem sext_lt (bits v : Nat) (hb : bits ≤ 64) (hv : v < 2 ^ bits) :
    sext bits v < W64 := by
  unfold sext
  have hp : 2 ^ bits ≤ W64 := by
    have := Nat.pow_le_pow_right (show 0 < 2 by decide) hb
    simpa using this
  split_ifs <;> omega

theorem decode_uleb128_lt (fuel : Nat) (m : Mem) (p v q : Nat)
    (hd : decode_uleb128 fuel m p = .ok (v, q)) : v < W64 := by
  unfold decode_uleb128 at hd
  cases hu : uleb128_raw fuel m p with
  | error e => simp [hu] at hd
  | ok vn =>
    obtain ⟨v1, n⟩ := vn
    simp only [hu, Except.ok.injEq, Prod.mk.injEq] at hd
    rw [← hd.1]
    exact Nat.mod_lt _ (by decide)

theorem to_u64_lt (v : Int) : to_u64 v < W64 := by
  unfold to_u64
  have h1 : 0 ≤ v % (W64 : Int) := Int.emod_nonneg _ (by decide)
  have h2 : v % (W64 : Int) < (W64 : Int) := Int.emod_lt_of_pos _ (by decide)
  omega

theorem decode_pointer_value_lt (fuel : Nat) (m : Mem) (p e v q : Nat)
    (hd : decode_pointer_value fuel m p e = .ok (v, q)) : v < W64 := by
  have h16 := rd16_lt m p
  have h32 := rd32_lt m p
  have h64 := rd64_lt m p
  rcases decode_pointer_value_cases fuel m p e with h | h | h | h | h | h | h | h | h
    <;> rw [h] at hd
  · simp only [Except.ok.injEq, Prod.mk.injEq] at hd
    rw [← hd.1]; exact h64
  · exact decode_uleb128_lt fuel m p v q hd
  · simp only [Except.ok.injEq, Prod.mk.injEq] at hd
    rw [← hd.1]; unfold W64; omega
  · simp only [Except.ok.injEq, Prod.mk.injEq] at hd
    rw [← hd.1]; unfold W64; omega
  · cases hs : decode_sleb128 fuel m p with
    | error e => simp [hs] at hd
    | ok vn =>
      obtain ⟨v1, n⟩ := vn
      simp only [hs, Except.ok.injEq, Prod.mk.injEq] at hd
      rw [← hd.1]
      exact to_u64_lt v1
  · simp only [Except.ok.injEq, Prod.mk.injEq] at hd
    rw [← hd.1]; exact sext_lt 16 _ (by decide) h16
  · simp only [Except.ok.injEq, Prod.mk.injEq] at hd
    rw [← hd.1]; exact sext_lt 32 _ (by decide) h32
  · simp only [Except.ok.injEq, Prod.mk.injEq] at hd
    rw [← hd.1]; exact sext_lt 64 _ (by decide) h64
  · cases hd

theorem land_low_ne_omit (e : Nat) : e &&& 0xF ≠ DW_EH_PE_omit := by
  have : e &&& 0xF ≤ 0xF := Nat.and_le_right
  unfold DW_EH_PE_omit
  omega

theorem land_low_base (e : Nat) : (e &&& 0xF) &&& 0x70 = DW_EH_PE_absptr := by
  rw [Nat.land_assoc]
  show e &&& 0 = 0
  exact Nat.and_zero e

theorem land_low_low (e : Nat) : (e &&& 0xF) &&& 0x0F = e &&& 0x0F := by
  rw [Nat.land_assoc]
  rfl

theorem decode_pointer_value_low (fuel : Nat) (m : Mem) (p e : Nat) :
    decode_pointer_value fuel m p (e &&& 0xF) = decode_pointer_value fuel m p e := by
  unfold decode_pointer_value
  rw [land_low_low]

/-- With the base bits masked off, `decode_pointer` is the value switch alone. -/
theorem decode_pointer_low (fuel : Nat) (m : Mem) (p e : Nat) :
    decode_pointer fuel m p (e &&& 0xF) = decode_pointer_value fuel m p e := by
  unfold decode_pointer
  rw [if_neg (land_low_ne_omit e), decode_pointer_value_low]
  unfold decode_pointer_base
  rw [if_pos (land_low_base e)]
  cases hd : decode_pointer_value fuel m p e with
  | error e => rfl
  | ok vq =>
    obtain ⟨v, q⟩ := vq
    have := decode_pointer_value_lt fuel m p e v q hd
    simp only [Nat.zero_add, Nat.mod_eq_of_lt this]

/-- C6: for every record `fd_entry::parse` accepts as an FDE, `pc_begin` is
`decode_pointer` at `payload_start + 4` with the pointer encoding of the CIE,
and `pc_range` is `decode_pointer` at the cursor the first decode left, with
that encoding masked by `0x0F`; so `pc_range` is the value the second switch
reads, with no base added, and the same bytes stored at any other address
decode to the same `pc_range`. -/
theorem fde_pc_fields (fuel : Nat) (m : Mem) (self : fd_entry) (addr : Nat) (fde : fd_entry)
    (h : self.parse fuel m addr = .ok fde) (hv : fde.m_entry_start ≠ 0)
    (hf : fde.m_is_cie = false) :
    ∃ (p1 p2 : Nat),
      decode_pointer fuel m ((fde.m_payload_start + 4) % W64) fde.m_cie.m_pointer_encoding
          = .ok (fde.m_pc_begin, p1)
      ∧ decode_pointer fuel m p1 (fde.m_cie.m_pointer_encoding &&& 0x0F)
          = .ok (fde.m_pc_range, p2)
      ∧ decode_pointer_value fuel m p1 fde.m_cie.m_pointer_encoding = .ok (fde.m_pc_range, p2)
      ∧ (∀ (m' : Mem) (p' : Nat), same_bytes m p1 m' p' →
          ∃ q', decode_pointer fuel m' p' (fde.m_cie.m_pointer_encoding &&& 0x0F)
            = .ok (fde.m_pc_range, q')) := by
  obtain ⟨_, p1, p2, _, hb, hr, _⟩ := fd_parse_inv fuel m self addr fde h hv hf
  have hval : decode_pointer_value fuel m p1 fde.m_cie.m_pointer_encoding
      = .ok (fde.m_pc_range, p2) := by
    rw [← decode_pointer_low]; exact hr
  refine ⟨p1, p2, hb, hr, hval, ?_⟩
  intro m' p' hs
  obtain ⟨q', hq⟩ := decode_pointer_value_same fuel m m' p1 p' _ _ _ hs hval
  exact ⟨q', by rw [decode_pointer_low]; exact hq⟩

/-- C6, at the FDE of the concrete section. -/
theorem fde_pc_fields_witness :
    ∃ (p1 p2 : Nat),
      decode_pointer 20 demo_mem ((demo_fde.m_payload_start + 4) % W64)
          demo_fde.m_cie.m_pointer_encoding = .ok (demo_fde.m_pc_begin, p1)
      ∧ decode_pointer 20 demo_mem p1 (demo_fde.m_cie.m_pointer_encoding &&& 0x0F)
          = .ok (demo_fde.m_pc_range, p2) := by
  obtain ⟨p1, p2, h1, h2, _⟩ :=
    fde_pc_fields 20 demo_mem (fd_entry.init (common_entry.of_frame demo_frame)) 0x2014 demo_fde
      (by rfl) (by decide) (by rfl)
  exact ⟨p1, p2, h1, h2⟩

/-! ### The augmentation scan of the FDE parser -/

/-- C9 as stated fails: on the FDE record at `0x2014` of the concrete section
the CIE parser returns an entry whose cursor fields describe that record, not
zeros; and on the CIE record at `0x2000` the FDE parser returns an entry whose
cursor fields describe the CIE record. -/
theorem discrimination_keeps_cursor :
    ci_entry.at 20 demo_mem demo_frame 0x2014
        = .ok (ci_entry.init { m_is_cie := false, m_entry_start := 0x2014, m_entry_end := 0x2030,
                               m_payload_start := 0x2018, m_payload_end := 0x2030,
                               m_eh_frame := demo_frame })
      ∧ fd_entry.at 20 demo_mem demo_frame 0x2000
        = .ok (fd_entry.init { m_is_cie := true, m_entry_start := 0x2000, m_entry_end := 0x2014,
                               m_payload_start := 0x2004, m_payload_end := 0x2014,
                               m_eh_frame := demo_frame }) := by
  exact ⟨by rfl, by rfl⟩

/-- C9, amended: when the record cursor accepts the record at `a` as an FDE, the
CIE parser returns there an entry whose CIE fields are all zero and whose
cursor fields are those of the record (`is_cie` false); when it accepts the
record at `b` as a CIE, the FDE parser returns there an entry whose FDE fields
are all zero, whose CIE is the default one, and whose cursor fields are those
of the record (`is_cie` true). Neither result is partially populated beyond the
cursor. -/
theorem discrimination_exact (fuel : Nat) (m : Mem) (eh : eh_frame_t) (a b : Nat)
    (ha : ((common_entry.of_frame eh).parse m a).m_entry_start ≠ 0)
    (ha2 : ((common_entry.of_frame eh).parse m a).m_is_cie = false)
    (hb : ((common_entry.of_frame eh).parse m b).m_entry_start ≠ 0)
    (hb2 : ((common_entry.of_frame eh).parse m b).m_is_cie = true) :
    ci_entry.at fuel m eh a = .ok (ci_entry.init ((common_entry.of_frame eh).parse m a))
      ∧ fd_entry.at fuel m eh b = .ok (fd_entry.init ((common_entry.of_frame eh).parse m b))
      ∧ (∀ c : common_entry,
          (ci_entry.init c).m_augmentation_string = 0 ∧ (ci_entry.init c).m_code_alignment = 0
          ∧ (ci_entry.init c).m_data_alignment = 0 ∧ (ci_entry.init c).m_return_address_reg = 0
          ∧ (ci_entry.init c).m_pointer_encoding = 0 ∧ (ci_entry.init c).m_lsda_encoding = 0
          ∧ (ci_entry.init c).m_personality_encoding = 0
          ∧ (ci_entry.init c).m_personality_function = 0
          ∧ (ci_entry.init c).m_initial_instructions = 0
          ∧ (fd_entry.init c).m_cie = ci_entry.default ∧ (fd_entry.init c).m_pc_begin = 0
          ∧ (fd_entry.init c).m_pc_range = 0 ∧ (fd_entry.init c).m_lsda = 0
          ∧ (fd_entry.init c).m_instructions = 0) := by
  refine ⟨?_, ?_, ?_⟩
  · unfold ci_entry.at ci_entry.parse ci_entry.init
    dsimp only
    rw [if_neg ha, if_pos ha2]
  · unfold fd_entry.at fd_entry.parse fd_entry.init
    dsimp only
    rw [if_neg hb, if_pos hb2]
  · intro c
    exact ⟨rfl, rfl, rfl, rfl, rfl, rfl, rfl, rfl, rfl, rfl, rfl, rfl, rfl, rfl⟩

/-- C9, amended, at the FDE and the CIE of the concrete section. -/
theorem discrimination_exact_witness :
    ci_entry.at 20 demo_mem demo_frame 0x2014
        = .ok (ci_entry.init ((common_entry.of_frame demo_frame).parse demo_mem 0x2014))
      ∧ fd_entry.at 20 demo_mem demo_frame 0x2000
        = .ok (fd_entry.init ((common_entry.of_frame demo_frame).parse demo_mem 0x2000)) := by
  have h := discrimination_exact 20 demo_mem demo_frame 0x2014 0x2000
    (by decide) (by rfl) (by decide) (by rfl)
  exact ⟨h.1, h.2.1⟩

/-! ### The augmentation data of a CIE -/

theorem rd8_mod (m : Mem) (a : Nat) : rd8 m (a % W64) = rd8 m a := by
  unfold rd8
  rw [Nat.mod_mod]

theorem decode_uleb128_cursor (fuel : Nat) (m : Mem) (p v q : Nat)
    (h : decode_uleb128 fuel m p = .ok (v, q)) : q < W64 := by
  unfold decode_uleb128 at h
  cases hu : uleb128_raw fuel m p with
  | error e => simp [hu] at h
  | ok vn =>
    obtain ⟨v1, n⟩ := vn
    simp only [hu, Except.ok.injEq, Prod.mk.injEq] at h
    rw [← h.2]
    exact Nat.mod_lt _ (by decide)

theorem decode_pointer_value_size (fuel : Nat) (m : Mem) (a e v q w : Nat)
    (hne : e ≠ DW_EH_PE_omit)
    (hd : decode_pointer_value fuel m a e = .ok (v, q))
    (hw : pointer_size fuel m a e = .ok w) : q = (a + w) % W64 := by
  unfold decode_pointer_value at hd
  unfold pointer_size at hw
  rw [if_neg hne] at hw
  by_cases h0 : e &&& 0x0F = DW_EH_PE_absptr
  · rw [if_pos h0] at hd hw
    simp only [Except.ok.injEq, Prod.mk.injEq] at hd hw
    rw [← hd.2, ← hw]
  rw [if_neg h0] at hd hw
  by_cases h1 : e &&& 0x0F = DW_EH_PE_uleb128
  · rw [if_pos h1] at hd hw
    unfold decode_uleb128 at hd
    cases hu : uleb128_raw fuel m a with
    | error e => simp [hu] at hd
    | ok vn =>
      obtain ⟨v1, n⟩ := vn
      simp only [hu, Except.ok.injEq, Prod.mk.injEq] at hd hw
      rw [← hd.2, ← hw]
  rw [if_neg h1] at hd hw
  by_cases h2 : e &&& 0x0F = DW_EH_PE_udata2
  · rw [if_pos h2] at hd hw
    simp only [Except.ok.injEq, Prod.mk.injEq] at hd hw
    rw [← hd.2, ← hw]
  rw [if_neg h2] at hd hw
  by_cases h3 : e &&& 0x0F = DW_EH_PE_udata4
  · rw [if_pos h3] at hd hw
    simp only [Except.ok.injEq, Prod.mk.injEq] at hd hw
    rw [← hd.2, ← hw]
  rw [if_neg h3] at hd hw
  by_cases h4 : e &&& 0x0F = DW_EH_PE_udata8
  · rw [if_pos h4] at hd hw
    simp only [Except.ok.injEq, Prod.mk.injEq] at hd hw
    rw [← hd.2, ← hw]
  rw [if_neg h4] at hd hw
  by_cases h5 : e &&& 0x0F = DW_EH_PE_sleb128
  · rw [if_pos h5] at hd hw
    unfold decode_sleb128 at hd
    cases hu : sleb128_raw fuel m a with
    | error e => simp [hu] at hd
    | ok vn =>
      obtain ⟨v1, n⟩ := vn
      simp only [hu, Except.ok.injEq, Prod.mk.injEq] at hd hw
      rw [← hd.2, ← hw]
  rw [if_neg h5] at hd hw
  by_cases h6 : e &&& 0x0F = DW_EH_PE_sdata2
  · rw [if_pos h6] at hd hw
    simp only [Except.ok.injEq, Prod.mk.injEq] at hd hw
    rw [← hd.2, ← hw]
  rw [if_neg h6] at hd hw
  by_cases h7 : e &&& 0x0F = DW_EH_PE_sdata4
  · rw [if_pos h7] at hd hw
    simp only [Except.ok.injEq, Prod.mk.injEq] at hd hw
    rw [← hd.2, ← hw]
  rw [if_neg h7] at hd hw
  by_cases h8 : e &&& 0x0F = DW_EH_PE_sdata8
  · rw [if_pos h8] at hd hw
    simp only [Except.ok.injEq, Prod.mk.injEq] at hd hw
    rw [← hd.2, ← hw]
  rw [if_neg h8] at hd
  cases hd

/-- The cursor `decode_pointer` leaves is the cursor advanced by the size of
the encoded pointer. -/
theorem decode_pointer_size (fuel : Nat) (m : Mem) (a e v q w : Nat) (ha : a < W64)
    (hd : decode_pointer fuel m a e = .ok (v, q))
    (hw : pointer_size fuel m a e = .ok w) : q = (a + w) % W64 := by
  by_cases hne : e = DW_EH_PE_omit
  · unfold decode_pointer at hd
    unfold pointer_size at hw
    rw [if_pos hne] at hd hw
    simp only [Except.ok.injEq, Prod.mk.injEq] at hd hw
    rw [← hd.2, ← hw, Nat.add_zero, Nat.mod_eq_of_lt ha]
  · unfold decode_pointer at hd
    rw [if_neg hne] at hd
    cases hb : decode_pointer_base a e with
    | error x => simp [hb] at hd
    | ok b =>
      cases hv : decode_pointer_value fuel m a e with
      | error x => simp [hb, hv] at hd
      | ok vq =>
        obtain ⟨v1, q1⟩ := vq
        simp only [hb, hv, Except.ok.injEq, Prod.mk.injEq] at hd
        rw [← hd.2]
        exact decode_pointer_value_size fuel m a e v1 q1 w hne hv hw

theorem aug_walk_cursor (fuel : Nat) (m : Mem) :
    ∀ (ls : List aug_letter) (d : aug_data) (p : Nat) (r : aug_data) (q n : Nat),
      aug_walk fuel m ls d p = .ok (r, q, n) →
      q % W64 = (p + n) % W64 ∧ ls.length ≤ n := by
  intro ls
  induction ls with
  | nil =>
    intro d p r q n h
    simp only [aug_walk, Except.ok.injEq, Prod.mk.injEq] at h
    obtain ⟨_, h2, h3⟩ := h
    subst h2; subst h3
    exact ⟨rfl, Nat.le_refl _⟩
  | cons l ls ih =>
    intro d p r q n h
    cases l with
    | L =>
      unfold aug_walk at h
      cases hw : aug_walk fuel m ls { d with lsda_encoding := rd8 m p } ((p + 1) % W64) with
      | error e => simp [hw] at h
      | ok rqn =>
        obtain ⟨r1, q1, n1⟩ := rqn
        simp only [hw, Except.ok.injEq, Prod.mk.injEq] at h
        obtain ⟨_, h2, h3⟩ := h
        subst h2; subst h3
        obtain ⟨i1, i2⟩ := ih _ _ _ _ _ hw
        refine ⟨?_, by simp only [List.length_cons]; omega⟩
        rw [i1]; unfold W64; omega
    | R =>
      unfold aug_walk at h
      cases hw : aug_walk fuel m ls { d with pointer_encoding := rd8 m p } ((p + 1) % W64) with
      | error e => simp [hw] at h
      | ok rqn =>
        obtain ⟨r1, q1, n1⟩ := rqn
        simp only [hw, Except.ok.injEq, Prod.mk.injEq] at h
        obtain ⟨_, h2, h3⟩ := h
        subst h2; subst h3
        obtain ⟨i1, i2⟩ := ih _ _ _ _ _ hw
        refine ⟨?_, by simp only [List.length_cons]; omega⟩
        rw [i1]; unfold W64; omega
    | P =>
      unfold aug_walk at h
      cases hd : decode_pointer fuel m ((p + 1) % W64) (rd8 m p) with
      | error e => simp [hd] at h
      | ok vq =>
        obtain ⟨v, q1⟩ := vq
        cases hs : pointer_size fuel m ((p + 1) % W64) (rd8 m p) with
        | error e => simp [hd, hs] at h
        | ok w =>
          cases hw : aug_walk fuel m ls
              { d with personality_encoding := rd8 m p, personality_function := v } q1 with
          | error e => simp [hd, hs, hw] at h
          | ok rqn =>
            obtain ⟨r1, q2, n1⟩ := rqn
            simp only [hd, hs, hw, Except.ok.injEq, Prod.mk.injEq] at h
            obtain ⟨_, h2, h3⟩ := h
            subst h2; subst h3
            obtain ⟨i1, i2⟩ := ih _ _ _ _ _ hw
            have hq1 := decode_pointer_size fuel m _ _ v q1 w (Nat.mod_lt _ (by decide)) hd hs
            refine ⟨?_, by simp only [List.length_cons]; omega⟩
            rw [i1, hq1]; unfold W64; omega

theorem aug_code_ne_zero (l : aug_letter) : l.code ≠ 0 := by
  cases l <;> decide

theorem ci_aug_loop_walk (fuel : Nat) (m : Mem) (len : Nat) (s : ci_entry) :
    ∀ (ls : List aug_letter) (n i : Nat) (d : aug_data) (p : Nat) (r : aug_data) (q cnt : Nat),
      holds_bytes m (s.m_augmentation_string + i) (ls.map aug_letter.code ++ [0]) →
      i + ls.length < W32 → ls.length < n → 1 ≤ i →
      aug_walk fuel m ls d p = .ok (r, q, cnt) → i + cnt ≤ len + 1 →
      ci_entry.aug_loop fuel m len n i (s.with_aug d) p = .ok (s.with_aug r, q) := by
  intro ls
  induction ls with
  | nil =>
    intro n i d p r q cnt hb _ hn _ hw _
    obtain ⟨n, rfl⟩ : ∃ k, n = k + 1 := ⟨n - 1, by simp only [List.length_nil] at hn; omega⟩
    simp only [aug_walk, Except.ok.injEq, Prod.mk.injEq] at hw
    obtain ⟨h1, h2, _⟩ := hw
    subst h1; subst h2
    unfold ci_entry.aug_loop
    have h0 : rd8 m ((s.with_aug d).m_augmentation_string + i) = 0 := hb.1
    dsimp only
    rw [h0]
    simp
  | cons l ls ih =>
    intro n i d p r q cnt hb h32 hn h1i hw hcnt
    obtain ⟨n, rfl⟩ : ∃ k, n = k + 1 := ⟨n - 1, by simp only [List.length_cons] at hn; omega⟩
    simp only [List.length_cons] at h32 hn
    obtain ⟨hch, hrest⟩ := hb
    have hch1 : rd8 m ((s.with_aug d).m_augmentation_string + i) = l.code := hch
    have hrest1 : holds_bytes m (s.m_augmentation_string + (i + 1))
        (ls.map aug_letter.code ++ [0]) := by
      rw [← Nat.add_assoc]; exact hrest
    have hi1 : (i + 1) % W32 = i + 1 := Nat.mod_eq_of_lt (by omega)
    obtain ⟨_, hlen1⟩ := aug_walk_cursor fuel m _ _ _ _ _ _ hw
    simp only [List.length_cons] at hlen1
    unfold ci_entry.aug_loop
    dsimp only
    rw [hch1, if_pos ⟨aug_code_ne_zero l, by omega⟩, hi1]
    cases l with
    | L =>
      unfold aug_walk at hw
      cases hw1 : aug_walk fuel m ls { d with lsda_encoding := rd8 m p } ((p + 1) % W64) with
      | error e => simp [hw1] at hw
      | ok rqn =>
        obtain ⟨r1, q1, n1⟩ := rqn
        simp only [hw1, Except.ok.injEq, Prod.mk.injEq] at hw
        obtain ⟨h2, h3, h4⟩ := hw
        subst h2; subst h3; subst h4
        have key := ih n (i + 1) _ _ _ _ _ hrest1 (by omega) (by omega) (by omega) hw1 (by omega)
        simp only [aug_letter.code, if_true]
        exact key
    | R =>
      unfold aug_walk at hw
      cases hw1 : aug_walk fuel m ls { d with pointer_encoding := rd8 m p } ((p + 1) % W64) with
      | error e => simp [hw1] at hw
      | ok rqn =>
        obtain ⟨r1, q1, n1⟩ := rqn
        simp only [hw1, Except.ok.injEq, Prod.mk.injEq] at hw
        obtain ⟨h2, h3, h4⟩ := hw
        subst h2; subst h3; subst h4
        have key := ih n (i + 1) _ _ _ _ _ hrest1 (by omega) (by omega) (by omega) hw1 (by omega)
        simp only [aug_letter.code, show (82 : Nat) ≠ 76 by decide,
          show (82 : Nat) ≠ 80 by decide, if_false, if_true]
        exact key
    | P =>
      unfold aug_walk at hw
      cases hd : decode_pointer fuel m ((p + 1) % W64) (rd8 m p) with
      | error e => simp [hd] at hw
      | ok vq =>
        obtain ⟨v, q1⟩ := vq
        cases hs : pointer_size fuel m ((p + 1) % W64) (rd8 m p) with
        | error e => simp [hd, hs] at hw
        | ok w =>
          cases hw1 : aug_walk fuel m ls
              { d with personality_encoding := rd8 m p, personality_function := v } q1 with
          | error e => simp [hd, hs, hw1] at hw
          | ok rqn =>
            obtain ⟨r1, q2, n1⟩ := rqn
            simp only [hd, hs, hw1, Except.ok.injEq, Prod.mk.injEq] at hw
            obtain ⟨h2, h3, h4⟩ := hw
            subst h2; subst h3; subst h4
            have key := ih n (i + 1) _ _ _ _ _ hrest1 (by omega) (by omega) (by omega) hw1
              (by omega)
            simp only [aug_letter.code, show (80 : Nat) ≠ 76 by decide, if_false, if_true, hd]
            exact key

theorem skip_string_congr (m : Mem) :
    ∀ (n a b : Nat), a % W64 = b % W64 → skip_string n m a = skip_string n m b := by
  intro n
  induction n with
  | zero => intro a b _; rfl
  | succ n ih =>
    intro a b h
    unfold skip_string
    have h8 : rd8 m a = rd8 m b := by unfold rd8; rw [h]
    have h1 : (a + 1) % W64 = (b + 1) % W64 := by unfold W64 at h ⊢; omega
    rw [h8, h1]

theorem skip_string_bytes (m : Mem) :
    ∀ (bs : List Nat) (n a : Nat), holds_bytes m a (bs ++ [0]) → (∀ b ∈ bs, b ≠ 0) →
      bs.length < n → skip_string n m a = .ok ((a + bs.length + 1) % W64) := by
  intro bs
  induction bs with
  | nil =>
    intro n a hb _ hn
    obtain ⟨n, rfl⟩ : ∃ k, n = k + 1 := ⟨n - 1, by simp only [List.length_nil] at hn; omega⟩
    unfold skip_string
    have h0 : rd8 m a = 0 := hb.1
    rw [h0]
    simp
  | cons b bs ih =>
    intro n a hb hnz hn
    simp only [List.length_cons] at hn
    obtain ⟨n, rfl⟩ : ∃ k, n = k + 1 := ⟨n - 1, by omega⟩
    unfold skip_string
    have h0 : rd8 m a = b := hb.1
    have hne : rd8 m a ≠ 0 := by rw [h0]; exact hnz b (List.mem_cons_self _ _)
    rw [if_pos hne, skip_string_congr m n ((a + 1) % W64) (a + 1) (Nat.mod_mod _ _),
      ih n (a + 1) hb.2 (fun x hx => hnz x (List.mem_cons_of_mem _ hx)) (by omega)]
    simp only [List.length_cons]
    congr 2
    omega

theorem aug_walk_lt (fuel : Nat) (m : Mem) :
    ∀ (ls : List aug_letter) (d : aug_data) (p : Nat) (r : aug_data) (q n : Nat),
      aug_walk fuel m ls d p = .ok (r, q, n) → p < W64 → q < W64 := by
  intro ls
  induction ls with
  | nil =>
    intro d p r q n h hp
    simp only [aug_walk, Except.ok.injEq, Prod.mk.injEq] at h
    rw [← h.2.1]; exact hp
  | cons l ls ih =>
    intro d p r q n h _
    cases l with
    | L =>
      unfold aug_walk at h
      cases hw : aug_walk fuel m ls { d with lsda_encoding := rd8 m p } ((p + 1) % W64) with
      | error e => simp [hw] at h
      | ok rqn =>
        obtain ⟨r1, q1, n1⟩ := rqn
        simp only [hw, Except.ok.injEq, Prod.mk.injEq] at h
        rw [← h.2.1]
        exact ih _ _ _ _ _ hw (Nat.mod_lt _ (by decide))
    | R =>
      unfold aug_walk at h
      cases hw : aug_walk fuel m ls { d with pointer_encoding := rd8 m p } ((p + 1) % W64) with
      | error e => simp [hw] at h
      | ok rqn =>
        obtain ⟨r1, q1, n1⟩ := rqn
        simp only [hw, Except.ok.injEq, Prod.mk.injEq] at h
        rw [← h.2.1]
        exact ih _ _ _ _ _ hw (Nat.mod_lt _ (by decide))
    | P =>
      unfold aug_walk at h
      cases hd : decode_pointer fuel m ((p + 1) % W64) (rd8 m p) with
      | error e => simp [hd] at h
      | ok vq =>
        obtain ⟨v, q1⟩ := vq
        cases hs : pointer_size fuel m ((p + 1) % W64) (rd8 m p) with
        | error e => simp [hd, hs] at h
        | ok w =>
          cases hw : aug_walk fuel m ls
              { d with personality_encoding := rd8 m p, personality_function := v } q1 with
          | error e => simp [hd, hs, hw] at h
          | ok rqn =>
            obtain ⟨r1, q2, n1⟩ := rqn
            simp only [hd, hs, hw, Except.ok.injEq, Prod.mk.injEq] at h
            rw [← h.2.1]
            have hq1 := decode_pointer_size fuel m _ _ v q1 w (Nat.mod_lt _ (by decide)) hd hs
            exact ih _ _ _ _ _ hw (by rw [hq1]; exact Nat.mod_lt _ (by decide))

/-- What `ci_entry::ci_entry(eh_frame, addr)` returns on a CIE record whose
augmentation string is `z` followed by the letters `ls`, when the fields after
the string decode and the letters consume exactly the declared length. -/
theorem ci_at_augmented (fuel : Nat) (m : Mem) (eh : eh_frame_t) (addr : Nat)
    (ls : List aug_letter) (ca : Nat) (da : Int) (ra len pb pc pd p0 : Nat)
    (r : aug_data) (q : Nat)
    (hv : ((common_entry.of_frame eh).parse m addr).m_entry_start ≠ 0)
    (hc : ((common_entry.of_frame eh).parse m addr).m_is_cie = true)
    (hstr : holds_bytes m ((((common_entry.of_frame eh).parse m addr).m_payload_start + 4 + 1) % W64)
      (0x7A :: ls.map aug_letter.code ++ [0]))
    (h32 : ls.length + 1 < W32) (hfuel : ls.length + 1 < fuel)
    (hca : decode_uleb128 fuel m
      (((((common_entry.of_frame eh).parse m addr).m_payload_start + 4 + 1) % W64
        + (ls.length + 2)) % W64) = .ok (ca, pb))
    (hda : decode_sleb128 fuel m pb = .ok (da, pc))
    (hra : decode_uleb128 fuel m pc = .ok (ra, pd))
    (hlen : decode_uleb128 fuel m pd = .ok (len, p0))
    (hwalk : aug_walk fuel m ls ⟨0, 0, 0, 0⟩ p0 = .ok (r, q, len)) :
    ci_entry.at fuel m eh addr
      = .ok { tocommon_entry := (common_entry.of_frame eh).parse m addr,
              m_augmentation_string :=
                (((common_entry.of_frame eh).parse m addr).m_payload_start + 4 + 1) % W64,
              m_code_alignment := ca, m_data_alignment := da, m_return_address_reg := ra,
              m_pointer_encoding := r.pointer_encoding, m_lsda_encoding := r.lsda_encoding,
              m_personality_encoding := r.personality_encoding,
              m_personality_function := r.personality_function,
              m_initial_instructions := (p0 + len) % W64 } := by
  have hskip := skip_string_bytes m (0x7A :: ls.map aug_letter.code) fuel _ hstr
    (by
      intro b hb
      simp only [List.mem_cons, List.mem_map] at hb
      rcases hb with rfl | ⟨l, _, rfl⟩
      · decide
      · exact aug_code_ne_zero l)
    (by simp only [List.length_cons, List.length_map]; omega)
  simp only [List.length_cons, List.length_map, Nat.add_assoc _ (ls.length + 1) 1] at hskip
  have hz : rd8 m ((((common_entry.of_frame eh).parse m addr).m_payload_start + 4 + 1) % W64)
      = 0x7A := hstr.1
  have hp0 := decode_uleb128_cursor fuel m pd len p0 hlen
  have hq := aug_walk_cursor fuel m ls _ p0 r q len hwalk
  have hqlt := aug_walk_lt fuel m ls _ p0 r q len hwalk hp0
  have hqe : q = (p0 + len) % W64 := by
    rw [← hq.1, Nat.mod_eq_of_lt hqlt]
  have hloop := ci_aug_loop_walk fuel m len
    { tocommon_entry := (common_entry.of_frame eh).parse m addr,
      m_augmentation_string :=
        (((common_entry.of_frame eh).parse m addr).m_payload_start + 4 + 1) % W64,
      m_code_alignment := ca, m_data_alignment := da, m_return_address_reg := ra,
      m_pointer_encoding := 0, m_lsda_encoding := 0, m_personality_encoding := 0,
      m_personality_function := 0, m_initial_instructions := 0 }
    ls fuel 1 ⟨0, 0, 0, 0⟩ p0 r q len hstr.2 (by omega) (by omega) (Nat.le_refl 1) hwalk
    (by omega)
  unfold ci_entry.at ci_entry.parse ci_entry.init
  dsimp only
  rw [if_neg hv, if_neg (by rw [hc]; decide), hskip]
  dsimp only
  rw [hca]
  dsimp only
  rw [hda]
  dsimp only
  rw [hra]
  dsimp only
  rw [if_pos hz, hlen]
  dsimp only
  unfold ci_entry.with_aug at hloop
  dsimp only at hloop
  rw [hloop, hqe]

/-- C10: on a valid CIE record whose augmentation string is `z` followed by the
letters `ls` (each `L`, `P` or `R`; fewer than `2^32` of them), whose three
LEB128 fields after the string decode, and whose declared augmentation-data
length `len` (the ULEB128 read at `pd`, leaving the cursor `p0`) is the number
of bytes the letters consume, the CIE parser returns a CIE whose
`lsda_encoding`, `pointer_encoding`, `personality_encoding` and
`personality_function` are the ones read letter by letter from `p0`, and whose
`initial_instructions` is `p0 + len`. -/
theorem cie_augmentation_fields (fuel : Nat) (m : Mem) (eh : eh_frame_t) (addr : Nat)
    (ls : List aug_letter) (ca : Nat) (da : Int) (ra len pb pc pd p0 : Nat)
    (r : aug_data) (q : Nat)
    (hv : ((common_entry.of_frame eh).parse m addr).m_entry_start ≠ 0)
    (hc : ((common_entry.of_frame eh).parse m addr).m_is_cie = true)
    (hstr : holds_bytes m ((((common_entry.of_frame eh).parse m addr).m_payload_start + 4 + 1) % W64)
      (0x7A :: ls.map aug_letter.code ++ [0]))
    (h32 : ls.length + 1 < W32) (hfuel : ls.length + 1 < fuel)
    (hca : decode_uleb128 fuel m
      (((((common_entry.of_frame eh).parse m addr).m_payload_start + 4 + 1) % W64
        + (ls.length + 2)) % W64) = .ok (ca, pb))
    (hda : decode_sleb128 fuel m pb = .ok (da, pc))
    (hra : decode_uleb128 fuel m pc = .ok (ra, pd))
    (hlen : decode_uleb128 fuel m pd = .ok (len, p0))
    (hwalk : aug_walk fuel m ls ⟨0, 0, 0, 0⟩ p0 = .ok (r, q, len)) :
    ∃ cie : ci_entry,
      ci_entry.at fuel m eh addr = .ok cie
      ∧ cie.m_lsda_encoding = r.lsda_encoding
      ∧ cie.m_pointer_encoding = r.pointer_encoding
      ∧ cie.m_personality_encoding = r.personality_encoding
      ∧ cie.m_personality_function = r.personality_function
      ∧ cie.m_initial_instructions = (p0 + len) % W64
      ∧ cie.m_code_alignment = ca ∧ cie.m_data_alignment = da
      ∧ cie.m_return_address_reg = ra :=
  ⟨_, ci_at_augmented fuel m eh addr ls ca da ra len pb pc pd p0 r q hv hc hstr h32 hfuel hca hda
    hra hlen hwalk, rfl, rfl, rfl, rfl, rfl, rfl, rfl, rfl⟩

/-- C10, at the CIE of the `zPLR` section: the augmentation data is the 7 bytes
from `0x4012` on, and the initial instructions start at `0x4019`. -/
theorem cie_augmentation_fields_witness :
    ∃ cie : ci_entry,
      ci_entry.at 20 plr_mem plr_frame 0x4000 = .ok cie
      ∧ cie.m_lsda_encoding = 0x01
      ∧ cie.m_pointer_encoding = 0x1B
      ∧ cie.m_personality_encoding = 0x03
      ∧ cie.m_personality_function = 0x11223344
      ∧ cie.m_initial_instructions = 0x4019 := by
  obtain ⟨cie, h0, h1, h2, h3, h4, h5, _⟩ :=
    cie_augmentation_fields 20 plr_mem plr_frame 0x4000 [.P, .L, .R] 1 (-8) 16 7
      0x400F 0x4010 0x4011 0x4012 ⟨0x01, 0x03, 0x11223344, 0x1B⟩ 0x4019
      (by decide) (by rfl) ⟨by rfl, by rfl, by rfl, by rfl, by rfl, trivial⟩
      (by decide) (by decide) (by rfl) (by rfl) (by rfl) (by rfl) (by rfl)
  exact ⟨cie, h0, h1, h2, h3, h4, h5⟩

/-! ### Round trip of a minimal section -/

theorem holds_bytes_append (m : Mem) :
    ∀ (xs ys : List Nat) (a : Nat),
      holds_bytes m a (xs ++ ys) ↔ holds_bytes m a xs ∧ holds_bytes m (a + xs.length) ys := by
  intro xs
  induction xs with
  | nil => intro ys a; simp [holds_bytes]
  | cons x xs ih =>
    intro ys a
    have e : a + 1 + xs.length = a + (xs.length + 1) := by omega
    show rd8 m a = x ∧ holds_bytes m (a + 1) (xs ++ ys) ↔ _
    rw [ih ys (a + 1), e]
    simp only [holds_bytes, List.length_cons, and_assoc]

theorem rd32_le_bytes (m : Mem) (a v : Nat) (hv : v < 4294967296)
    (h : holds_bytes m a (le_bytes 4 v)) : rd32 m a = v := by
  simp only [le_bytes, holds_bytes, Nat.add_assoc] at h
  obtain ⟨h0, h1, h2, h3, _⟩ := h
  unfold rd32 rd16
  simp only [Nat.add_assoc]
  rw [h0, h1, h2, h3]
  omega

theorem rd64_le_bytes (m : Mem) (a v : Nat) (hv : v < W64)
    (h : holds_bytes m a (le_bytes 8 v)) : rd64 m a = v := by
  simp only [le_bytes, holds_bytes, Nat.add_assoc] at h
  obtain ⟨h0, h1, h2, h3, h4, h5, h6, h7, _⟩ := h
  unfold rd64 rd32 rd16
  simp only [Nat.add_assoc]
  rw [h0, h1, h2, h3, h4, h5, h6, h7]
  unfold W64 at hv
  omega

theorem uleb128_raw_bytes (m : Mem) :
    ∀ (f v a fuel : Nat), v < 128 ^ (f + 1) → f + 1 ≤ fuel →
      holds_bytes m a (uleb_bytes (f + 1) v) →
      uleb128_raw fuel m a = .ok (v, (uleb_bytes (f + 1) v).length) := by
  intro f
  induction f with
  | zero =>
    intro v a fuel hv hf hb
    obtain ⟨fuel, rfl⟩ : ∃ k, fuel = k + 1 := ⟨fuel - 1, by omega⟩
    have hv1 : v < 128 := by simpa using hv
    unfold uleb_bytes at hb ⊢
    rw [if_pos hv1] at hb ⊢
    have h0 : rd8 m a = v := hb.1
    unfold uleb128_raw
    rw [h0, if_pos hv1]
    rfl
  | succ f ih =>
    intro v a fuel hv hf hb
    obtain ⟨fuel, rfl⟩ : ∃ k, fuel = k + 1 := ⟨fuel - 1, by omega⟩
    unfold uleb_bytes at hb ⊢
    by_cases hv1 : v < 128
    · rw [if_pos hv1] at hb ⊢
      have h0 : rd8 m a = v := hb.1
      unfold uleb128_raw
      rw [h0, if_pos hv1]
      rfl
    · rw [if_neg hv1] at hb ⊢
      have h0 : rd8 m a = v % 128 + 128 := hb.1
      have hv2 : v / 128 < 128 ^ (f + 1) := by
        rw [pow_succ] at hv
        omega
      have key := ih (v / 128) (a + 1) fuel hv2 (by omega) hb.2
      unfold uleb128_raw
      rw [h0, if_neg (by omega), key]
      simp only [List.length_cons, Except.ok.injEq, Prod.mk.injEq, and_true]
      omega

theorem sleb128_raw_bytes (m : Mem) :
    ∀ (f : Nat) (v : Int) (a fuel : Nat), -(64 * (128 : Int) ^ f) ≤ v → v < 64 * (128 : Int) ^ f →
      f + 1 ≤ fuel → holds_bytes m a (sleb_bytes (f + 1) v) →
      sleb128_raw fuel m a = .ok (v, (sleb_bytes (f + 1) v).length) := by
  intro f
  induction f with
  | zero =>
    intro v a fuel hlo hhi hf hb
    obtain ⟨fuel, rfl⟩ : ∃ k, fuel = k + 1 := ⟨fuel - 1, by omega⟩
    have hr : -64 ≤ v ∧ v < 64 := by
      simp only [pow_zero, mul_one] at hlo hhi
      exact ⟨hlo, hhi⟩
    unfold sleb_bytes at hb ⊢
    rw [if_pos hr] at hb ⊢
    have h0 : rd8 m a = (v % 128).toNat := hb.1
    unfold sleb128_raw
    rw [h0, if_pos (by omega)]
    simp only [List.length_cons, List.length_nil, Except.ok.injEq, Prod.mk.injEq, and_true]
    split_ifs <;> omega
  | succ f ih =>
    intro v a fuel hlo hhi hf hb
    obtain ⟨fuel, rfl⟩ : ∃ k, fuel = k + 1 := ⟨fuel - 1, by omega⟩
    unfold sleb_bytes at hb ⊢
    by_cases hr : -64 ≤ v ∧ v < 64
    · rw [if_pos hr] at hb ⊢
      have h0 : rd8 m a = (v % 128).toNat := hb.1
      unfold sleb128_raw
      rw [h0, if_pos (by omega)]
      simp only [List.length_cons, List.length_nil, Except.ok.injEq, Prod.mk.injEq, and_true]
      split_ifs <;> omega
    · rw [if_neg hr] at hb ⊢
      have h0 : rd8 m a = (v % 128).toNat + 128 := hb.1
      rw [pow_succ] at hlo hhi
      have key := ih (v / 128) (a + 1) fuel (by omega) (by omega) (by omega) hb.2
      unfold sleb128_raw
      rw [h0, if_neg (by omega), key]
      simp only [List.length_cons, Except.ok.injEq, Prod.mk.injEq, and_true]
      omega

theorem decode_uleb128_bytes (m : Mem) (v a fuel : Nat) (hv : v < W64) (hf : 10 ≤ fuel)
    (hb : holds_bytes m a (encode_uleb128 v)) :
    decode_uleb128 fuel m a = .ok (v, (a + (encode_uleb128 v).length) % W64) := by
  unfold decode_uleb128
  unfold encode_uleb128 at hb ⊢
  rw [uleb128_raw_bytes m 9 v a fuel (by unfold W64 at hv; norm_num; omega) hf hb]
  simp only [Nat.mod_eq_of_lt hv]

theorem decode_sleb128_bytes (m : Mem) (v : Int) (a fuel : Nat)
    (hlo : -9223372036854775808 ≤ v) (hhi : v < 9223372036854775808) (hf : 10 ≤ fuel)
    (hb : holds_bytes m a (encode_sleb128 v)) :
    decode_sleb128 fuel m a = .ok (v, (a + (encode_sleb128 v).length) % W64) := by
  unfold decode_sleb128
  unfold encode_sleb128 at hb ⊢
  rw [sleb128_raw_bytes m 9 v a fuel (by norm_num; omega) (by norm_num; omega) hf hb]
  have hbm : Int.bmod v W64 = v := by
    unfold Int.bmod W64
    dsimp only
    split_ifs <;> omega
  simp only [hbm]

theorem uleb_bytes_length (f v : Nat) : (uleb_bytes f v).length ≤ f := by
  induction f generalizing v with
  | zero => simp [uleb_bytes]
  | succ f ih =>
    unfold uleb_bytes
    split_ifs
    · simp
    · simp only [List.length_cons]
      have := ih (v / 128)
      omega

theorem sleb_bytes_length (f : Nat) (v : Int) : (sleb_bytes f v).length ≤ f := by
  induction f generalizing v with
  | zero => simp [sleb_bytes]
  | succ f ih =>
    unfold sleb_bytes
    split_ifs
    · simp
    · simp only [List.length_cons]
      have := ih (v / 128)
      omega

theorem holds_bytes_addr (m : Mem) (a b : Nat) (bs : List Nat) (h : a = b)
    (hb : holds_bytes m a bs) : holds_bytes m b bs := by
  subst h; exact hb

theorem decode_pointer_absptr (fuel : Nat) (m : Mem) (a : Nat) :
    decode_pointer fuel m a 0 = .ok (rd64 m a, (a + 8) % W64) := by
  unfold decode_pointer decode_pointer_base decode_pointer_value
  have h := rd64_lt m a
  simp [DW_EH_PE_omit, DW_EH_PE_absptr, Nat.mod_eq_of_lt h]

theorem minimal_section_length (ca : Nat) (da : Int) (ra pcb pcr : Nat) :
    (minimal_section ca da ra pcb pcr).length = minimal_cie_size ca da ra + 29 := by
  unfold minimal_section minimal_cie_size minimal_fde_payload
  simp only [List.length_append, List.length_cons, List.length_nil, le_bytes]
  omega

theorem minimal_cie_size_eq (ca : Nat) (da : Int) (ra : Nat) :
    minimal_cie_size ca da ra
      = 14 + (encode_uleb128 ca).length + (encode_sleb128 da).length
          + (encode_uleb128 ra).length := by
  unfold minimal_cie_size minimal_cie_payload
  simp only [List.length_append, List.length_cons, List.length_nil]
  omega

/-- The pieces of the minimal section, each at its address. -/
theorem minimal_section_layout (m : Mem) (base ca : Nat) (da : Int) (ra pcb pcr : Nat)
    (h : holds_bytes m base (minimal_section ca da ra pcb pcr)) :
    holds_bytes m base (le_bytes 4 (minimal_cie_size ca da ra - 4))
      ∧ holds_bytes m (base + 4) (le_bytes 4 0)
      ∧ holds_bytes m (base + 9) [0x7A, 0x52, 0]
      ∧ holds_bytes m (base + 12) (encode_uleb128 ca)
      ∧ holds_bytes m (base + 12 + (encode_uleb128 ca).length) (encode_sleb128 da)
      ∧ holds_bytes m (base + 12 + (encode_uleb128 ca).length + (encode_sleb128 da).length)
          (encode_uleb128 ra)
      ∧ holds_bytes m (base + minimal_cie_size ca da ra - 2) [1, 0]
      ∧ holds_bytes m (base + minimal_cie_size ca da ra) (le_bytes 4 21)
      ∧ holds_bytes m (base + minimal_cie_size ca da ra + 4)
          (le_bytes 4 (minimal_cie_size ca da ra + 4))
      ∧ holds_bytes m (base + minimal_cie_size ca da ra + 8) (le_bytes 8 pcb)
      ∧ holds_bytes m (base + minimal_cie_size ca da ra + 16) (le_bytes 8 pcr)
      ∧ holds_bytes m (base + minimal_cie_size ca da ra + 24) [0] := by
  have hsz := minimal_cie_size_eq ca da ra
  have hpl : (minimal_cie_payload ca da ra).length = minimal_cie_size ca da ra - 4 := by
    unfold minimal_cie_size; omega
  unfold minimal_section minimal_fde_payload at h
  rw [hpl] at h
  obtain ⟨h1, h⟩ := (holds_bytes_append m _ _ _).1 h
  obtain ⟨hpay, h⟩ := (holds_bytes_append m _ _ _).1 h
  obtain ⟨h8, h⟩ := (holds_bytes_append m _ _ _).1 h
  obtain ⟨hfde, _⟩ := (holds_bytes_append m _ _ _).1 h
  obtain ⟨h9, hfde⟩ := (holds_bytes_append m _ _ _).1 hfde
  obtain ⟨h10, hfde⟩ := (holds_bytes_append m _ _ _).1 hfde
  obtain ⟨h11, h12⟩ := (holds_bytes_append m _ _ _).1 hfde
  unfold minimal_cie_payload at hpay
  obtain ⟨h2, hpay⟩ := (holds_bytes_append m _ _ _).1 hpay
  obtain ⟨_, hpay⟩ := (holds_bytes_append m _ _ _).1 hpay
  obtain ⟨h3, hpay⟩ := (holds_bytes_append m _ _ _).1 hpay
  obtain ⟨h4, hpay⟩ := (holds_bytes_append m _ _ _).1 hpay
  obtain ⟨h5, hpay⟩ := (holds_bytes_append m _ _ _).1 hpay
  obtain ⟨h6, h7⟩ := (holds_bytes_append m _ _ _).1 hpay
  have e4 : ∀ x, (le_bytes 4 x).length = 4 := fun _ => rfl
  have e8 : ∀ x, (le_bytes 8 x).length = 8 := fun _ => rfl
  simp only [e4, e8, hpl, List.length_cons, List.length_nil] at *
  refine ⟨h1, h2, ?_, ?_, ?_, ?_, ?_, ?_, ?_, ?_, ?_, ?_⟩
  · exact holds_bytes_addr m _ _ _ (by omega) h3
  · exact holds_bytes_addr m _ _ _ (by omega) h4
  · exact holds_bytes_addr m _ _ _ (by omega) h5
  · exact holds_bytes_addr m _ _ _ (by omega) h6
  · exact holds_bytes_addr m _ _ _ (by omega) h7
  · exact holds_bytes_addr m _ _ _ (by omega) h8
  · exact holds_bytes_addr m _ _ _ (by omega) h9
  · exact holds_bytes_addr m _ _ _ (by omega) h10
  · exact holds_bytes_addr m _ _ _ (by omega) h11
  · exact holds_bytes_addr m _ _ _ (by omega) h12

/-- The CIE of the minimal section, as the CIE parser returns it. -/
theorem minimal_cie_parsed (fuel : Nat) (m : Mem) (base ca : Nat) (da : Int) (ra pcb pcr : Nat)
    (hbase : 0 < base) (hsec : base + (minimal_section ca da ra pcb pcr).length < W64)
    (hca : ca < W64) (hra : ra < W64)
    (hdalo : -9223372036854775808 ≤ da) (hdahi : da < 9223372036854775808)
    (hfuel : 10 ≤ fuel)
    (hmem : holds_bytes m base (minimal_section ca da ra pcb pcr)) :
    ci_entry.at fuel m ⟨base, (minimal_section ca da ra pcb pcr).length⟩ base
      = .ok { tocommon_entry :=
                record_at m ⟨base, (minimal_section ca da ra pcb pcr).length⟩ base
                  ⟨false, minimal_cie_size ca da ra - 4⟩,
              m_augmentation_string := base + 9,
              m_code_alignment := ca, m_data_alignment := da, m_return_address_reg := ra,
              m_pointer_encoding := 0, m_lsda_encoding := 0,
              m_personality_encoding := 0, m_personality_function := 0,
              m_initial_instructions := base + minimal_cie_size ca da ra } := by
  obtain ⟨l1, l2, l3, l4, l5, l6, l7, _⟩ := minimal_section_layout m base ca da ra pcb pcr hmem
  have hlen := minimal_section_length ca da ra pcb pcr
  have hsz := minimal_cie_size_eq ca da ra
  have n1 := uleb_bytes_length 10 ca
  have n2 := sleb_bytes_length 10 da
  have n3 := uleb_bytes_length 10 ra
  have n1' : (encode_uleb128 ca).length ≤ 10 := n1
  have n2' : (encode_sleb128 da).length ≤ 10 := n2
  have n3' : (encode_uleb128 ra).length ≤ 10 := n3
  have hW : W64 = 18446744073709551616 := rfl
  have hparse : (common_entry.of_frame ⟨base, (minimal_section ca da ra pcb pcr).length⟩).parse m base
      = record_at m ⟨base, (minimal_section ca da ra pcb pcr).length⟩ base
          ⟨false, minimal_cie_size ca da ra - 4⟩ := by
    refine parse_record m _ base ⟨false, minimal_cie_size ca da ra - 4⟩ hbase (Nat.le_refl _)
      ⟨?_, ?_⟩ ?_ hsec
    · show minimal_cie_size ca da ra - 4 ≠ 0
      omega
    · show rd32 m base = minimal_cie_size ca da ra - 4 ∧ minimal_cie_size ca da ra - 4 ≠ 0xFFFFFFFF
      exact ⟨rd32_le_bytes m base _ (by omega) l1, by omega⟩
    · show base + (4 + (minimal_cie_size ca da ra - 4)) ≤ base + (minimal_section ca da ra pcb pcr).length
      omega
  have hcie0 : rd32 m (base + 4) = 0 := rd32_le_bytes m (base + 4) 0 (by decide) l2
  have key := ci_at_augmented fuel m ⟨base, (minimal_section ca da ra pcb pcr).length⟩ base [.R]
    ca da ra 1
    (base + 12 + (encode_uleb128 ca).length)
    (base + 12 + (encode_uleb128 ca).length + (encode_sleb128 da).length)
    (base + minimal_cie_size ca da ra - 2)
    (base + minimal_cie_size ca da ra - 1)
    ⟨0, 0, 0, 0⟩ (base + minimal_cie_size ca da ra)
  rw [hparse] at key
  have ps : (record_at m ⟨base, (minimal_section ca da ra pcb pcr).length⟩ base
      ⟨false, minimal_cie_size ca da ra - 4⟩).m_payload_start = base + 4 := rfl
  have es : (record_at m ⟨base, (minimal_section ca da ra pcb pcr).length⟩ base
      ⟨false, minimal_cie_size ca da ra - 4⟩).m_entry_start = base := rfl
  have ic : (record_at m ⟨base, (minimal_section ca da ra pcb pcr).length⟩ base
      ⟨false, minimal_cie_size ca da ra - 4⟩).m_is_cie = decide (rd32 m (base + 4) = 0) := rfl
  rw [ps, es, ic] at key
  have a9 : (base + 4 + 4 + 1) % W64 = base + 9 := by rw [Nat.mod_eq_of_lt (by omega)]
  have a12 : (base + 9 + ([aug_letter.R].length + 2)) % W64 = base + 12 := by
    rw [Nat.mod_eq_of_lt (by simp only [List.length_cons, List.length_nil]; omega)]
    simp only [List.length_cons, List.length_nil]
  rw [a9, a12] at key
  have d1 := decode_uleb128_bytes m ca (base + 12) fuel hca hfuel l4
  rw [Nat.mod_eq_of_lt (by omega)] at d1
  have d2 := decode_sleb128_bytes m da (base + 12 + (encode_uleb128 ca).length) fuel hdalo hdahi
    hfuel l5
  rw [Nat.mod_eq_of_lt (by omega)] at d2
  have d3 := decode_uleb128_bytes m ra
    (base + 12 + (encode_uleb128 ca).length + (encode_sleb128 da).length) fuel hra hfuel l6
  rw [Nat.mod_eq_of_lt (by omega)] at d3
  have e3 : base + 12 + (encode_uleb128 ca).length + (encode_sleb128 da).length
      + (encode_uleb128 ra).length = base + minimal_cie_size ca da ra - 2 := by omega
  rw [e3] at d3
  have l7a : rd8 m (base + minimal_cie_size ca da ra - 2) = 1 := l7.1
  have l7b : rd8 m (base + minimal_cie_size ca da ra - 2 + 1) = 0 := l7.2.1
  have e4 : base + minimal_cie_size ca da ra - 2 + 1 = base + minimal_cie_size ca da ra - 1 := by
    omega
  rw [e4] at l7b
  have d4 : decode_uleb128 fuel m (base + minimal_cie_size ca da ra - 2)
      = .ok (1, base + minimal_cie_size ca da ra - 1) := by
    have := decode_uleb128_bytes m 1 (base + minimal_cie_size ca da ra - 2) fuel (by decide) hfuel
      ⟨l7a, trivial⟩
    rw [this]
    have e : (encode_uleb128 1).length = 1 := rfl
    rw [e, Nat.mod_eq_of_lt (by omega), e4]
  have hwalk : aug_walk fuel m [.R] ⟨0, 0, 0, 0⟩ (base + minimal_cie_size ca da ra - 1)
      = .ok (⟨0, 0, 0, 0⟩, base + minimal_cie_size ca da ra, 1) := by
    simp only [aug_walk, l7b]
    rw [Nat.mod_eq_of_lt (by omega)]
    have e : base + minimal_cie_size ca da ra - 1 + 1 = base + minimal_cie_size ca da ra := by
      omega
    rw [e]
  have res := key (by omega) (by rw [hcie0]; rfl) l3 (by decide) (by simp only [List.length_cons, List.length_nil]; omega) d1 d2 d3 d4 hwalk
  rw [res]
  have e5 : (base + minimal_cie_size ca da ra - 1 + 1) % W64 = base + minimal_cie_size ca da ra := by
    rw [Nat.mod_eq_of_lt (by omega)]; omega
  rw [e5]

/-- C8: for every minimal section (one CIE with the augmentation string `zR`,
the pointer encoding `absptr`, a code alignment (ULEB128), a data alignment
(SLEB128) and a return-address register (ULEB128), one FDE whose CIE pointer
designates that CIE and which stores `pc_begin` and `pc_range`, then the
terminator) held anywhere in memory, the FDE parser on the FDE returns an FDE
whose CIE has the encoded alignments and register and whose `pc_begin` and
`pc_range` are the stored values; with `pc_begin = 0x1000` and
`pc_range = 0x40` the range test accepts `0x1010` and rejects `0x1040`. -/
theorem minimal_section_round_trip (fuel : Nat) (m : Mem) (base ca : Nat) (da : Int)
    (ra pcb pcr : Nat)
    (hbase : 0 < base) (hsec : base + (minimal_section ca da ra pcb pcr).length < W64)
    (hca : ca < W64) (hra : ra < W64)
    (hdalo : -9223372036854775808 ≤ da) (hdahi : da < 9223372036854775808)
    (hpcb : pcb < W64) (hpcr : pcr < W64) (hfuel : 10 ≤ fuel)
    (hmem : holds_bytes m base (minimal_section ca da ra pcb pcr)) :
    ∃ fde : fd_entry,
      fd_entry.at fuel m ⟨base, (minimal_section ca da ra pcb pcr).length⟩
          (base + minimal_cie_size ca da ra) = .ok fde
      ∧ fde.m_entry_start = base + minimal_cie_size ca da ra ∧ fde.m_is_cie = false
      ∧ fde.m_cie.m_entry_start = base ∧ fde.m_cie.m_is_cie = true
      ∧ fde.m_cie.m_pointer_encoding = DW_EH_PE_absptr
      ∧ fde.m_cie.m_code_alignment = ca
      ∧ fde.m_cie.m_data_alignment = da
      ∧ fde.m_cie.m_return_address_reg = ra
      ∧ fde.m_pc_begin = pcb ∧ fde.m_pc_range = pcr
      ∧ (pcb = 0x1000 → pcr = 0x40 →
          fde.is_in_range 0x1010 = true ∧ fde.is_in_range 0x1040 = false) := by
  have hcie := minimal_cie_parsed fuel m base ca da ra pcb pcr hbase hsec hca hra hdalo hdahi
    hfuel hmem
  obtain ⟨_, l2, l3, _, _, _, _, l8, l9, l10, l11, l12⟩ :=
    minimal_section_layout m base ca da ra pcb pcr hmem
  have hlen := minimal_section_length ca da ra pcb pcr
  have hsz := minimal_cie_size_eq ca da ra
  have n1' : (encode_uleb128 ca).length ≤ 10 := uleb_bytes_length 10 ca
  have n2' : (encode_sleb128 da).length ≤ 10 := sleb_bytes_length 10 da
  have n3' : (encode_uleb128 ra).length ≤ 10 := uleb_bytes_length 10 ra
  have hW : W64 = 18446744073709551616 := rfl
  have hcie0 : rd32 m (base + 4) = 0 := rd32_le_bytes m (base + 4) 0 (by decide) l2
  have hparse : (common_entry.of_frame ⟨base, (minimal_section ca da ra pcb pcr).length⟩).parse m
        (base + minimal_cie_size ca da ra)
      = record_at m ⟨base, (minimal_section ca da ra pcb pcr).length⟩
          (base + minimal_cie_size ca da ra) ⟨false, 21⟩ := by
    refine parse_record m _ _ ⟨false, 21⟩ (by omega) (by show base ≤ _; omega) ⟨by decide, ?_⟩ ?_
      hsec
    · show rd32 m (base + minimal_cie_size ca da ra) = 21 ∧ (21 : Nat) ≠ 0xFFFFFFFF
      exact ⟨rd32_le_bytes m _ 21 (by decide) l8, by decide⟩
    · show base + minimal_cie_size ca da ra + (4 + 21)
        ≤ base + (minimal_section ca da ra pcb pcr).length
      omega
  have hptr : rd32 m (base + minimal_cie_size ca da ra + 4) = minimal_cie_size ca da ra + 4 :=
    rd32_le_bytes m _ _ (by omega) l9
  have hpcb1 : rd64 m (base + minimal_cie_size ca da ra + 8) = pcb := rd64_le_bytes m _ _ hpcb l10
  have hpcr1 : rd64 m (base + minimal_cie_size ca da ra + 16) = pcr := rd64_le_bytes m _ _ hpcr l11
  have hz : rd8 m (base + 9) = 0x7A := l3.1
  have hR : rd8 m (base + 9 + 1) = 0x52 := l3.2.1
  have hzero : rd8 m (base + minimal_cie_size ca da ra + 24) = 0 := l12.1
  have d5 : decode_uleb128 fuel m (base + minimal_cie_size ca da ra + 24)
      = .ok (0, base + minimal_cie_size ca da ra + 25) := by
    have := decode_uleb128_bytes m 0 (base + minimal_cie_size ca da ra + 24) fuel (by decide)
      hfuel ⟨hzero, trivial⟩
    rw [this]
    have e : (encode_uleb128 0).length = 1 := rfl
    rw [e, Nat.mod_eq_of_lt (by omega)]
  obtain ⟨k, hk⟩ : ∃ k, fuel = k + 1 := ⟨fuel - 1, by omega⟩
  have hfd : fd_entry.at fuel m ⟨base, (minimal_section ca da ra pcb pcr).length⟩
      (base + minimal_cie_size ca da ra)
      = .ok { tocommon_entry :=
                record_at m ⟨base, (minimal_section ca da ra pcb pcr).length⟩
                  (base + minimal_cie_size ca da ra) ⟨false, 21⟩,
              m_cie :=
                { tocommon_entry :=
                    record_at m ⟨base, (minimal_section ca da ra pcb pcr).length⟩ base
                      ⟨false, minimal_cie_size ca da ra - 4⟩,
                  m_augmentation_string := base + 9,
                  m_code_alignment := ca, m_data_alignment := da, m_return_address_reg := ra,
                  m_pointer_encoding := 0, m_lsda_encoding := 0,
                  m_personality_encoding := 0, m_personality_function := 0,
                  m_initial_instructions := base + minimal_cie_size ca da ra },
              m_pc_begin := pcb, m_pc_range := pcr, m_lsda := 0,
              m_instructions := base + minimal_cie_size ca da ra + 25 } := by
    unfold fd_entry.at fd_entry.parse fd_entry.init
    dsimp only
    rw [hparse]
    have ps : (record_at m ⟨base, (minimal_section ca da ra pcb pcr).length⟩
        (base + minimal_cie_size ca da ra) ⟨false, 21⟩).m_payload_start
        = base + minimal_cie_size ca da ra + 4 := rfl
    have es : (record_at m ⟨base, (minimal_section ca da ra pcb pcr).length⟩
        (base + minimal_cie_size ca da ra) ⟨false, 21⟩).m_entry_start
        = base + minimal_cie_size ca da ra := rfl
    have ic : (record_at m ⟨base, (minimal_section ca da ra pcb pcr).length⟩
        (base + minimal_cie_size ca da ra) ⟨false, 21⟩).m_is_cie
        = decide (rd32 m (base + minimal_cie_size ca da ra + 4) = 0) := rfl
    have ef : (record_at m ⟨base, (minimal_section ca da ra pcb pcr).length⟩
        (base + minimal_cie_size ca da ra) ⟨false, 21⟩).m_eh_frame
        = ⟨base, (minimal_section ca da ra pcb pcr).length⟩ := rfl
    rw [ps, es, ic, ef, hptr]
    rw [if_neg (by omega), if_neg (by simp)]
    have ecie : (base + minimal_cie_size ca da ra + 4 + W64 - (minimal_cie_size ca da ra + 4)) % W64
        = base := by
      have : base + minimal_cie_size ca da ra + 4 + W64 - (minimal_cie_size ca da ra + 4)
          = base + W64 := by omega
      rw [this, Nat.add_mod_right, Nat.mod_eq_of_lt (by omega)]
    rw [ecie, hcie]
    dsimp only
    have a8 : (base + minimal_cie_size ca da ra + 4 + 4) % W64
        = base + minimal_cie_size ca da ra + 8 := by
      rw [Nat.mod_eq_of_lt (by omega)]
    rw [a8, decode_pointer_absptr, hpcb1]
    dsimp only
    have a16 : (base + minimal_cie_size ca da ra + 8 + 8) % W64
        = base + minimal_cie_size ca da ra + 16 := by
      rw [Nat.mod_eq_of_lt (by omega)]
    have z0 : (0 : Nat) &&& 0xF = 0 := rfl
    rw [a16, z0, decode_pointer_absptr, hpcr1]
    dsimp only
    have a24 : (base + minimal_cie_size ca da ra + 16 + 8) % W64
        = base + minimal_cie_size ca da ra + 24 := by
      rw [Nat.mod_eq_of_lt (by omega)]
    have hz' : ci_entry.augmentation_string m
        { tocommon_entry :=
            record_at m ⟨base, (minimal_section ca da ra pcb pcr).length⟩ base
              ⟨false, minimal_cie_size ca da ra - 4⟩,
          m_augmentation_string := base + 9,
          m_code_alignment := ca, m_data_alignment := da, m_return_address_reg := ra,
          m_pointer_encoding := 0, m_lsda_encoding := 0,
          m_personality_encoding := 0, m_personality_function := 0,
          m_initial_instructions := base + minimal_cie_size ca da ra } 0 = 0x7A := hz
    rw [a24, if_pos hz', d5]
    dsimp only
    rw [hk]
    unfold fd_entry.aug_loop
    dsimp only
    rw [if_neg (by omega)]
  refine ⟨_, hfd, rfl, ?_, rfl, ?_, rfl, rfl, rfl, rfl, rfl, rfl, ?_⟩
  · show decide (rd32 m (base + minimal_cie_size ca da ra + 4) = 0) = false
    rw [hptr]; simp
  · show decide (rd32 m (base + 4) = 0) = true
    rw [hcie0]; rfl
  · intro h1 h2
    subst h1; subst h2
    exact ⟨by rfl, by rfl⟩

/-- C8, at the minimal section of the specification (code alignment 1, data
alignment -4, `pc_begin = 0x1000`, `pc_range = 0x40`) held at `0x2000`. -/
theorem minimal_section_round_trip_witness :
    ∃ fde : fd_entry,
      fd_entry.at 20 (memOf 0x2000 (minimal_section 1 (-4) 16 0x1000 0x40))
          ⟨0x2000, (minimal_section 1 (-4) 16 0x1000 0x40).length⟩
          (0x2000 + minimal_cie_size 1 (-4) 16) = .ok fde
      ∧ fde.m_cie.m_code_alignment = 1
      ∧ fde.m_cie.m_data_alignment = -4
      ∧ fde.m_cie.m_return_address_reg = 16
      ∧ fde.m_pc_begin = 0x1000 ∧ fde.m_pc_range = 0x40
      ∧ fde.is_in_range 0x1010 = true ∧ fde.is_in_range 0x1040 = false := by
  obtain ⟨fde, h0, _, _, _, _, _, h1, h2, h3, h4, h5, h6⟩ :=
    minimal_section_round_trip 20 (memOf 0x2000 (minimal_section 1 (-4) 16 0x1000 0x40))
      0x2000 1 (-4) 16 0x1000 0x40 (by decide) (by decide) (by decide) (by decide) (by decide)
      (by decide) (by decide) (by decide) (by decide)
      (by
        show holds_bytes _ 0x2000 [13, 0, 0, 0, 0, 0, 0, 0, 1, 122, 82, 0, 1, 124, 16, 1, 0,
          21, 0, 0, 0, 21, 0, 0, 0, 0, 16, 0, 0, 0, 0, 0, 0, 64, 0, 0, 0, 0, 0, 0, 0, 0, 0, 0, 0, 0]
        simp only [holds_bytes, and_true]
        decide)
  exact ⟨fde, h0, h1, h2, h3, h4, h5, (h6 rfl rfl).1, (h6 rfl rfl).2⟩


/-! ### The pointer decoder -/

theorem decode_pointer_of_absptr_base (fuel : Nat) (m : Mem) (a e : Nat)
    (hne : e ≠ DW_EH_PE_omit) (hb : e &&& 0x70 = DW_EH_PE_absptr) :
    decode_pointer fuel m a e = decode_pointer_value fuel m a e := by
  unfold decode_pointer
  rw [if_neg hne]
  unfold decode_pointer_base
  rw [if_pos hb]
  cases hd : decode_pointer_value fuel m a e with
  | error x => rfl
  | ok vq =>
    obtain ⟨v, q⟩ := vq
    have := decode_pointer_value_lt fuel m a e v q hd
    simp only [Nat.zero_add, Nat.mod_eq_of_lt this]

theorem decode_pointer_of_pcrel_base (fuel : Nat) (m : Mem) (a e : Nat)
    (hne : e ≠ DW_EH_PE_omit) (hb : e &&& 0x70 = DW_EH_PE_pcrel) :
    decode_pointer fuel m a e
      = (match decode_pointer_value fuel m a e with
         | .ok (v, q) => .ok ((v + a) % W64, q)
         | .error x => .error x) := by
  unfold decode_pointer
  rw [if_neg hne]
  unfold decode_pointer_base
  have h0 : ¬ e &&& 0x70 = DW_EH_PE_absptr := by rw [hb]; decide
  rw [if_neg h0, if_pos hb]
  cases hd : decode_pointer_value fuel m a e with
  | error x => rfl
  | ok vq =>
    obtain ⟨v, q⟩ := vq
    simp only [Except.ok.injEq, Prod.mk.injEq, and_true]
    unfold W64
    omega

theorem decode_pointer_base_abort (a e : Nat) (hb : ¬ supported_base e) :
    decode_pointer_base a e = .error .abort := by
  unfold supported_base at hb
  unfold decode_pointer_base
  rw [if_neg (fun h => hb (Or.inl h)), if_neg (fun h => hb (Or.inr h))]
  simp only [ite_self]

theorem decode_pointer_value_absptr (fuel : Nat) (m : Mem) (a e : Nat)
    (h : e &&& 0x0F = DW_EH_PE_absptr) :
    decode_pointer_value fuel m a e = .ok (rd64 m a, (a + 8) % W64) := by
  unfold decode_pointer_value
  rw [if_pos h]

theorem decode_pointer_value_uleb128 (fuel : Nat) (m : Mem) (a e : Nat)
    (h : e &&& 0x0F = DW_EH_PE_uleb128) :
    decode_pointer_value fuel m a e = decode_uleb128 fuel m a := by
  unfold decode_pointer_value
  rw [h]
  rfl

theorem decode_pointer_value_udata2 (fuel : Nat) (m : Mem) (a e : Nat)
    (h : e &&& 0x0F = DW_EH_PE_udata2) :
    decode_pointer_value fuel m a e = .ok (rd16 m a, (a + 2) % W64) := by
  unfold decode_pointer_value
  rw [h]
  rfl

theorem decode_pointer_value_udata4 (fuel : Nat) (m : Mem) (a e : Nat)
    (h : e &&& 0x0F = DW_EH_PE_udata4) :
    decode_pointer_value fuel m a e = .ok (rd32 m a, (a + 4) % W64) := by
  unfold decode_pointer_value
  rw [h]
  rfl

theorem decode_pointer_value_udata8 (fuel : Nat) (m : Mem) (a e : Nat)
    (h : e &&& 0x0F = DW_EH_PE_udata8) :
    decode_pointer_value fuel m a e = .ok (rd64 m a, (a + 8) % W64) := by
  unfold decode_pointer_value
  rw [h]
  rfl

theorem decode_pointer_value_sleb128 (fuel : Nat) (m : Mem) (a e : Nat)
    (h : e &&& 0x0F = DW_EH_PE_sleb128) :
    decode_pointer_value fuel m a e
      = (match decode_sleb128 fuel m a with
         | .ok (v, p) => .ok (to_u64 v, p)
         | .error x => .error x) := by
  unfold decode_pointer_value
  rw [h]
  rfl

theorem decode_pointer_value_sdata2 (fuel : Nat) (m : Mem) (a e : Nat)
    (h : e &&& 0x0F = DW_EH_PE_sdata2) :
    decode_pointer_value fuel m a e = .ok (sext 16 (rd16 m a), (a + 2) % W64) := by
  unfold decode_pointer_value
  rw [h]
  rfl

theorem decode_pointer_value_sdata4 (fuel : Nat) (m : Mem) (a e : Nat)
    (h : e &&& 0x0F = DW_EH_PE_sdata4) :
    decode_pointer_value fuel m a e = .ok (sext 32 (rd32 m a), (a + 4) % W64) := by
  unfold decode_pointer_value
  rw [h]
  rfl

theorem decode_pointer_value_sdata8 (fuel : Nat) (m : Mem) (a e : Nat)
    (h : e &&& 0x0F = DW_EH_PE_sdata8) :
    decode_pointer_value fuel m a e = .ok (sext 64 (rd64 m a), (a + 8) % W64) := by
  unfold decode_pointer_value
  rw [h]
  rfl

theorem decode_pointer_value_abort (fuel : Nat) (m : Mem) (a e : Nat)
    (h : ¬ supported_format e) :
    decode_pointer_value fuel m a e = .error .abort := by
  unfold supported_format at h
  simp only [not_or] at h
  obtain ⟨h0, h1, h2, h3, h4, h5, h6, h7, h8⟩ := h
  unfold decode_pointer_value
  rw [if_neg h0, if_neg h1, if_neg h2, if_neg h3, if_neg h4, if_neg h5, if_neg h6, if_neg h7,
    if_neg h8]

theorem rd16_le_value (m : Mem) (a : Nat) : rd16 m a = le_value m a 2 := by
  simp only [rd16, le_value]
  omega

theorem rd32_le_value (m : Mem) (a : Nat) : rd32 m a = le_value m a 4 := by
  simp only [rd32, rd16, le_value, Nat.add_assoc, Nat.reduceAdd]
  omega

theorem rd64_le_value (m : Mem) (a : Nat) : rd64 m a = le_value m a 8 := by
  simp only [rd64, rd32, rd16, le_value, Nat.add_assoc, Nat.reduceAdd]
  omega

theorem sext_signed_16 (v : Nat) (hv : v < 65536) : sext 16 v = to_u64 (signed_value 16 v) := by
  unfold sext signed_value to_u64 W64
  norm_num
  split_ifs <;> omega

theorem sext_signed_32 (v : Nat) (hv : v < 4294967296) :
    sext 32 v = to_u64 (signed_value 32 v) := by
  unfold sext signed_value to_u64 W64
  norm_num
  split_ifs <;> omega

theorem sext_signed_64 (v : Nat) (hv : v < W64) : sext 64 v = to_u64 (signed_value 64 v) := by
  unfold sext signed_value to_u64
  unfold W64 at hv ⊢
  norm_num
  split_ifs <;> omega

/-- C12: with the absptr base (bits `0x70` clear) and the lower nibble absptr,
udata2, udata4, udata8, sdata2, sdata4 or sdata8, `decode_pointer` returns the
little-endian value of the 8, 2, 4, 8, 2, 4, 8 bytes at the cursor (for the
sdata formats the 64-bit two's complement of their signed value) and the
cursor advanced by that many bytes; for `omit` it returns 0 and the cursor
unchanged. -/
theorem decode_pointer_fixed_width (fuel : Nat) (m : Mem) (a e : Nat)
    (hb : e &&& 0x70 = DW_EH_PE_absptr) :
    (e &&& 0x0F = DW_EH_PE_absptr →
        decode_pointer fuel m a e = .ok (le_value m a 8, (a + 8) % W64))
      ∧ (e &&& 0x0F = DW_EH_PE_udata2 →
        decode_pointer fuel m a e = .ok (le_value m a 2, (a + 2) % W64))
      ∧ (e &&& 0x0F = DW_EH_PE_udata4 →
        decode_pointer fuel m a e = .ok (le_value m a 4, (a + 4) % W64))
      ∧ (e &&& 0x0F = DW_EH_PE_udata8 →
        decode_pointer fuel m a e = .ok (le_value m a 8, (a + 8) % W64))
      ∧ (e &&& 0x0F = DW_EH_PE_sdata2 →
        decode_pointer fuel m a e
          = .ok (to_u64 (signed_value 16 (le_value m a 2)), (a + 2) % W64))
      ∧ (e &&& 0x0F = DW_EH_PE_sdata4 →
        decode_pointer fuel m a e
          = .ok (to_u64 (signed_value 32 (le_value m a 4)), (a + 4) % W64))
      ∧ (e &&& 0x0F = DW_EH_PE_sdata8 →
        decode_pointer fuel m a e
          = .ok (to_u64 (signed_value 64 (le_value m a 8)), (a + 8) % W64))
      ∧ decode_pointer fuel m a DW_EH_PE_omit = .ok (0, a) := by
  have hne : e ≠ DW_EH_PE_omit := by
    intro h
    rw [h] at hb
    revert hb
    decide
  have key := decode_pointer_of_absptr_base fuel m a e hne hb
  refine ⟨?_, ?_, ?_, ?_, ?_, ?_, ?_, ?_⟩
  · intro h
    rw [key, decode_pointer_value_absptr fuel m a e h, rd64_le_value]
  · intro h
    rw [key, decode_pointer_value_udata2 fuel m a e h, rd16_le_value]
  · intro h
    rw [key, decode_pointer_value_udata4 fuel m a e h, rd32_le_value]
  · intro h
    rw [key, decode_pointer_value_udata8 fuel m a e h, rd64_le_value]
  · intro h
    rw [key, decode_pointer_value_sdata2 fuel m a e h, sext_signed_16 _ (rd16_lt m a),
      rd16_le_value]
  · intro h
    rw [key, decode_pointer_value_sdata4 fuel m a e h, sext_signed_32 _ (rd32_lt m a),
      rd32_le_value]
  · intro h
    rw [key, decode_pointer_value_sdata8 fuel m a e h, sext_signed_64 _ (rd64_lt m a),
      rd64_le_value]
  · rfl

/-- C12, at the encoding `0x8B` (sdata4 with bit `0x80` set) on the bytes of the
32-bit value -2: the result is `2^64 - 2` and the cursor advances by 4. -/
theorem decode_pointer_fixed_width_witness :
    decode_pointer 0 ptr_mem 0x6000 0x8B
        = .ok (to_u64 (signed_value 32 (le_value ptr_mem 0x6000 4)), (0x6000 + 4) % W64)
      ∧ to_u64 (signed_value 32 (le_value ptr_mem 0x6000 4)) = 18446744073709551614 :=
  ⟨(decode_pointer_fixed_width 0 ptr_mem 0x6000 0x8B (by decide)).2.2.2.2.2.1 (by decide),
    by rfl⟩

theorem pcrel_lor_cases (f : Nat)
    (hf : f ∈ [DW_EH_PE_absptr, DW_EH_PE_uleb128, DW_EH_PE_udata2, DW_EH_PE_udata4,
      DW_EH_PE_udata8, DW_EH_PE_sleb128, DW_EH_PE_sdata2, DW_EH_PE_sdata4, DW_EH_PE_sdata8]) :
    (DW_EH_PE_pcrel ||| f) ≠ DW_EH_PE_omit
      ∧ (DW_EH_PE_pcrel ||| f) &&& 0x70 = DW_EH_PE_pcrel
      ∧ (DW_EH_PE_pcrel ||| f) &&& 0x0F = f &&& 0x0F
      ∧ (DW_EH_PE_absptr ||| f) ≠ DW_EH_PE_omit
      ∧ (DW_EH_PE_absptr ||| f) &&& 0x70 = DW_EH_PE_absptr
      ∧ (DW_EH_PE_absptr ||| f) &&& 0x0F = f &&& 0x0F := by
  simp only [List.mem_cons, List.mem_singleton, List.not_mem_nil, or_false] at hf
  rcases hf with h | h | h | h | h | h | h | h | h <;> subst h <;> decide

theorem decode_pointer_value_nibble (fuel : Nat) (m : Mem) (a e e' : Nat)
    (h : e &&& 0x0F = e' &&& 0x0F) :
    decode_pointer_value fuel m a e = decode_pointer_value fuel m a e' := by
  unfold decode_pointer_value
  rw [h]

/-- C13: for every supported lower-nibble format `f`, `decode_pointer` with the
encoding `pcrel | f` returns what it returns with `absptr | f` on the same
bytes plus the cursor address before decoding, modulo `2^64`, and leaves the
same cursor; when the one does not return, neither does the other. -/
theorem decode_pointer_pcrel (fuel : Nat) (m : Mem) (a f : Nat)
    (hf : f ∈ [DW_EH_PE_absptr, DW_EH_PE_uleb128, DW_EH_PE_udata2, DW_EH_PE_udata4,
      DW_EH_PE_udata8, DW_EH_PE_sleb128, DW_EH_PE_sdata2, DW_EH_PE_sdata4, DW_EH_PE_sdata8]) :
    decode_pointer fuel m a (DW_EH_PE_pcrel ||| f)
      = (match decode_pointer fuel m a (DW_EH_PE_absptr ||| f) with
         | .ok (v, q) => .ok ((v + a) % W64, q)
         | .error x => .error x) := by
  obtain ⟨h1, h2, h3, h4, h5, h6⟩ := pcrel_lor_cases f hf
  rw [decode_pointer_of_pcrel_base fuel m a _ h1 h2,
    decode_pointer_of_absptr_base fuel m a _ h4 h5,
    decode_pointer_value_nibble fuel m a _ _ (h3.trans h6.symm)]

/-- C13, at the format sdata4 on the bytes of the 32-bit value -2 at `0x6000`:
absptr gives `2^64 - 2`, pcrel gives `0x5FFE`, both leave the cursor `0x6004`. -/
theorem decode_pointer_pcrel_witness :
    decode_pointer 0 ptr_mem 0x6000 (DW_EH_PE_pcrel ||| DW_EH_PE_sdata4)
        = (match decode_pointer 0 ptr_mem 0x6000 (DW_EH_PE_absptr ||| DW_EH_PE_sdata4) with
           | .ok (v, q) => .ok ((v + 0x6000) % W64, q)
           | .error x => .error x)
      ∧ decode_pointer 0 ptr_mem 0x6000 (DW_EH_PE_absptr ||| DW_EH_PE_sdata4)
        = .ok (18446744073709551614, 0x6004)
      ∧ decode_pointer 0 ptr_mem 0x6000 (DW_EH_PE_pcrel ||| DW_EH_PE_sdata4)
        = .ok (0x5FFE, 0x6004) :=
  ⟨decode_pointer_pcrel 0 ptr_mem 0x6000 DW_EH_PE_sdata4 (by decide), by rfl, by rfl⟩

theorem uleb128_raw_ne_abort (m : Mem) :
    ∀ (fuel a : Nat), uleb128_raw fuel m a ≠ .error .abort := by
  intro fuel
  induction fuel with
  | zero => intro a h; cases h
  | succ f ih =>
    intro a h
    unfold uleb128_raw at h
    by_cases hlt : rd8 m a < 128
    · rw [if_pos hlt] at h; cases h
    · rw [if_neg hlt] at h
      cases hr : uleb128_raw f m (a + 1) with
      | ok vn => simp [hr] at h
      | error x =>
        simp only [hr, Except.error.injEq] at h
        exact ih (a + 1) (by rw [hr, h])

theorem sleb128_raw_ne_abort (m : Mem) :
    ∀ (fuel a : Nat), sleb128_raw fuel m a ≠ .error .abort := by
  intro fuel
  induction fuel with
  | zero => intro a h; cases h
  | succ f ih =>
    intro a h
    unfold sleb128_raw at h
    by_cases hlt : rd8 m a < 128
    · rw [if_pos hlt] at h; cases h
    · rw [if_neg hlt] at h
      cases hr : sleb128_raw f m (a + 1) with
      | ok vn => simp [hr] at h
      | error x =>
        simp only [hr, Except.error.injEq] at h
        exact ih (a + 1) (by rw [hr, h])

theorem uleb128_raw_returns (m : Mem) :
    ∀ (fuel a k : Nat), k < fuel → rd8 m (a + k) < 128 →
      ∃ v n, uleb128_raw fuel m a = .ok (v, n) := by
  intro fuel
  induction fuel with
  | zero => intro a k hk; omega
  | succ f ih =>
    intro a k hk hb
    unfold uleb128_raw
    by_cases hlt : rd8 m a < 128
    · rw [if_pos hlt]; exact ⟨_, _, rfl⟩
    · rw [if_neg hlt]
      obtain ⟨k, rfl⟩ : ∃ j, k = j + 1 := by
        cases k with
        | zero => exact absurd hb hlt
        | succ j => exact ⟨j, rfl⟩
      have hb1 : rd8 m (a + 1 + k) < 128 := by
        have e : a + 1 + k = a + (k + 1) := by omega
        rw [e]; exact hb
      obtain ⟨v, n, hr⟩ := ih (a + 1) k (by omega) hb1
      rw [hr]
      exact ⟨_, _, rfl⟩

theorem sleb128_raw_returns (m : Mem) :
    ∀ (fuel a k : Nat), k < fuel → rd8 m (a + k) < 128 →
      ∃ v n, sleb128_raw fuel m a = .ok (v, n) := by
  intro fuel
  induction fuel with
  | zero => intro a k hk; omega
  | succ f ih =>
    intro a k hk hb
    unfold sleb128_raw
    by_cases hlt : rd8 m a < 128
    · rw [if_pos hlt]; exact ⟨_, _, rfl⟩
    · rw [if_neg hlt]
      obtain ⟨k, rfl⟩ : ∃ j, k = j + 1 := by
        cases k with
        | zero => exact absurd hb hlt
        | succ j => exact ⟨j, rfl⟩
      have hb1 : rd8 m (a + 1 + k) < 128 := by
        have e : a + 1 + k = a + (k + 1) := by omega
        rw [e]; exact hb
      obtain ⟨v, n, hr⟩ := ih (a + 1) k (by omega) hb1
      rw [hr]
      exact ⟨_, _, rfl⟩

theorem decode_pointer_value_ne_abort (fuel : Nat) (m : Mem) (a e : Nat)
    (h : supported_format e) : decode_pointer_value fuel m a e ≠ .error .abort := by
  rcases h with h | h | h | h | h | h | h | h | h
  · rw [decode_pointer_value_absptr fuel m a e h]; intro x; cases x
  · rw [decode_pointer_value_uleb128 fuel m a e h]
    unfold decode_uleb128
    cases hr : uleb128_raw fuel m a with
    | ok vn => intro x; cases x
    | error y =>
      intro x
      simp only [Except.error.injEq] at x
      exact uleb128_raw_ne_abort m fuel a (by rw [hr, x])
  · rw [decode_pointer_value_udata2 fuel m a e h]; intro x; cases x
  · rw [decode_pointer_value_udata4 fuel m a e h]; intro x; cases x
  · rw [decode_pointer_value_udata8 fuel m a e h]; intro x; cases x
  · rw [decode_pointer_value_sleb128 fuel m a e h]
    unfold decode_sleb128
    cases hr : sleb128_raw fuel m a with
    | ok vn => intro x; cases x
    | error y =>
      intro x
      simp only [Except.error.injEq] at x
      exact sleb128_raw_ne_abort m fuel a (by rw [hr, x])
  · rw [decode_pointer_value_sdata2 fuel m a e h]; intro x; cases x
  · rw [decode_pointer_value_sdata4 fuel m a e h]; intro x; cases x
  · rw [decode_pointer_value_sdata8 fuel m a e h]; intro x; cases x

theorem decode_pointer_value_returns (fuel : Nat) (m : Mem) (a e : Nat)
    (h : supported_format e)
    (hleb : leb_format e → ∃ k, k < fuel ∧ rd8 m (a + k) < 128) :
    ∃ v q, decode_pointer_value fuel m a e = .ok (v, q) := by
  rcases h with h | h | h | h | h | h | h | h | h
  · rw [decode_pointer_value_absptr fuel m a e h]; exact ⟨_, _, rfl⟩
  · rw [decode_pointer_value_uleb128 fuel m a e h]
    obtain ⟨k, hk, hb⟩ := hleb (Or.inl h)
    obtain ⟨v, n, hr⟩ := uleb128_raw_returns m fuel a k hk hb
    unfold decode_uleb128
    rw [hr]
    exact ⟨_, _, rfl⟩
  · rw [decode_pointer_value_udata2 fuel m a e h]; exact ⟨_, _, rfl⟩
  · rw [decode_pointer_value_udata4 fuel m a e h]; exact ⟨_, _, rfl⟩
  · rw [decode_pointer_value_udata8 fuel m a e h]; exact ⟨_, _, rfl⟩
  · rw [decode_pointer_value_sleb128 fuel m a e h]
    obtain ⟨k, hk, hb⟩ := hleb (Or.inr h)
    obtain ⟨v, n, hr⟩ := sleb128_raw_returns m fuel a k hk hb
    unfold decode_sleb128
    rw [hr]
    exact ⟨_, _, rfl⟩
  · rw [decode_pointer_value_sdata2 fuel m a e h]; exact ⟨_, _, rfl⟩
  · rw [decode_pointer_value_sdata4 fuel m a e h]; exact ⟨_, _, rfl⟩
  · rw [decode_pointer_value_sdata8 fuel m a e h]; exact ⟨_, _, rfl⟩

/-- C14: `decode_pointer` aborts exactly when the encoding is not `omit` and
either its base bits are neither absptr nor pcrel or its lower nibble is none
of the nine formats; in every other case it returns a value, for the two
LEB128 formats as soon as the fuel reaches a byte with bit `0x80` clear (the
LEB128 primitive returns). -/
theorem decode_pointer_abort_iff (fuel : Nat) (m : Mem) (a e : Nat) :
    (decode_pointer fuel m a e = .error .abort
        ↔ e ≠ DW_EH_PE_omit ∧ (¬ supported_base e ∨ ¬ supported_format e))
      ∧ (¬ (e ≠ DW_EH_PE_omit ∧ (¬ supported_base e ∨ ¬ supported_format e)) →
          (leb_format e → ∃ k, k < fuel ∧ rd8 m (a + k) < 128) →
          ∃ v q, decode_pointer fuel m a e = .ok (v, q)) := by
  by_cases hne : e = DW_EH_PE_omit
  · have hd : decode_pointer fuel m a e = .ok (0, a) := by
      unfold decode_pointer
      rw [if_pos hne]
    refine ⟨?_, fun _ _ => ⟨0, a, hd⟩⟩
    rw [hd]
    constructor
    · intro h; cases h
    · intro h; exact absurd hne h.1
  · by_cases hsb : supported_base e
    · have hdec : decode_pointer fuel m a e
          = (match decode_pointer_value fuel m a e with
             | .ok (v, q) => .ok ((if e &&& 0x70 = DW_EH_PE_absptr then v else (v + a) % W64), q)
             | .error x => .error x) := by
        rcases hsb with hb | hb
        · rw [decode_pointer_of_absptr_base fuel m a e hne hb]
          cases decode_pointer_value fuel m a e with
          | error x => rfl
          | ok vq => simp only [if_pos hb]
        · rw [decode_pointer_of_pcrel_base fuel m a e hne hb]
          have h0 : ¬ e &&& 0x70 = DW_EH_PE_absptr := by rw [hb]; decide
          cases decode_pointer_value fuel m a e with
          | error x => rfl
          | ok vq => simp only [if_neg h0]
      by_cases hsf : supported_format e
      · refine ⟨?_, ?_⟩
        · constructor
          · intro h
            exfalso
            rw [hdec] at h
            have hv := decode_pointer_value_ne_abort fuel m a e hsf
            cases hr : decode_pointer_value fuel m a e with
            | ok vq => simp [hr] at h
            | error x =>
              simp only [hr, Except.error.injEq] at h
              exact hv (by rw [hr, h])
          · intro h
            rcases h.2 with h2 | h2
            · exact absurd hsb h2
            · exact absurd hsf h2
        · intro _ hleb
          obtain ⟨v, q, hr⟩ := decode_pointer_value_returns fuel m a e hsf hleb
          rw [hdec, hr]
          exact ⟨_, _, rfl⟩
      · have hab : decode_pointer fuel m a e = .error .abort := by
          rw [hdec, decode_pointer_value_abort fuel m a e hsf]
        refine ⟨?_, ?_⟩
        · rw [hab]
          exact ⟨fun _ => ⟨hne, Or.inr hsf⟩, fun _ => rfl⟩
        · intro h
          exact absurd ⟨hne, Or.inr hsf⟩ h
    · have hab : decode_pointer fuel m a e = .error .abort := by
        unfold decode_pointer
        rw [if_neg hne, decode_pointer_base_abort a e hsb]
      refine ⟨?_, ?_⟩
      · rw [hab]
        exact ⟨fun _ => ⟨hne, Or.inl hsb⟩, fun _ => rfl⟩
      · intro h
        exact absurd ⟨hne, Or.inl hsb⟩ h

/-- C14, at the encodings `0x21` (textrel base) and `0x0F` (unknown format),
which abort, and at `0x01` (uleb128) on the bytes `0x80 0x01`, which returns. -/
theorem decode_pointer_abort_iff_witness :
    decode_pointer 5 ptr_mem 0x6004 0x21 = .error .abort
      ∧ decode_pointer 5 ptr_mem 0x6004 0x0F = .error .abort
      ∧ ∃ v q, decode_pointer 5 ptr_mem 0x6004 0x01 = .ok (v, q) :=
  ⟨(decode_pointer_abort_iff 5 ptr_mem 0x6004 0x21).1.2
      ⟨by decide, Or.inl (by unfold supported_base; decide)⟩,
    (decode_pointer_abort_iff 5 ptr_mem 0x6004 0x0F).1.2
      ⟨by decide, Or.inr (by unfold supported_format; decide)⟩,
    (decode_pointer_abort_iff 5 ptr_mem 0x6004 0x01).2
      (by
        intro h
        rcases h.2 with h2 | h2
        · exact h2 (Or.inl (by decide))
        · exact h2 (Or.inr (Or.inl (by decide))))
      (fun _ => ⟨1, by decide, by decide⟩)⟩

theorem clear_bit7_base (e : Nat) : clear_bit7 e &&& 0x70 = e &&& 0x70 := by
  unfold clear_bit7
  rw [Nat.land_assoc]
  rfl

theorem clear_bit7_low (e : Nat) : clear_bit7 e &&& 0x0F = e &&& 0x0F := by
  unfold clear_bit7
  rw [Nat.land_assoc]
  rfl

theorem clear_bit7_ne_omit (e : Nat) : clear_bit7 e ≠ DW_EH_PE_omit := by
  intro h
  have h1 : clear_bit7 e &&& 0x80 = 0 := by
    unfold clear_bit7
    rw [Nat.land_assoc]
    show e &&& 0 = 0
    exact Nat.and_zero e
  rw [h] at h1
  revert h1
  decide

/-- C20: for every encoding other than `omit`, `decode_pointer` with the
encoding and with the encoding whose bit `0x80` is cleared have the same
outcome: the same value and cursor, or the same failure. -/
theorem decode_pointer_bit7_ignored (fuel : Nat) (m : Mem) (a e : Nat)
    (hne : e ≠ DW_EH_PE_omit) :
    decode_pointer fuel m a (clear_bit7 e) = decode_pointer fuel m a e := by
  unfold decode_pointer
  rw [if_neg hne, if_neg (clear_bit7_ne_omit e)]
  have hb : decode_pointer_base a (clear_bit7 e) = decode_pointer_base a e := by
    unfold decode_pointer_base
    rw [clear_bit7_base]
  rw [hb, decode_pointer_value_nibble fuel m a (clear_bit7 e) e (clear_bit7_low e)]

/-- C20, at the encoding `0x9B` (pcrel sdata4 with bit `0x80` set), whose
cleared form is `0x1B`. -/
theorem decode_pointer_bit7_ignored_witness :
    clear_bit7 0x9B = 0x1B
      ∧ decode_pointer 0 ptr_mem 0x6000 (clear_bit7 0x9B) = decode_pointer 0 ptr_mem 0x6000 0x9B
      ∧ decode_pointer 0 ptr_mem 0x6000 0x9B = .ok (0x5FFE, 0x6004) :=
  ⟨by decide, decode_pointer_bit7_ignored 0 ptr_mem 0x6000 0x9B (by decide), by rfl⟩

/-! ### The fields and the advance of the record cursor -/

/-- The fields `common_entry::parse` leaves when it succeeds, in 64-bit
arithmetic. -/
theorem parse_fields_of_success (m : Mem) (c : common_entry) (addr : Nat)
    (h : (c.parse m addr).m_entry_start ≠ 0) :
    (c.parse m addr).m_entry_start = addr
      ∧ (c.parse m addr).m_payload_start
          = (if rd32 m addr ≠ 0xFFFFFFFF then (addr + 4) % W64 else (addr + 12) % W64)
      ∧ (c.parse m addr).m_payload_end
          = ((c.parse m addr).m_payload_start
              + (if rd32 m addr ≠ 0xFFFFFFFF then rd32 m addr else rd64 m (addr + 4))) % W64
      ∧ (c.parse m addr).m_entry_end = (c.parse m addr).m_payload_end
      ∧ (c.parse m addr).m_is_cie = decide (rd32 m (c.parse m addr).m_payload_start = 0)
      ∧ (c.parse m addr).m_eh_frame = c.m_eh_frame := by
  unfold common_entry.parse common_entry.failure at h ⊢
  dsimp only at h ⊢
  by_cases h0 : addr = 0
  · rw [if_pos h0] at h; exact absurd rfl h
  rw [if_neg h0] at h ⊢
  by_cases h1 : addr < c.m_eh_frame.addr
  · rw [if_pos h1] at h; exact absurd rfl h
  rw [if_neg h1] at h ⊢
  by_cases h2 : (if rd32 m addr ≠ 0xFFFFFFFF then rd32 m addr else rd64 m (addr + 4)) = 0
  · rw [if_pos h2] at h; exact absurd rfl h
  rw [if_neg h2] at h ⊢
  by_cases h3 : ((if rd32 m addr ≠ 0xFFFFFFFF then (addr + 4) % W64 else (addr + 12) % W64)
      + (if rd32 m addr ≠ 0xFFFFFFFF then rd32 m addr else rd64 m (addr + 4))) % W64
      > (c.m_eh_frame.addr + c.m_eh_frame.size) % W64
  · rw [if_pos h3] at h; exact absurd rfl h
  rw [if_neg h3]
  exact ⟨rfl, rfl, rfl, rfl, rfl, rfl⟩

/-- C15: the address `0x1000` lies in the 256-byte section at `0x1000` and
`parse` succeeds there on the record with the extended length `2^64 - 16`;
the payload starts at `0x100C` and `payload_end` is `0xFFC`, which is not
`payload_start + length`. -/
theorem parse_payload_end_not_sum :
    wrap_frame.addr ≤ 0x1000 ∧ 0x1000 < wrap_frame.addr + wrap_frame.size
      ∧ ((common_entry.of_frame wrap_frame).parse wrap_mem 0x1000).m_entry_start = 0x1000
      ∧ rd32 wrap_mem 0x1000 = 0xFFFFFFFF
      ∧ ((common_entry.of_frame wrap_frame).parse wrap_mem 0x1000).m_payload_start = 0x1000 + 12
      ∧ ((common_entry.of_frame wrap_frame).parse wrap_mem 0x1000).m_payload_end = 0xFFC
      ∧ ((common_entry.of_frame wrap_frame).parse wrap_mem 0x1000).m_entry_end = 0xFFC
      ∧ ((common_entry.of_frame wrap_frame).parse wrap_mem 0x1000).m_payload_end
          ≠ ((common_entry.of_frame wrap_frame).parse wrap_mem 0x1000).m_payload_start
              + rd64 wrap_mem (0x1000 + 4) := by
  refine ⟨by decide, by decide, by rfl, by rfl, by rfl, by rfl, by rfl, ?_⟩
  have h1 : ((common_entry.of_frame wrap_frame).parse wrap_mem 0x1000).m_payload_end = 0xFFC := by
    rfl
  have h2 : ((common_entry.of_frame wrap_frame).parse wrap_mem 0x1000).m_payload_start
      = 0x100C := by rfl
  have h3 : rd64 wrap_mem (0x1000 + 4) = 18446744073709551600 := by rfl
  rw [h1, h2, h3]
  decide

theorem parse_of_frame (m : Mem) (c : common_entry) (addr : Nat) :
    c.parse m addr = (common_entry.of_frame c.m_eh_frame).parse m addr := by
  unfold common_entry.parse common_entry.failure common_entry.of_frame
  rfl

theorem fd_parse_on_cie (fuel : Nat) (m : Mem) (self : fd_entry) (addr : Nat)
    (hv : (self.tocommon_entry.parse m addr).m_entry_start ≠ 0)
    (hc : (self.tocommon_entry.parse m addr).m_is_cie = true) :
    self.parse fuel m addr = .ok { self with tocommon_entry := self.tocommon_entry.parse m addr } := by
  unfold fd_entry.parse
  dsimp only
  rw [if_neg hv, if_pos hc]

theorem find_fde_module_stuck (fuel : Nat) (m : Mem) (ip : Nat) (fde : fd_entry)
    (hv : fde.m_entry_start ≠ 0) (hc : fde.m_is_cie = true)
    (hinc : fde.inc fuel m = .ok fde) :
    ∀ n : Nat, find_fde_module fuel m ip n fde = .error .timeout := by
  intro n
  induction n with
  | zero => rfl
  | succ n ih =>
    unfold find_fde_module
    rw [if_neg hv, if_pos hc, hinc]
    exact ih

/-- C16: the record at `0x1000` of `loop_mem` has the extended length
`2^64 - 12`, so it ends where it starts; `operator++` on its cursor yields the
same non-terminal cursor, with an `entry_start` that is not greater, and
`find_fde` on the table holding this one section returns for no amount of
fuel: the scan never ends. -/
theorem find_fde_never_returns :
    (common_entry.of_frame wrap_frame).parse loop_mem 0x1000 = loop_cursor
      ∧ loop_cursor.m_entry_start ≠ 0
      ∧ loop_cursor.inc loop_mem = loop_cursor
      ∧ ∀ (fuel ip : Nat), find_fde fuel loop_mem ip [wrap_frame] = .error .timeout := by
  have hp : (common_entry.of_frame wrap_frame).parse loop_mem 0x1000 = loop_cursor := by rfl
  have hi : loop_cursor.inc loop_mem = loop_cursor := by rfl
  refine ⟨hp, by decide, hi, ?_⟩
  intro fuel ip
  have hfirst : fd_entry.first fuel loop_mem wrap_frame = .ok (fd_entry.init loop_cursor) := by
    unfold fd_entry.first fd_entry.at
    have := fd_parse_on_cie fuel loop_mem (fd_entry.init (common_entry.of_frame wrap_frame))
      wrap_frame.addr (by rw [show wrap_frame.addr = 0x1000 from rfl]
                          show ((common_entry.of_frame wrap_frame).parse loop_mem 0x1000).m_entry_start ≠ 0
                          rw [hp]; decide)
      (by rw [show wrap_frame.addr = 0x1000 from rfl]
          show ((common_entry.of_frame wrap_frame).parse loop_mem 0x1000).m_is_cie = true
          rw [hp]; rfl)
    rw [this]
    show Except.ok { fd_entry.init (common_entry.of_frame wrap_frame) with
      tocommon_entry := (common_entry.of_frame wrap_frame).parse loop_mem 0x1000 } = _
    rw [hp]
    rfl
  have hinc : (fd_entry.init loop_cursor).inc fuel loop_mem = .ok (fd_entry.init loop_cursor) := by
    unfold fd_entry.inc
    have e1 : (fd_entry.init loop_cursor).m_entry_start = 0x1000 := rfl
    have e2 : (fd_entry.init loop_cursor).m_entry_end = 0x1000 := rfl
    have e3 : (fd_entry.init loop_cursor).m_eh_frame = wrap_frame := rfl
    rw [e1, e2, e3, if_neg (by decide), if_pos (by decide)]
    have hpc : (fd_entry.init loop_cursor).tocommon_entry.parse loop_mem 0x1000 = loop_cursor := by
      rfl
    rw [fd_parse_on_cie fuel loop_mem (fd_entry.init loop_cursor) 0x1000
      (by rw [hpc]; decide) (by rw [hpc]; rfl), hpc]
    rfl
  unfold find_fde
  rw [hfirst]
  dsimp only
  rw [find_fde_module_stuck fuel loop_mem ip (fd_entry.init loop_cursor) (by decide) rfl hinc fuel]

/-- C19: the cursor on the first record of `dangle_mem` is not terminal and
satisfies the cursor invariant; its record ends at `0x100B`, five bytes before
the end of the section, where the last four bytes of the section hold
`0xFFFFFFFF`; `operator++` re-parses there and reads the 8-byte extended length
at `0x100F` to `0x1016`, of which `0x1010` to `0x1016` lie past the end of the
section. -/
theorem advance_reads_past_section :
    (common_entry.of_frame dangle_frame).parse dangle_mem 0x1000 = dangle_cursor
      ∧ dangle_cursor.m_entry_start ≠ 0
      ∧ cursor_inv dangle_cursor
      ∧ dangle_cursor.inc_length_reads dangle_mem
          = [0x100B, 0x100C, 0x100D, 0x100E, 0x100F, 0x1010, 0x1011, 0x1012, 0x1013, 0x1014,
             0x1015, 0x1016]
      ∧ 0x1016 ∈ dangle_cursor.inc_length_reads dangle_mem
      ∧ ¬ (0x1016 < dangle_frame.addr + dangle_frame.size) := by
  have hr : dangle_cursor.inc_length_reads dangle_mem
      = [0x100B, 0x100C, 0x100D, 0x100E, 0x100F, 0x1010, 0x1011, 0x1012, 0x1013, 0x1014,
         0x1015, 0x1016] := by rfl
  refine ⟨by rfl, by decide, ?_, hr, ?_, by decide⟩
  · right
    refine ⟨?_, ?_, ?_, ?_, ?_⟩ <;> decide
  · rw [hr]
    decide

/-- When the 4-byte field at `entry_end` is not the extended-length marker,
every length byte `operator++` reads on a cursor that satisfies the cursor
invariant lies inside the section (for a section that ends at least four bytes
below the top of the address space). -/
theorem inc_short_reads_inside (m : Mem) (c : common_entry)
    (hsec : c.m_eh_frame.addr + c.m_eh_frame.size + 4 < W64) (hinv : cursor_inv c)
    (hshort : rd32 m c.m_entry_end ≠ 0xFFFFFFFF) :
    ∀ x ∈ c.inc_length_reads m,
      c.m_eh_frame.addr ≤ x ∧ x < c.m_eh_frame.addr + c.m_eh_frame.size := by
  intro x hx
  unfold common_entry.inc_length_reads at hx
  by_cases h0 : c.m_entry_start = 0
  · rw [if_pos h0] at hx; cases hx
  rw [if_neg h0] at hx
  rcases hinv with hz | ⟨i1, i2, i3, i4, i5⟩
  · exact absurd hz h0
  have e3 : (c.m_eh_frame.addr + c.m_eh_frame.size) % W64 = c.m_eh_frame.addr + c.m_eh_frame.size :=
    Nat.mod_eq_of_lt (by unfold W64 at hsec ⊢; omega)
  have e4 : (c.m_entry_end + 4) % W64 = c.m_entry_end + 4 := by
    apply Nat.mod_eq_of_lt
    unfold W64 at hsec ⊢
    omega
  rw [e3, e4] at hx
  by_cases hg : c.m_entry_end + 4 < c.m_eh_frame.addr + c.m_eh_frame.size
  · rw [if_pos hg] at hx
    unfold common_entry.parse_length_reads at hx
    rw [if_neg (by omega), if_neg (by omega), if_pos hshort] at hx
    simp only [List.mem_map, List.mem_range] at hx
    obtain ⟨i, hi, rfl⟩ := hx
    have e5 : (c.m_entry_end + i) % W64 = c.m_entry_end + i := by
      apply Nat.mod_eq_of_lt
      unfold W64 at hsec ⊢
      omega
    rw [e5]
    omega
  · rw [if_neg hg] at hx
    unfold common_entry.parse_length_reads at hx
    rw [if_pos rfl] at hx
    cases hx

/-! ### Unknown augmentation letters of a CIE -/

theorem ci_aug_loop_abort (fuel : Nat) (m : Mem) (len : Nat) (s : ci_entry) (x : Nat)
    (tail : List Nat) (hx0 : x ≠ 0) (hxL : x ≠ 0x4C) (hxP : x ≠ 0x50) (hxR : x ≠ 0x52) :
    ∀ (ls : List aug_letter) (n i : Nat) (d : aug_data) (p : Nat) (r : aug_data) (q cnt : Nat),
      holds_bytes m (s.m_augmentation_string + i) (ls.map aug_letter.code ++ x :: tail) →
      i + ls.length < W32 → ls.length < n → 1 ≤ i →
      aug_walk fuel m ls d p = .ok (r, q, cnt) → i + ls.length ≤ len →
      ci_entry.aug_loop fuel m len n i (s.with_aug d) p = .error .abort := by
  intro ls
  induction ls with
  | nil =>
    intro n i d p r q cnt hb _ hn _ _ hlen
    obtain ⟨n, rfl⟩ : ∃ k, n = k + 1 := ⟨n - 1, by simp only [List.length_nil] at hn; omega⟩
    simp only [List.length_nil, Nat.add_zero] at hlen
    unfold ci_entry.aug_loop
    have h0 : rd8 m ((s.with_aug d).m_augmentation_string + i) = x := hb.1
    dsimp only
    rw [h0, if_pos ⟨hx0, hlen⟩, if_neg hxL, if_neg hxP, if_neg hxR]
  | cons l ls ih =>
    intro n i d p r q cnt hb h32 hn h1i hw hlen
    obtain ⟨n, rfl⟩ : ∃ k, n = k + 1 := ⟨n - 1, by simp only [List.length_cons] at hn; omega⟩
    simp only [List.length_cons] at h32 hn hlen
    obtain ⟨hch, hrest⟩ := hb
    have hch1 : rd8 m ((s.with_aug d).m_augmentation_string + i) = l.code := hch
    have hrest1 : holds_bytes m (s.m_augmentation_string + (i + 1))
        (ls.map aug_letter.code ++ x :: tail) := by
      rw [← Nat.add_assoc]; exact hrest
    have hi1 : (i + 1) % W32 = i + 1 := Nat.mod_eq_of_lt (by omega)
    unfold ci_entry.aug_loop
    dsimp only
    rw [hch1, if_pos ⟨aug_code_ne_zero l, by omega⟩, hi1]
    cases l with
    | L =>
      unfold aug_walk at hw
      cases hw1 : aug_walk fuel m ls { d with lsda_encoding := rd8 m p } ((p + 1) % W64) with
      | error e => simp [hw1] at hw
      | ok rqn =>
        obtain ⟨r1, q1, n1⟩ := rqn
        have key := ih n (i + 1) _ _ _ _ _ hrest1 (by omega) (by omega) (by omega) hw1 (by omega)
        simp only [aug_letter.code, if_true]
        exact key
    | R =>
      unfold aug_walk at hw
      cases hw1 : aug_walk fuel m ls { d with pointer_encoding := rd8 m p } ((p + 1) % W64) with
      | error e => simp [hw1] at hw
      | ok rqn =>
        obtain ⟨r1, q1, n1⟩ := rqn
        have key := ih n (i + 1) _ _ _ _ _ hrest1 (by omega) (by omega) (by omega) hw1 (by omega)
        simp only [aug_letter.code, show (82 : Nat) ≠ 76 by decide,
          show (82 : Nat) ≠ 80 by decide, if_false, if_true]
        exact key
    | P =>
      unfold aug_walk at hw
      cases hd : decode_pointer fuel m ((p + 1) % W64) (rd8 m p) with
      | error e => simp [hd] at hw
      | ok vq =>
        obtain ⟨v, q1⟩ := vq
        cases hs : pointer_size fuel m ((p + 1) % W64) (rd8 m p) with
        | error e => simp [hd, hs] at hw
        | ok w =>
          cases hw1 : aug_walk fuel m ls
              { d with personality_encoding := rd8 m p, personality_function := v } q1 with
          | error e => simp [hd, hs, hw1] at hw
          | ok rqn =>
            obtain ⟨r1, q2, n1⟩ := rqn
            have key := ih n (i + 1) _ _ _ _ _ hrest1 (by omega) (by omega) (by omega) hw1
              (by omega)
            simp only [aug_letter.code, show (80 : Nat) ≠ 76 by decide, if_false, if_true, hd]
            exact key

/-- C11 as stated fails: the first CIE of the `zRX` section is a valid CIE whose
augmentation string has the unknown letter `X` at index 2, before its NUL, and
declares the augmentation-data length 1; the CIE parser returns it, the scan
having stopped after index 1. -/
theorem cie_unknown_letter_not_reached :
    ci_entry.at 20 unk_mem unk_frame 0x5000 = .ok unk_cie
      ∧ unk_cie.m_entry_start ≠ 0 ∧ unk_cie.m_is_cie = true
      ∧ unk_cie.augmentation_string unk_mem 0 = 0x7A
      ∧ unk_cie.augmentation_string unk_mem 1 = 0x52
      ∧ unk_cie.augmentation_string unk_mem 2 = 0x58
      ∧ unk_cie.augmentation_string unk_mem 3 = 0
      ∧ decode_uleb128 20 unk_mem 0x5010 = .ok (1, 0x5011)
      ∧ unk_cie.m_initial_instructions = 0x5012 := by
  refine ⟨by rfl, by decide, by rfl, by rfl, by rfl, by rfl, by rfl, by rfl, by rfl⟩

/-- C11, amended: on a valid CIE record whose augmentation string is `z`, then
the letters `ls` (each `L`, `P` or `R`), then a character `x` that is none of
`L`, `P`, `R` and not the NUL, the CIE parser aborts when the index of `x` is at
most the declared augmentation-data length (the LEB128 fields after the string
and the data of the letters before `x` having decoded). -/
theorem cie_unknown_letter_aborts (fuel : Nat) (m : Mem) (eh : eh_frame_t) (addr : Nat)
    (ls : List aug_letter) (x : Nat) (rest : List Nat)
    (ca : Nat) (da : Int) (ra len pb pc pd p0 : Nat) (r : aug_data) (q cnt : Nat)
    (hv : ((common_entry.of_frame eh).parse m addr).m_entry_start ≠ 0)
    (hc : ((common_entry.of_frame eh).parse m addr).m_is_cie = true)
    (hx0 : x ≠ 0) (hxL : x ≠ 0x4C) (hxP : x ≠ 0x50) (hxR : x ≠ 0x52)
    (hrest : ∀ b ∈ rest, b ≠ 0)
    (hstr : holds_bytes m ((((common_entry.of_frame eh).parse m addr).m_payload_start + 4 + 1) % W64)
      (0x7A :: (ls.map aug_letter.code ++ x :: (rest ++ [0]))))
    (h32 : ls.length + 1 < W32) (hfuel : ls.length + rest.length + 2 < fuel)
    (hca : decode_uleb128 fuel m
      (((((common_entry.of_frame eh).parse m addr).m_payload_start + 4 + 1) % W64
        + (ls.length + rest.length + 3)) % W64) = .ok (ca, pb))
    (hda : decode_sleb128 fuel m pb = .ok (da, pc))
    (hra : decode_uleb128 fuel m pc = .ok (ra, pd))
    (hlen : decode_uleb128 fuel m pd = .ok (len, p0))
    (hwalk : aug_walk fuel m ls ⟨0, 0, 0, 0⟩ p0 = .ok (r, q, cnt))
    (hk : ls.length + 1 ≤ len) :
    ci_entry.at fuel m eh addr = .error .abort := by
  have hstr2 : holds_bytes m
      ((((common_entry.of_frame eh).parse m addr).m_payload_start + 4 + 1) % W64)
      ((0x7A :: (ls.map aug_letter.code ++ x :: rest)) ++ [0]) := by
    have e : (0x7A :: (ls.map aug_letter.code ++ x :: rest)) ++ [0]
        = 0x7A :: (ls.map aug_letter.code ++ x :: (rest ++ [0])) := by
      simp only [List.cons_append, List.append_assoc]
    rw [e]; exact hstr
  have hskip := skip_string_bytes m (0x7A :: (ls.map aug_letter.code ++ x :: rest)) fuel _ hstr2
    (by
      intro b hb
      simp only [List.mem_cons, List.mem_append, List.mem_map] at hb
      rcases hb with rfl | ⟨l, _, rfl⟩ | rfl | hb
      · decide
      · exact aug_code_ne_zero l
      · exact hx0
      · exact hrest b hb)
    (by simp only [List.length_cons, List.length_append, List.length_map]; omega)
  have elen : (0x7A :: (ls.map aug_letter.code ++ x :: rest)).length + 1
      = ls.length + rest.length + 3 := by
    simp only [List.length_cons, List.length_append, List.length_map]; omega
  simp only [Nat.add_assoc _ ((0x7A :: (ls.map aug_letter.code ++ x :: rest)).length) 1,
    elen] at hskip
  have hz : rd8 m ((((common_entry.of_frame eh).parse m addr).m_payload_start + 4 + 1) % W64)
      = 0x7A := hstr.1
  have hloop := ci_aug_loop_abort fuel m len
    { tocommon_entry := (common_entry.of_frame eh).parse m addr,
      m_augmentation_string :=
        (((common_entry.of_frame eh).parse m addr).m_payload_start + 4 + 1) % W64,
      m_code_alignment := ca, m_data_alignment := da, m_return_address_reg := ra,
      m_pointer_encoding := 0, m_lsda_encoding := 0, m_personality_encoding := 0,
      m_personality_function := 0, m_initial_instructions := 0 }
    x (rest ++ [0]) hx0 hxL hxP hxR
    ls fuel 1 ⟨0, 0, 0, 0⟩ p0 r q cnt hstr.2 (by omega) (by omega) (Nat.le_refl 1) hwalk
    (by omega)
  unfold ci_entry.at ci_entry.parse ci_entry.init
  dsimp only
  rw [if_neg hv, if_neg (by rw [hc]; decide), hskip]
  dsimp only
  rw [hca]
  dsimp only
  rw [hda]
  dsimp only
  rw [hra]
  dsimp only
  rw [if_pos hz, hlen]
  dsimp only
  unfold ci_entry.with_aug at hloop
  dsimp only at hloop
  rw [hloop]

/-- C11, amended, at the second CIE of the `zRX` section, which declares the
augmentation-data length 2: the scan reaches `X` at index 2 and aborts. -/
theorem cie_unknown_letter_aborts_witness :
    ci_entry.at 20 unk_mem unk_frame 0x5014 = .error .abort :=
  cie_unknown_letter_aborts 20 unk_mem unk_frame 0x5014 [.R] 0x58 [] 1 (-4) 16 2
    0x5022 0x5023 0x5024 0x5025 ⟨0, 0, 0, 0⟩ 0x5026 1
    (by decide) (by rfl) (by decide) (by decide) (by decide) (by decide)
    (by intro b hb; cases hb)
    ⟨by rfl, by rfl, by rfl, by rfl, trivial⟩
    (by decide) (by decide) (by rfl) (by rfl) (by rfl) (by rfl) (by rfl) (by decide)

/-! ### Advancing an FDE cursor -/

theorem fd_aug_loop_indep (fuel : Nat) (m : Mem) (len : Nat) :
    ∀ (n i : Nat) (s s' : fd_entry) (p : Nat) (r : fd_entry) (q : Nat),
      s.m_cie = s'.m_cie → fd_entry.aug_loop fuel m len n i s p = .ok (r, q) →
      ∃ r', fd_entry.aug_loop fuel m len n i s' p = .ok (r', q) := by
  intro n
  induction n with
  | zero => intro i s s' p r q _ h; simp [fd_entry.aug_loop] at h
  | succ n ih =>
    intro i s s' p r q hc h
    unfold fd_entry.aug_loop at h ⊢
    dsimp only at h ⊢
    rw [hc] at h
    by_cases hcond : s'.m_cie.augmentation_string m i ≠ 0 ∧ i ≤ len
    · rw [if_pos hcond] at h ⊢
      by_cases hL : s'.m_cie.augmentation_string m i = 0x4C
      · rw [if_pos hL] at h ⊢
        cases hd : decode_pointer fuel m p s'.m_cie.m_lsda_encoding with
        | error e => simp [hd] at h
        | ok vq =>
          obtain ⟨v, q1⟩ := vq
          simp only [hd] at h ⊢
          refine ih _ _ _ _ _ _ ?_ h
          rfl
      · rw [if_neg hL] at h ⊢
        by_cases hP : s'.m_cie.augmentation_string m i = 0x50
        · rw [if_pos hP] at h ⊢
          exact ih _ _ _ _ _ _ hc h
        · rw [if_neg hP] at h ⊢
          by_cases hR : s'.m_cie.augmentation_string m i = 0x52
          · rw [if_pos hR] at h ⊢
            exact ih _ _ _ _ _ _ hc h
          · rw [if_neg hR] at h
            cases h
    · rw [if_neg hcond] at h ⊢
      simp only [Except.ok.injEq, Prod.mk.injEq] at h
      exact ⟨s', by rw [h.2]⟩

theorem fd_inc_eq_parse (fuel : Nat) (m : Mem) (self : fd_entry)
    (hs : self.m_entry_start ≠ 0) :
    self.inc fuel m = self.parse fuel m self.tocommon_entry.next_address := by
  unfold fd_entry.inc common_entry.next_address
  rw [if_neg hs]
  split_ifs <;> rfl

/-- Whatever the record, a successful `fd_entry::parse` leaves the cursor that
`common_entry::parse` computes. -/
theorem fd_parse_cursor (fuel : Nat) (m : Mem) (self : fd_entry) (addr : Nat) (r : fd_entry)
    (h : self.parse fuel m addr = .ok r) :
    r.tocommon_entry = self.tocommon_entry.parse m addr := by
  unfold fd_entry.parse at h
  dsimp only at h
  by_cases h0 : (self.tocommon_entry.parse m addr).m_entry_start = 0
  · rw [if_pos h0] at h
    simp only [Except.ok.injEq] at h
    rw [← h]
  rw [if_neg h0] at h
  by_cases h1 : (self.tocommon_entry.parse m addr).m_is_cie = true
  · rw [if_pos h1] at h
    simp only [Except.ok.injEq] at h
    rw [← h]
  rw [if_neg h1] at h
  revert h
  cases ci_entry.at fuel m (self.tocommon_entry.parse m addr).m_eh_frame
      (((self.tocommon_entry.parse m addr).m_payload_start + W64
        - rd32 m (self.tocommon_entry.parse m addr).m_payload_start) % W64) with
  | error e => intro x; cases x
  | ok cie =>
    dsimp only
    cases decode_pointer fuel m (((self.tocommon_entry.parse m addr).m_payload_start + 4) % W64)
        cie.m_pointer_encoding with
    | error e => intro x; cases x
    | ok vb =>
      obtain ⟨pcb, q1⟩ := vb
      dsimp only
      cases decode_pointer fuel m q1 (cie.m_pointer_encoding &&& 0xF) with
      | error e => intro x; cases x
      | ok vr =>
        obtain ⟨pcr, q2⟩ := vr
        dsimp only
        by_cases hz : cie.augmentation_string m 0 = 0x7A
        · rw [if_pos hz]
          cases decode_uleb128 fuel m q2 with
          | error e => intro x; cases x
          | ok vl =>
            obtain ⟨len, q3⟩ := vl
            dsimp only
            cases hl : fd_entry.aug_loop fuel m len fuel 1
                { tocommon_entry := self.tocommon_entry.parse m addr,
                  m_cie := cie, m_pc_begin := pcb, m_pc_range := pcr,
                  m_lsda := self.m_lsda, m_instructions := self.m_instructions } q3 with
            | error e => intro x; cases x
            | ok rq =>
              obtain ⟨r2, q4⟩ := rq
              dsimp only
              intro x
              simp only [Except.ok.injEq] at x
              rw [← x]
              exact (fd_aug_loop_keeps fuel m len _ _ _ _ _ _ hl).1
        · rw [if_neg hz]
          intro x
          simp only [Except.ok.injEq] at x
          rw [← x]

/-- A successful `fd_entry::parse` on an FDE record leaves the cursor, the CIE,
`pc_begin`, `pc_range` and the instructions cursor that a freshly constructed
`fd_entry` has at the same address. -/
theorem fd_parse_fresh (fuel : Nat) (m : Mem) (self : fd_entry) (addr : Nat) (r : fd_entry)
    (h : self.parse fuel m addr = .ok r) (hv : r.m_entry_start ≠ 0)
    (hf : r.m_is_cie = false) :
    ∃ f : fd_entry, fd_entry.at fuel m self.m_eh_frame addr = .ok f
      ∧ f.tocommon_entry = r.tocommon_entry ∧ f.m_cie = r.m_cie
      ∧ f.m_pc_begin = r.m_pc_begin ∧ f.m_pc_range = r.m_pc_range
      ∧ f.m_instructions = r.m_instructions := by
  obtain ⟨k1, p1, p2, hc, hb, hr, haug⟩ := fd_parse_inv fuel m self addr r h hv hf
  have hpf : (common_entry.of_frame self.m_eh_frame).parse m addr = r.tocommon_entry := by
    rw [k1]; exact (parse_of_frame m self.tocommon_entry addr).symm
  unfold fd_entry.at fd_entry.parse fd_entry.init
  dsimp only
  rw [hpf, if_neg hv, if_neg (by rw [hf]; decide), hc]
  dsimp only
  rw [hb]
  dsimp only
  rw [hr]
  dsimp only
  by_cases hz : r.m_cie.augmentation_string m 0 = 0x7A
  · rw [if_pos hz] at haug ⊢
    obtain ⟨len, p3, s, r0, hu, hsc, _, hloop, _⟩ := haug
    rw [hu]
    dsimp only
    obtain ⟨r1, hloop1⟩ := fd_aug_loop_indep fuel m len fuel 1 s
      { tocommon_entry := r.tocommon_entry, m_cie := r.m_cie, m_pc_begin := r.m_pc_begin,
        m_pc_range := r.m_pc_range, m_lsda := 0, m_instructions := 0 }
      p3 r0 r.m_instructions hsc hloop
    rw [hloop1]
    dsimp only
    obtain ⟨j1, j2, j3, j4, _⟩ := fd_aug_loop_keeps fuel m len _ _ _ _ _ _ hloop1
    exact ⟨_, rfl, j1, j2, j3, j4, rfl⟩
  · rw [if_neg hz] at haug ⊢
    exact ⟨_, rfl, rfl, rfl, rfl, rfl, haug.1.symm⟩

theorem fd_parse_place (fuel : Nat) (m : Mem) (self : fd_entry) (addr : Nat) (r : fd_entry)
    (h : self.parse fuel m addr = .ok r) (hv : r.m_entry_start ≠ 0)
    (hf : r.m_is_cie = false) :
    r.m_entry_start = addr ∧ r.m_eh_frame = self.m_eh_frame := by
  obtain ⟨k1, _⟩ := fd_parse_inv fuel m self addr r h hv hf
  have hv' : (self.tocommon_entry.parse m addr).m_entry_start ≠ 0 := by rw [← k1]; exact hv
  obtain ⟨e1, _, _, _, _, e6⟩ := parse_fields_of_success m self.tocommon_entry addr hv'
  rw [k1]
  exact ⟨e1, e6⟩

theorem find_fde_module_parsed (fuel : Nat) (m : Mem) (ip : Nat) :
    ∀ (n : Nat) (fde r : fd_entry),
      (∃ (self : fd_entry) (addr : Nat), self.parse fuel m addr = .ok fde) →
      find_fde_module fuel m ip n fde = .ok (some r) →
      r.m_entry_start ≠ 0 ∧ r.m_is_cie = false
        ∧ ∃ (self : fd_entry) (addr : Nat), self.parse fuel m addr = .ok r := by
  intro n
  induction n with
  | zero => intro fde r _ h; simp [find_fde_module] at h
  | succ n ih =>
    intro fde r hq h
    unfold find_fde_module at h
    by_cases h0 : fde.m_entry_start = 0
    · rw [if_pos h0] at h
      simp at h
    rw [if_neg h0] at h
    have hnext : ∀ next, fde.inc fuel m = .ok next →
        ∃ (self : fd_entry) (addr : Nat), self.parse fuel m addr = .ok next := by
      intro next hn
      rw [fd_inc_eq_parse fuel m fde h0] at hn
      exact ⟨_, _, hn⟩
    by_cases hc : fde.m_is_cie = true
    · rw [if_pos hc] at h
      cases hi : fde.inc fuel m with
      | error e => simp [hi] at h
      | ok next =>
        simp only [hi] at h
        exact ih next r (hnext next hi) h
    · rw [if_neg hc] at h
      by_cases hin : fde.is_in_range ip = true
      · rw [if_pos hin] at h
        simp only [Except.ok.injEq, Option.some.injEq] at h
        subst h
        exact ⟨h0, by simpa using hc, hq⟩
      · rw [if_neg hin] at h
        cases hi : fde.inc fuel m with
        | error e => simp [hi] at h
        | ok next =>
          simp only [hi] at h
          exact ih next r (hnext next hi) h

theorem find_fde_parsed (fuel : Nat) (m : Mem) (ip : Nat) :
    ∀ (mods : List eh_frame_t) (r : fd_entry),
      find_fde fuel m ip mods = .ok r → r.m_entry_start ≠ 0 →
      r.m_is_cie = false ∧ ∃ (self : fd_entry) (addr : Nat), self.parse fuel m addr = .ok r := by
  intro mods
  induction mods with
  | nil =>
    intro r h hv
    simp only [find_fde, Except.ok.injEq] at h
    subst h
    exact absurd rfl hv
  | cons eh rest ih =>
    intro r h hv
    unfold find_fde at h
    cases hf : fd_entry.first fuel m eh with
    | error e => simp [hf] at h
    | ok fde =>
      simp only [hf] at h
      cases hm : find_fde_module fuel m ip fuel fde with
      | error e => simp [hm] at h
      | ok o =>
        cases o with
        | none =>
          simp only [hm] at h
          exact ih r h hv
        | some x =>
          simp only [hm, Except.ok.injEq] at h
          subst h
          obtain ⟨_, a2, a3⟩ := find_fde_module_parsed fuel m ip fuel fde x ⟨_, _, hf⟩ hm
          exact ⟨a2, a3⟩

/-- A successful `fd_entry::parse` that leaves the cursor terminal or on a CIE
record has returned right after `common_entry::parse`: every field of the
`fd_entry` itself is the one the object had before. -/
theorem fd_parse_keeps (fuel : Nat) (m : Mem) (self : fd_entry) (addr : Nat) (r : fd_entry)
    (h : self.parse fuel m addr = .ok r) (hr : r.m_entry_start = 0 ∨ r.m_is_cie = true) :
    r = { self with tocommon_entry := self.tocommon_entry.parse m addr } := by
  have hcur := fd_parse_cursor fuel m self addr r h
  rcases hr with hr | hr
  · have h0 : (self.tocommon_entry.parse m addr).m_entry_start = 0 := by rw [← hcur]; exact hr
    unfold fd_entry.parse at h
    dsimp only at h
    rw [if_pos h0] at h
    simp only [Except.ok.injEq] at h
    exact h.symm
  · have h1 : (self.tocommon_entry.parse m addr).m_is_cie = true := by rw [← hcur]; exact hr
    unfold fd_entry.parse at h
    dsimp only at h
    by_cases h0 : (self.tocommon_entry.parse m addr).m_entry_start = 0
    · rw [if_pos h0] at h
      simp only [Except.ok.injEq] at h
      exact h.symm
    · rw [if_neg h0, if_pos h1] at h
      simp only [Except.ok.injEq] at h
      exact h.symm

/-- C17 as stated fails, in two ways, on the section of `stale_bytes`.
`operator++` on the first FDE re-parses at `0x7030`, a CIE record, and the
object keeps the `pc_begin`, `pc_range`, `lsda` and CIE of that FDE, while a
fresh FDE parse at `0x7030` has them zero: `fd_entry::parse` works on the same
object and returns right after `common_entry::parse`. And `find_fde` for
`0x2010` returns the FDE at `0x7044` with the `lsda` 213 of the first FDE,
while a fresh FDE parse at `0x7044` has the `lsda` 0: `fd_entry::parse` assigns
`m_lsda` only in the case `L` of its loop and does not reset it, so that an
`lsda` outlives the record it was read from. -/
theorem advance_keeps_old_fields :
    fd_entry.at 20 stale_mem stale_frame 0x7014 = .ok stale_fde1
      ∧ stale_fde1.m_entry_start ≠ 0 ∧ stale_fde1.m_is_cie = false
      ∧ stale_fde1.next_address = 0x7030
      ∧ stale_fde1.inc 20 stale_mem = .ok stale_on_cie
      ∧ stale_on_cie.m_entry_start = 0x7030 ∧ stale_on_cie.m_is_cie = true
      ∧ stale_on_cie.m_pc_begin = 0x1000 ∧ stale_on_cie.m_pc_range = 0x40
      ∧ stale_on_cie.m_lsda = 213
      ∧ stale_on_cie.m_cie = stale_fde1.m_cie
      ∧ fd_entry.at 20 stale_mem stale_frame 0x7030
          = .ok (fd_entry.init stale_on_cie.tocommon_entry)
      ∧ stale_on_cie ≠ fd_entry.init stale_on_cie.tocommon_entry
      ∧ find_fde 20 stale_mem 0x2010 [stale_frame] = .ok stale_fde2
      ∧ stale_fde2.m_entry_start = 0x7044 ∧ stale_fde2.m_is_cie = false
      ∧ stale_fde2.m_eh_frame = stale_frame
      ∧ stale_fde2.m_lsda = 213
      ∧ fd_entry.at 20 stale_mem stale_frame 0x7044 = .ok stale_fresh2
      ∧ stale_fresh2.m_lsda = 0
      ∧ stale_fde2 ≠ stale_fresh2 := by
  refine ⟨by rfl, by decide, by rfl, by rfl, by rfl, by rfl, by rfl, by rfl, by rfl, by rfl,
    by rfl, by rfl, ?_, by rfl, by rfl, by rfl, by rfl, by rfl, by rfl, by rfl, ?_⟩
  · intro h
    have h2 := congrArg fd_entry.m_pc_begin h
    revert h2
    decide
  · intro h
    have h2 := congrArg fd_entry.m_lsda h
    revert h2
    decide

/-- C17, amended. For every non-terminal cursor on which `operator++` returns:
the object has the cursor fields of a fresh parse at the address that is
re-parsed; when the record there is accepted as an FDE, its CIE, `pc_begin`,
`pc_range` and instructions cursor are those of a fresh FDE parse at that
address; when the record there is a CIE or the cursor has become terminal, its
CIE, `pc_begin`, `pc_range` and instructions cursor are those the object had
before. And every FDE that `find_fde` returns has the cursor fields, CIE,
`pc_begin`, `pc_range` and instructions cursor of a fresh FDE parse at its
`entry_start`. Nothing is said of `lsda`. -/
theorem advance_fresh_fields (fuel : Nat) (m : Mem) :
    (∀ (self r : fd_entry), self.m_entry_start ≠ 0 → self.inc fuel m = .ok r →
        r.tocommon_entry
            = (common_entry.of_frame self.m_eh_frame).parse m self.tocommon_entry.next_address
          ∧ (r.m_entry_start ≠ 0 → r.m_is_cie = false →
              ∃ f : fd_entry,
                fd_entry.at fuel m self.m_eh_frame self.tocommon_entry.next_address = .ok f
                ∧ f.tocommon_entry = r.tocommon_entry ∧ f.m_cie = r.m_cie
                ∧ f.m_pc_begin = r.m_pc_begin ∧ f.m_pc_range = r.m_pc_range
                ∧ f.m_instructions = r.m_instructions)
          ∧ (r.m_entry_start = 0 ∨ r.m_is_cie = true →
              r.m_cie = self.m_cie ∧ r.m_pc_begin = self.m_pc_begin
                ∧ r.m_pc_range = self.m_pc_range ∧ r.m_instructions = self.m_instructions))
      ∧ (∀ (ip : Nat) (mods : List eh_frame_t) (found : fd_entry),
          find_fde fuel m ip mods = .ok found → found.m_entry_start ≠ 0 →
          ∃ f : fd_entry,
            fd_entry.at fuel m found.m_eh_frame found.m_entry_start = .ok f
            ∧ f.tocommon_entry = found.tocommon_entry ∧ f.m_cie = found.m_cie
            ∧ f.m_pc_begin = found.m_pc_begin ∧ f.m_pc_range = found.m_pc_range
            ∧ f.m_instructions = found.m_instructions) := by
  refine ⟨?_, ?_⟩
  · intro self r hs hinc
    rw [fd_inc_eq_parse fuel m self hs] at hinc
    refine ⟨?_, ?_, ?_⟩
    · rw [← parse_of_frame]
      exact fd_parse_cursor fuel m self _ r hinc
    · intro hv hf
      exact fd_parse_fresh fuel m self _ r hinc hv hf
    · intro hr
      rw [fd_parse_keeps fuel m self _ r hinc hr]
      exact ⟨rfl, rfl, rfl, rfl⟩
  · intro ip mods found hfind hfv
    obtain ⟨hf, self2, addr2, hp⟩ := find_fde_parsed fuel m ip mods found hfind hfv
    obtain ⟨e1, e2⟩ := fd_parse_place fuel m self2 addr2 found hp hfv hf
    rw [e1, e2]
    exact fd_parse_fresh fuel m self2 addr2 found hp hfv hf

/-- C17, amended, at the section of `stale_bytes`: `operator++` from the first
FDE lands on the second CIE and the object keeps its CIE, `pc_begin`,
`pc_range` and instructions cursor; `operator++` from there lands on the
second FDE, whose fields other than `lsda` are those of a fresh parse; and
that FDE is what `find_fde` returns for `0x2010`. -/
theorem advance_fresh_fields_witness :
    (stale_on_cie.m_cie = stale_fde1.m_cie ∧ stale_on_cie.m_pc_begin = stale_fde1.m_pc_begin
        ∧ stale_on_cie.m_pc_range = stale_fde1.m_pc_range
        ∧ stale_on_cie.m_instructions = stale_fde1.m_instructions)
      ∧ (∃ f : fd_entry,
          fd_entry.at 20 stale_mem stale_on_cie.m_eh_frame
              stale_on_cie.tocommon_entry.next_address = .ok f
          ∧ f.tocommon_entry = stale_fde2.tocommon_entry ∧ f.m_cie = stale_fde2.m_cie
          ∧ f.m_pc_begin = stale_fde2.m_pc_begin ∧ f.m_pc_range = stale_fde2.m_pc_range
          ∧ f.m_instructions = stale_fde2.m_instructions)
      ∧ (∃ f : fd_entry,
          fd_entry.at 20 stale_mem stale_fde2.m_eh_frame stale_fde2.m_entry_start = .ok f
          ∧ f.tocommon_entry = stale_fde2.tocommon_entry ∧ f.m_cie = stale_fde2.m_cie
          ∧ f.m_pc_begin = stale_fde2.m_pc_begin ∧ f.m_pc_range = stale_fde2.m_pc_range
          ∧ f.m_instructions = stale_fde2.m_instructions) :=
  ⟨(((advance_fresh_fields 20 stale_mem).1 stale_fde1 stale_on_cie (by decide) (by rfl)).2.2
      (Or.inr (by rfl))),
    (((advance_fresh_fields 20 stale_mem).1 stale_on_cie stale_fde2 (by decide) (by rfl)).2.1
      (by decide) (by rfl)),
    (advance_fresh_fields 20 stale_mem).2 0x2010 [stale_frame] stale_fde2 (by rfl) (by decide)⟩

/-! ### The CIE an FDE holds -/

theorem ci_aug_loop_keeps (fuel : Nat) (m : Mem) (len : Nat) :
    ∀ (n i : Nat) (s : ci_entry) (p : Nat) (r : ci_entry) (q : Nat),
      ci_entry.aug_loop fuel m len n i s p = .ok (r, q) →
      r.tocommon_entry = s.tocommon_entry := by
  intro n
  induction n with
  | zero => intro i s p r q h; simp [ci_entry.aug_loop] at h
  | succ n ih =>
    intro i s p r q h
    unfold ci_entry.aug_loop at h
    dsimp only at h
    by_cases hcond : rd8 m (s.m_augmentation_string + i) ≠ 0 ∧ i ≤ len
    · rw [if_pos hcond] at h
      by_cases hL : rd8 m (s.m_augmentation_string + i) = 0x4C
      · rw [if_pos hL] at h
        have key := ih _ _ _ _ _ h
        exact key
      · rw [if_neg hL] at h
        by_cases hP : rd8 m (s.m_augmentation_string + i) = 0x50
        · rw [if_pos hP] at h
          cases hd : decode_pointer fuel m ((p + 1) % W64) (rd8 m p) with
          | error e => simp [hd] at h
          | ok vq =>
            obtain ⟨v, q1⟩ := vq
            simp only [hd] at h
            have key := ih _ _ _ _ _ h
            exact key
        · rw [if_neg hP] at h
          by_cases hR : rd8 m (s.m_augmentation_string + i) = 0x52
          · rw [if_pos hR] at h
            have key := ih _ _ _ _ _ h
            exact key
          · rw [if_neg hR] at h
            cases h
    · rw [if_neg hcond] at h
      simp only [Except.ok.injEq, Prod.mk.injEq] at h
      rw [← h.1]

/-- What the CIE parser returns: the cursor is the one `common_entry::parse`
computes, and on a record that is terminal or not a CIE nothing else is set. -/
theorem ci_at_cursor (fuel : Nat) (m : Mem) (eh : eh_frame_t) (a : Nat) (cie : ci_entry)
    (h : ci_entry.at fuel m eh a = .ok cie) :
    cie.tocommon_entry = (common_entry.of_frame eh).parse m a
      ∧ (((common_entry.of_frame eh).parse m a).m_entry_start = 0
          ∨ ((common_entry.of_frame eh).parse m a).m_is_cie = false →
          cie = ci_entry.init ((common_entry.of_frame eh).parse m a)) := by
  unfold ci_entry.at ci_entry.parse ci_entry.init at h
  dsimp only at h
  by_cases h0 : ((common_entry.of_frame eh).parse m a).m_entry_start = 0
  · rw [if_pos h0] at h
    simp only [Except.ok.injEq] at h
    rw [← h]
    exact ⟨rfl, fun _ => rfl⟩
  rw [if_neg h0] at h
  by_cases h1 : ((common_entry.of_frame eh).parse m a).m_is_cie = false
  · rw [if_pos h1] at h
    simp only [Except.ok.injEq] at h
    rw [← h]
    exact ⟨rfl, fun _ => rfl⟩
  rw [if_neg h1] at h
  refine ⟨?_, fun hx => ?_⟩
  · revert h
    cases skip_string fuel m ((((common_entry.of_frame eh).parse m a).m_payload_start + 4 + 1) % W64) with
    | error e => intro x; cases x
    | ok pa =>
      dsimp only
      cases decode_uleb128 fuel m pa with
      | error e => intro x; cases x
      | ok v1 =>
        obtain ⟨ca, pb⟩ := v1
        dsimp only
        cases decode_sleb128 fuel m pb with
        | error e => intro x; cases x
        | ok v2 =>
          obtain ⟨da, pc⟩ := v2
          dsimp only
          cases decode_uleb128 fuel m pc with
          | error e => intro x; cases x
          | ok v3 =>
            obtain ⟨ra, pd⟩ := v3
            dsimp only
            by_cases hz : rd8 m
                ((((common_entry.of_frame eh).parse m a).m_payload_start + 4 + 1) % W64) = 0x7A
            · rw [if_pos hz]
              cases decode_uleb128 fuel m pd with
              | error e => intro x; cases x
              | ok v4 =>
                obtain ⟨len, p0⟩ := v4
                dsimp only
                cases hl : ci_entry.aug_loop fuel m len fuel 1
                    { tocommon_entry := (common_entry.of_frame eh).parse m a,
                      m_augmentation_string :=
                        (((common_entry.of_frame eh).parse m a).m_payload_start + 4 + 1) % W64,
                      m_code_alignment := ca, m_data_alignment := da,
                      m_return_address_reg := ra, m_pointer_encoding := 0,
                      m_lsda_encoding := 0, m_personality_encoding := 0,
                      m_personality_function := 0, m_initial_instructions := 0 } p0 with
                | error e => intro x; cases x
                | ok rq =>
                  obtain ⟨r2, q⟩ := rq
                  dsimp only
                  intro x
                  simp only [Except.ok.injEq] at x
                  rw [← x]
                  exact ci_aug_loop_keeps fuel m len _ _ _ _ _ _ hl
            · rw [if_neg hz]
              intro x
              simp only [Except.ok.injEq] at x
              rw [← x]
  · rcases hx with hx | hx
    · exact absurd hx h0
    · exact absurd hx h1

/-- C18: the FDE parser accepts the record at `0x8000` of the section of
`orphan_bytes` as an FDE and populates `pc_begin` and `pc_range`, but its CIE
pointer designates the FDE itself, and the CIE it holds is not a CIE record
(`is_cie` is false, all CIE fields are zero, the augmentation string is null);
`find_fde` returns this FDE for `0x1010`. -/
theorem fde_holds_no_cie :
    fd_entry.at 20 orphan_mem orphan_frame 0x8000 = .ok orphan_fde
      ∧ orphan_fde.m_entry_start = 0x8000 ∧ orphan_fde.m_is_cie = false
      ∧ orphan_fde.m_pc_begin = 0x1000 ∧ orphan_fde.m_pc_range = 0x40
      ∧ orphan_fde.m_cie.m_entry_start = 0x8000
      ∧ orphan_fde.m_cie.m_is_cie = false
      ∧ orphan_fde.m_cie = ci_entry.init orphan_fde.tocommon_entry
      ∧ find_fde 20 orphan_mem 0x1010 [orphan_frame] = .ok orphan_fde := by
  refine ⟨by rfl, by rfl, by rfl, by rfl, by rfl, by rfl, by rfl, by rfl, by rfl⟩

/-- The CIE an accepted FDE holds is what the CIE parser returns at
`payload_start - value` for the same section descriptor: its cursor is the one
`common_entry::parse` computes there, with no check that it is a CIE record;
when it is not one, all its CIE fields are zero, and `pc_begin` and `pc_range`
are decoded with the encoding 0 (absptr). -/
theorem fde_cie_as_parsed (fuel : Nat) (m : Mem) (self : fd_entry) (addr : Nat) (fde : fd_entry)
    (h : self.parse fuel m addr = .ok fde) (hv : fde.m_entry_start ≠ 0)
    (hf : fde.m_is_cie = false) :
    fde.m_cie.tocommon_entry
        = (common_entry.of_frame fde.m_eh_frame).parse m
            ((fde.m_payload_start + W64 - rd32 m fde.m_payload_start) % W64)
      ∧ (fde.m_cie.m_entry_start = 0 ∨ fde.m_cie.m_is_cie = false →
          fde.m_cie = ci_entry.init fde.m_cie.tocommon_entry
          ∧ ∃ (p1 p2 : Nat),
              decode_pointer fuel m ((fde.m_payload_start + 4) % W64) DW_EH_PE_absptr
                = .ok (fde.m_pc_begin, p1)
              ∧ decode_pointer fuel m p1 DW_EH_PE_absptr = .ok (fde.m_pc_range, p2)) := by
  obtain ⟨_, p1, p2, hc, hb, hr, _⟩ := fd_parse_inv fuel m self addr fde h hv hf
  obtain ⟨c1, c2⟩ := ci_at_cursor fuel m _ _ _ hc
  refine ⟨c1, fun hx => ?_⟩
  have hinit : fde.m_cie = ci_entry.init fde.m_cie.tocommon_entry := by
    have := c2 (by rw [← c1]; exact hx)
    rw [c1]
    exact this
  have henc : fde.m_cie.m_pointer_encoding = 0 := by rw [hinit]; rfl
  rw [henc] at hb hr
  exact ⟨hinit, p1, p2, hb, hr⟩

/-- An address past the end of the section is accepted as well when the
extended length wraps the end of the record back into the section. -/
theorem parse_accepts_outside_address :
    ¬ (0x1100 < wrap_frame.addr + wrap_frame.size)
      ∧ (common_entry.of_frame wrap_frame).parse outside_mem 0x1100
          = { m_is_cie := true, m_entry_start := 0x1100, m_entry_end := 0x10FC,
              m_payload_start := 0x110C, m_payload_end := 0x10FC, m_eh_frame := wrap_frame } := by
  exact ⟨by decide, by rfl⟩

/-- The fields of an accepted record: at every address at which `parse`
succeeds, `entry_start` is the address; when the 4-byte field at the address
is not `0xFFFFFFFF` the length is that field and `payload_start` is the address plus 4, otherwise the
length is the 8-byte field at the address plus 4 and `payload_start` is the
address plus 12; `payload_end = entry_end` is `payload_start` plus the length;
all sums are taken modulo `2^64`, and they are the plain sums when the record
ends inside the address space; `is_cie` holds exactly when the 4-byte field at
`payload_start` is 0. -/
theorem parse_fields_mod (m : Mem) (eh : eh_frame_t) (addr : Nat)
    (h : ((common_entry.of_frame eh).parse m addr).m_entry_start ≠ 0) :
    ((common_entry.of_frame eh).parse m addr).m_entry_start = addr
      ∧ (rd32 m addr ≠ 0xFFFFFFFF →
          ((common_entry.of_frame eh).parse m addr).m_payload_start = (addr + 4) % W64
          ∧ ((common_entry.of_frame eh).parse m addr).m_payload_end
              = (((common_entry.of_frame eh).parse m addr).m_payload_start + rd32 m addr) % W64)
      ∧ (rd32 m addr = 0xFFFFFFFF →
          ((common_entry.of_frame eh).parse m addr).m_payload_start = (addr + 12) % W64
          ∧ ((common_entry.of_frame eh).parse m addr).m_payload_end
              = (((common_entry.of_frame eh).parse m addr).m_payload_start
                  + rd64 m (addr + 4)) % W64)
      ∧ ((common_entry.of_frame eh).parse m addr).m_entry_end
          = ((common_entry.of_frame eh).parse m addr).m_payload_end
      ∧ (((common_entry.of_frame eh).parse m addr).m_is_cie = true
          ↔ rd32 m ((common_entry.of_frame eh).parse m addr).m_payload_start = 0)
      ∧ (rd32 m addr ≠ 0xFFFFFFFF → addr + 4 + rd32 m addr < W64 →
          ((common_entry.of_frame eh).parse m addr).m_payload_start = addr + 4
          ∧ ((common_entry.of_frame eh).parse m addr).m_payload_end
              = ((common_entry.of_frame eh).parse m addr).m_payload_start + rd32 m addr)
      ∧ (rd32 m addr = 0xFFFFFFFF → addr + 12 + rd64 m (addr + 4) < W64 →
          ((common_entry.of_frame eh).parse m addr).m_payload_start = addr + 12
          ∧ ((common_entry.of_frame eh).parse m addr).m_payload_end
              = ((common_entry.of_frame eh).parse m addr).m_payload_start
                  + rd64 m (addr + 4)) := by
  obtain ⟨e1, e2, e3, e4, e5, _⟩ := parse_fields_of_success m (common_entry.of_frame eh) addr h
  refine ⟨e1, ?_, ?_, e4, ?_, ?_, ?_⟩
  · intro hs
    rw [if_pos hs] at e2 e3
    exact ⟨e2, e3⟩
  · intro hx
    have hs : ¬ rd32 m addr ≠ 0xFFFFFFFF := fun hn => hn hx
    rw [if_neg hs] at e2 e3
    exact ⟨e2, e3⟩
  · rw [e5]
    simp only [decide_eq_true_eq]
  · intro hs hfit
    rw [if_pos hs] at e2 e3
    have a1 : (addr + 4) % W64 = addr + 4 := Nat.mod_eq_of_lt (by omega)
    rw [a1] at e2
    rw [e3, e2, Nat.mod_eq_of_lt hfit]
    exact ⟨rfl, rfl⟩
  · intro hx hfit
    have hs : ¬ rd32 m addr ≠ 0xFFFFFFFF := fun hn => hn hx
    rw [if_neg hs] at e2 e3
    have a1 : (addr + 12) % W64 = addr + 12 := Nat.mod_eq_of_lt (by omega)
    rw [a1] at e2
    rw [e3, e2, Nat.mod_eq_of_lt hfit]
    exact ⟨rfl, rfl⟩

/-- The fields of the record with an extended length of the stream of three
records: it starts at `0x2009`, its payload at `0x2015`, and it ends at
`0x2017`. -/
theorem parse_fields_mod_witness :
    ((common_entry.of_frame stream_frame).parse stream_mem 0x2009).m_entry_start = 0x2009
      ∧ ((common_entry.of_frame stream_frame).parse stream_mem 0x2009).m_payload_start
          = 0x2009 + 12
      ∧ ((common_entry.of_frame stream_frame).parse stream_mem 0x2009).m_payload_end
          = ((common_entry.of_frame stream_frame).parse stream_mem 0x2009).m_payload_start
              + rd64 stream_mem (0x2009 + 4) := by
  have h := parse_fields_mod stream_mem stream_frame 0x2009 (by decide)
  exact ⟨h.1, h.2.2.2.2.2.2 (by rfl) (by decide)⟩

end EhFrame

namespace VcpuManager

/-! ### Deleting a vcpu -/

theorem lock_self {V : Type} (s : state V) : s.lock.self = s.self := rfl

theorem unlock_self {V : Type} (s : state V) : s.unlock.self = s.self := rfl

/-- On an id that is not registered `delete_vcpu` throws and leaves the manager
as it was. -/
theorem delete_vcpu_absent {V : Type} (s : state V) (vcpuid : Nat)
    (h : s.self.m_vcpus.lookup vcpuid = none) :
    delete_vcpu s vcpuid = (.error (.invalid_argument "invalid vcpuid"), s.lock.unlock) := by
  unfold delete_vcpu
  simp only [lock_self, h]

/-- On a registered id `delete_vcpu` returns, with the entry erased. -/
theorem delete_vcpu_present {V : Type} (s : state V) (vcpuid : Nat) (p : Option V)
    (h : s.self.m_vcpus.lookup vcpuid = some p) :
    (delete_vcpu s vcpuid).1 = .ok ()
      ∧ (delete_vcpu s vcpuid).2.self.m_vcpus = s.self.m_vcpus.erase vcpuid
      ∧ (delete_vcpu s vcpuid).2.g_vcpu_manager_mutex
          = s.g_vcpu_manager_mutex
              ++ [mutex_call.lock, mutex_call.unlock, mutex_call.unlock] := by
  have e : delete_vcpu s vcpuid
      = (.ok (), (state.unlock (state.unlock
          { s.lock with self := { m_vcpus := s.self.m_vcpus.erase vcpuid } }))) := by
    unfold delete_vcpu
    simp only [lock_self, h]
  rw [e]
  refine ⟨rfl, rfl, ?_⟩
  show (s.g_vcpu_manager_mutex ++ [mutex_call.lock] ++ [mutex_call.unlock])
      ++ [mutex_call.unlock] = _
  rw [List.append_assoc, List.append_assoc]
  rfl

/-- On an id that is not registered `get_vcpu` returns the null pointer. -/
theorem get_vcpu_absent {V : Type} (s : state V) (vcpuid : Nat)
    (h : s.self.m_vcpus.lookup vcpuid = none) :
    get_vcpu s vcpuid = (none, s.lock.unlock) := by
  unfold get_vcpu
  simp only [lock_self, h]

/-- On an id that is not registered `run_vcpu` throws `std::invalid_argument`. -/
theorem run_vcpu_absent {V : Type} (run : V → Except exception Unit) (s : state V)
    (vcpuid : Nat) (h : s.self.m_vcpus.lookup vcpuid = none) :
    (run_vcpu run s vcpuid).1 = .error (.invalid_argument "invalid vcpuid") := by
  unfold run_vcpu
  rw [get_vcpu_absent s vcpuid h]

/-- On an id that is not registered `hlt_vcpu` throws `std::invalid_argument`. -/
theorem hlt_vcpu_absent {V : Type} (hlt : V → Except exception Unit) (s : state V)
    (vcpuid : Nat) (h : s.self.m_vcpus.lookup vcpuid = none) :
    (hlt_vcpu hlt s vcpuid).1 = .error (.invalid_argument "invalid vcpuid") := by
  unfold hlt_vcpu
  rw [get_vcpu_absent s vcpuid h]

/-- After `delete_vcpu`, whether it threw or returned, nothing is registered
under the id. -/
theorem delete_vcpu_lookup {V : Type} (s : state V) (vcpuid : Nat) :
    (delete_vcpu s vcpuid).2.self.m_vcpus.lookup vcpuid = none := by
  cases h : s.self.m_vcpus.lookup vcpuid with
  | none =>
    rw [delete_vcpu_absent s vcpuid h]
    exact h
  | some p =>
    rw [(delete_vcpu_present s vcpuid p h).2.1]
    exact AList.lookup_erase vcpuid _

/-- The calls on the mutex: `get_vcpu` and a `delete_vcpu` that throws lock and
unlock once; a `delete_vcpu` that erases an entry locks once and unlocks
twice, by the explicit `unlock()` and by the guard. -/
theorem delete_vcpu_mutex_calls {V : Type} (s : state V) (vcpuid : Nat) :
    (get_vcpu s vcpuid).2.g_vcpu_manager_mutex
        = s.g_vcpu_manager_mutex ++ [mutex_call.lock, mutex_call.unlock]
      ∧ (vcpuid ∉ s.self.m_vcpus →
          (delete_vcpu s vcpuid).2.g_vcpu_manager_mutex
            = s.g_vcpu_manager_mutex ++ [mutex_call.lock, mutex_call.unlock])
      ∧ (vcpuid ∈ s.self.m_vcpus →
          (delete_vcpu s vcpuid).2.g_vcpu_manager_mutex
            = s.g_vcpu_manager_mutex
                ++ [mutex_call.lock, mutex_call.unlock, mutex_call.unlock]) := by
  refine ⟨?_, ?_, ?_⟩
  · unfold get_vcpu
    cases h : s.self.m_vcpus.lookup vcpuid <;>
      simp only [lock_self, h, state.unlock, state.lock, List.append_assoc,
        List.singleton_append]
  · intro hn
    rw [delete_vcpu_absent s vcpuid (AList.lookup_eq_none.mpr hn)]
    simp only [state.unlock, state.lock, List.append_assoc, List.singleton_append]
  · intro hm
    cases h : s.self.m_vcpus.lookup vcpuid with
    | none => exact absurd hm (AList.lookup_eq_none.mp h)
    | some p => exact (delete_vcpu_present s vcpuid p h).2.2

/-- C21: when no vcpu is registered under `vcpuid`, `delete_vcpu` throws
`std::invalid_argument` and leaves the vcpu map unchanged; otherwise it
returns, the id is no longer registered, the registered ids are the former
ones without `vcpuid`, and every other id keeps its entry; in both cases a
following `get_vcpu` of that id returns the null pointer and a following
`run_vcpu` or `hlt_vcpu` of that id throws `std::invalid_argument`. -/
theorem delete_vcpu_removes_entry {V : Type} (run hlt : V → Except exception Unit)
    (s : state V) (vcpuid : Nat) :
    (vcpuid ∉ s.self.m_vcpus →
        (delete_vcpu s vcpuid).1 = .error (.invalid_argument "invalid vcpuid")
        ∧ (delete_vcpu s vcpuid).2.self.m_vcpus = s.self.m_vcpus)
      ∧ (vcpuid ∈ s.self.m_vcpus →
        (delete_vcpu s vcpuid).1 = .ok ()
        ∧ vcpuid ∉ (delete_vcpu s vcpuid).2.self.m_vcpus
        ∧ (delete_vcpu s vcpuid).2.self.m_vcpus.keys = s.self.m_vcpus.keys.erase vcpuid
        ∧ ∀ k, k ≠ vcpuid →
            (delete_vcpu s vcpuid).2.self.m_vcpus.lookup k = s.self.m_vcpus.lookup k)
      ∧ (get_vcpu (delete_vcpu s vcpuid).2 vcpuid).1 = none
      ∧ (run_vcpu run (delete_vcpu s vcpuid).2 vcpuid).1
          = .error (.invalid_argument "invalid vcpuid")
      ∧ (hlt_vcpu hlt (delete_vcpu s vcpuid).2 vcpuid).1
          = .error (.invalid_argument "invalid vcpuid") := by
  have hl := delete_vcpu_lookup s vcpuid
  refine ⟨?_, ?_, ?_, run_vcpu_absent run _ vcpuid hl, hlt_vcpu_absent hlt _ vcpuid hl⟩
  · intro hn
    rw [delete_vcpu_absent s vcpuid (AList.lookup_eq_none.mpr hn)]
    exact ⟨rfl, rfl⟩
  · intro hm
    cases h : s.self.m_vcpus.lookup vcpuid with
    | none => exact absurd hm (AList.lookup_eq_none.mp h)
    | some p =>
      obtain ⟨e1, e2, _⟩ := delete_vcpu_present s vcpuid p h
      refine ⟨e1, AList.lookup_eq_none.mp hl, ?_, ?_⟩
      · rw [e2]
        exact AList.keys_erase vcpuid _
      · intro k hk
        rw [e2]
        exact AList.lookup_erase_ne hk
  · rw [get_vcpu_absent _ vcpuid hl]

/-- C21, at the state holding the vcpus 0 and 1: deleting 7 throws and changes
nothing; deleting 1 returns, leaves only 0 registered with its vcpu, and a
following `get_vcpu(1)` returns the null pointer. -/
theorem delete_vcpu_removes_entry_witness :
    (delete_vcpu demo_state 7).1 = .error (.invalid_argument "invalid vcpuid")
      ∧ (delete_vcpu demo_state 7).2.self.m_vcpus = demo_state.self.m_vcpus
      ∧ (delete_vcpu demo_state 1).1 = .ok ()
      ∧ (delete_vcpu demo_state 1).2.self.m_vcpus.keys = [0]
      ∧ (delete_vcpu demo_state 1).2.self.m_vcpus.lookup 0 = some (some 100)
      ∧ (get_vcpu (delete_vcpu demo_state 1).2 1).1 = none :=
  ⟨((delete_vcpu_removes_entry demo_run demo_run demo_state 7).1 (by decide)).1,
    ((delete_vcpu_removes_entry demo_run demo_run demo_state 7).1 (by decide)).2,
    ((delete_vcpu_removes_entry demo_run demo_run demo_state 1).2.1 (by decide)).1,
    ((delete_vcpu_removes_entry demo_run demo_run demo_state 1).2.1 (by decide)).2.2.1,
    ((delete_vcpu_removes_entry demo_run demo_run demo_state 1).2.1 (by decide)).2.2.2 0
      (by decide),
    (delete_vcpu_removes_entry demo_run demo_run demo_state 1).2.2.1⟩

end VcpuManager
